import Mathlib

/-!
Flow: tokenizer, symbol table and parser.

A shallow embedding of `src/token.h`, `src/token.cpp`, `src/parser.h` and
`src/parser.cpp`, followed by theorems about it.

Conventions of the embedding:

* a C `char` is a `Nat` (its byte value); a source text is a `List Nat`;
* a `const char *` is an `Option (List Nat)`: `none` is the null pointer, `some s`
  a string whose text (the bytes before the terminator) is `s`;
* a `size_t` that may hold the sentinel `(size_t)-1` is an `Option Nat` with `none`
  for the sentinel;
* a field or local that C++ leaves uninitialised is an `Option` that is `none` until
  the code writes it;
* loops of the parser take a fuel argument and return `none` when it runs out.
-/

namespace flow

/-- Token kinds, `Symbol_t` of token.h. -/
inductive Symbol_t
  | T_IDENT
  | T_KEYWORD_IN
  | T_KEYWORD_OUT
  | T_KEYWORD_NODE
  | T_KEYWORD_QUERY
  | T_KEYWORD_EVENT
  | T_KEYWORD_TRUE
  | T_KEYWORD_FALSE
  | T_TYPE_FLOAT
  | T_TYPE_BOOL
  | T_INTEGER
  | T_REAL
  | T_ASSIGN
  | T_QUESTION
  | T_COMMA
  | T_SEMICOLON
  | T_COLON
  | T_DOT
  | T_LEFT_PAREN
  | T_RIGHT_PAREN
  | T_LEFT_SQUARE_BRACKET
  | T_RIGHT_SQUARE_BRACKET
  | T_LEFT_CURLY_BRACKET
  | T_RIGHT_CURLY_BRACKET
  | T_ADD
  | T_SUB
  | T_MUL
  | T_DIV
  | T_EQUAL
  | T_LESS
  | T_GRT
  | T_LEQ
  | T_GEQ
  | T_FAILURE
  | T_EOF
  deriving DecidableEq, Repr

open Symbol_t

/-- The bytes of a string literal (used for ASCII text only). -/
def bytes (s : String) : List Nat := s.toList.map Char.toNat

/-- The text of a C string stored in a byte block: the bytes before the first NUL. -/
def cstr (block : List Nat) : List Nat := block.takeWhile (fun c => c != 0)

/-- Byte-wise `strcmp` on the texts of two C strings (negative, zero or positive). -/
def strcmp : List Nat → List Nat → Int
  | [], [] => 0
  | [], _ :: _ => -1
  | _ :: _, [] => 1
  | a :: as, b :: bs => if a < b then -1 else if b < a then 1 else strcmp as bs

/-! ## The arena -/

/-- Modelled from the spec: `pool.h` (the `Pool<char, 64>` arena) is not among the
sources. Section 3 and 4.1 of the specification describe it as an append-only store of
byte blocks: inserting a sequence returns a handle, insertion never fails, and a handle
keeps resolving to the same bytes whatever is inserted later. The blocks are kept in
insertion order and a handle is the number of blocks inserted before. -/
structure Pool where
  blocks : List (List Nat)
  deriving DecidableEq, Repr

/-- Modelled from the spec: `insert(bytes) -> handle` appends the bytes as a new block. -/
def Pool.Insert (p : Pool) (data : List Nat) : Pool × Nat :=
  (⟨p.blocks ++ [data]⟩, p.blocks.length)

/-- Modelled from the spec: `get(handle)` dereferences a handle; a handle this arena
never issued gives the null pointer. -/
def Pool.GetPointer (p : Pool) (h : Nat) : Option (List Nat) :=
  p.blocks.get? h

/-! ## The symbol table -/

/-- The tree of `SymbolTable`: `null` is a null `Node *`. -/
inductive SymbolTable.Node
  | null
  | node (m_pStr : Option (List Nat)) (m_nOffset : Nat) (m_pLeft m_pRight : SymbolTable.Node)
  deriving DecidableEq, Repr

/-- The class `SymbolTable` of token.h. -/
structure SymbolTable where
  m_pRoot : SymbolTable.Node
  m_StringPool : Pool
  deriving DecidableEq, Repr

/-- The constructor `SymbolTable()`. -/
def SymbolTable.new : SymbolTable := ⟨.null, ⟨[]⟩⟩

/-- The function `SymbolTable::Retrive`: the text the pool holds under `index`, or null. -/
def SymbolTable.Retrive (t : SymbolTable) (index : Option Nat) : Option (List Nat) :=
  match index with
  | none => none
  | some i => (t.m_StringPool.GetPointer i).map cstr

/-- The tail of `SymbolTable::Insert` after the search loop, for `modify = true`:
a new node is stored in `*dst`, the text and its terminator go into the pool, and the
node gets the pool pointer and the offset. The pool of the specification never returns
the sentinel, so the test `offset == (size_t)-1` cannot fire and only the null test on
`m_pStr` is kept. -/
def SymbolTable.allocNode (pStr : List Nat) (pool : Pool) :
    Option Nat × SymbolTable.Node × Pool :=
  let r := pool.Insert (pStr ++ [0])
  let p := (r.1.GetPointer r.2).map cstr
  (if p.isSome then some r.2 else none, .node p r.2 .null .null, r.1)

/-- The search loop of `SymbolTable::Insert` followed by its tail, on the subtree that
`pCurrent` points to; the result is the returned index, the subtree after the call and
the pool after the call. A null subtree is the slot `*dst`. Comparing with a node whose
`m_pStr` is null is undefined in C; no such node is created by this code, and the model
returns the sentinel there and changes nothing. -/
def SymbolTable.Node.Insert (pStr : List Nat) (modify : Bool) (pool : Pool) :
    SymbolTable.Node → Option Nat × SymbolTable.Node × Pool
  | .null => if modify then SymbolTable.allocNode pStr pool else (none, .null, pool)
  | .node none off l r => (none, .node none off l r, pool)
  | .node (some s) off l r =>
    let res := strcmp pStr s
    if res = 0 then (some off, .node (some s) off l r, pool)
    else if res < 0 then
      let x := SymbolTable.Node.Insert pStr modify pool l
      (x.1, .node (some s) off x.2.1 r, x.2.2)
    else
      let x := SymbolTable.Node.Insert pStr modify pool r
      (x.1, .node (some s) off l x.2.1, x.2.2)

/-- The function `SymbolTable::Insert(pStr, modify)`. -/
def SymbolTable.Insert (t : SymbolTable) (pStr : Option (List Nat)) (modify : Bool) :
    Option Nat × SymbolTable :=
  match pStr with
  | none => (none, t)
  | some s =>
    let x := SymbolTable.Node.Insert s modify t.m_StringPool t.m_pRoot
    (x.1, ⟨x.2.1, x.2.2⟩)

/-! ## Numeric payloads -/

/-- A finite IEEE-754 binary32 value `(-1)^neg * mant * 2^exp`, in the canonical form
of the format: `mant < 2^24`, `-149 ≤ exp ≤ 104`, and `2^23 ≤ mant` unless `exp = -149`. -/
structure FloatVal where
  neg : Bool
  mant : Nat
  exp : Int
  deriving DecidableEq, Repr

/-- Auxiliary recursion of `ilog2` (the first argument bounds the depth). -/
def ilog2Aux : Nat → Nat → Nat
  | 0, _ => 0
  | f + 1, n => if n < 2 then 0 else ilog2Aux f (n / 2) + 1

/-- The position of the highest set bit, `⌊log₂ n⌋` for `n > 0`. -/
def ilog2 (n : Nat) : Nat := ilog2Aux n n

/-- Round-to-nearest-even of the non-negative rational `p / q` (`q > 0`) to binary32;
`none` when the result exceeds the largest finite value. -/
def roundBinary32 (p q : Nat) : Option (Nat × Int) :=
  if p = 0 then some (0, -149)
  else
    let d : Int := (ilog2 p : Int) - (ilog2 q : Int)
    let fl : Int := if q * 2 ^ d.toNat ≤ p * 2 ^ (-d).toNat then d else d - 1
    let e : Int := max (-149) (fl - 23)
    let num := p * 2 ^ (-e).toNat
    let den := q * 2 ^ e.toNat
    let m0 := num / den
    let r := num % den
    let m := if den < 2 * r ∨ (2 * r = den ∧ m0 % 2 = 1) then m0 + 1 else m0
    let me : Nat × Int := if m = 2 ^ 24 then (2 ^ 23, e + 1) else (m, e)
    if 104 < me.2 then none else some me

/-- The conversion `static_cast<float>(int)`. -/
def castFloat (i : Int) : FloatVal :=
  match roundBinary32 i.natAbs 1 with
  | some (m, e) => ⟨decide (i < 0), m, e⟩
  | none => ⟨decide (i < 0), 0, -149⟩

/-- The value of a run of decimal digits. -/
def digitsVal (ds : List Nat) : Nat := ds.foldl (fun acc c => 10 * acc + (c - 48)) 0

/-- The extraction `ss >> int` from a text that is a run of digits: it fails when the
value does not fit in `int`. -/
def readInt (value : List Nat) : Option Int :=
  if digitsVal value ≤ 2147483647 then some (digitsVal value : Int) else none

/-- The extraction `ss >> float` from a text `digits . digits`: the nearest binary32
value; it fails when the value is out of range. -/
def readFloat (value : List Nat) : Option FloatVal :=
  let ip := value.takeWhile (fun c => c != 46)
  let fp := (value.dropWhile (fun c => c != 46)).drop 1
  match roundBinary32 (digitsVal (ip ++ fp)) (10 ^ fp.length) with
  | some (m, e) => some ⟨false, m, e⟩
  | none => none

/-! ## The tokenizer -/

/-- The structure `PositionInfo` of token.h. -/
structure PositionInfo where
  Row : Nat
  Col : Nat
  deriving DecidableEq, Repr

/-- The scanning sub-state `m_State`. -/
inductive TokState
  | TOK_INITIAL
  | TOK_NUMERIC
  | TOK_IDENT
  | TOK_FLOAT
  deriving DecidableEq, Repr

/-- The anonymous union `u` of the tokenizer, tagged by the member written last;
`uninit` before the first write. -/
inductive Payload
  | uninit
  | m_SymbolIndex (i : Option Nat)
  | m_RealValue (f : FloatVal)
  | m_IntValue (v : Int)
  deriving DecidableEq, Repr

/-- The class `Tokenizer`. `m_Stream` holds the characters not yet extracted.
`m_NextSym` is not initialised by the constructor and is read only while `m_HasPeeked`
is set; it starts as `T_IDENT` here. -/
structure Tokenizer where
  m_State : TokState
  m_NextSym : Symbol_t
  m_HasPeeked : Bool
  m_Stream : List Nat
  m_SymbolTable : SymbolTable
  m_Position : PositionInfo
  u : Payload
  deriving DecidableEq, Repr

/-- The constructor `Tokenizer(is)` on a stream holding `src`. -/
def Tokenizer.new (src : List Nat) : Tokenizer :=
  ⟨.TOK_INITIAL, T_IDENT, false, src, SymbolTable.new, ⟨0, 0⟩, .uninit⟩

/-- The function `Tokenizer::SymIndex()`; the sentinel when the union holds another member. -/
def Tokenizer.SymIndex (tk : Tokenizer) : Option Nat :=
  match tk.u with
  | .m_SymbolIndex i => i
  | _ => none

/-- The function `Tokenizer::RealValue()`; zero when the union holds another member. -/
def Tokenizer.RealValue (tk : Tokenizer) : FloatVal :=
  match tk.u with
  | .m_RealValue f => f
  | _ => ⟨false, 0, -149⟩

/-- The function `Tokenizer::IntValue()`; zero when the union holds another member. -/
def Tokenizer.IntValue (tk : Tokenizer) : Int :=
  match tk.u with
  | .m_IntValue v => v
  | _ => 0

/-- The function `Tokenizer::Position()`. -/
def Tokenizer.Position (tk : Tokenizer) : PositionInfo := tk.m_Position

/-- The function `Tokenizer::Lookup`. -/
def Tokenizer.Lookup (tk : Tokenizer) (sym : Option Nat) : Option (List Nat) :=
  tk.m_SymbolTable.Retrive sym

/-- The position update of `Tokenizer::GetChar` for an extracted character. -/
def PositionInfo.advance (p : PositionInfo) (c : Nat) : PositionInfo :=
  if c = 10 then ⟨p.Row + 1, 0⟩
  else if c = 9 then ⟨p.Row, p.Col + 4⟩
  else ⟨p.Row, p.Col + 1⟩

/-- The function `Tokenizer::GetChar`: `none` when the stream is exhausted. -/
def Tokenizer.GetChar (tk : Tokenizer) : Option Nat × Tokenizer :=
  match tk.m_Stream with
  | [] => (none, tk)
  | c :: rest => (some c, { tk with m_Stream := rest, m_Position := tk.m_Position.advance c })

/-- The function `Tokenizer::Peek(char &)` on the remaining stream: `none` when the stream is
exhausted, and also when the next byte is 0xFF, which a signed `char` compares equal
to `EOF`. -/
def peekChar (stream : List Nat) : Option Nat :=
  match stream with
  | [] => none
  | c :: _ => if c = 255 then none else some c

/-- The function `isdigit` in the C locale. -/
def isdigit (c : Nat) : Bool := decide (48 ≤ c) && decide (c ≤ 57)

/-- The function `isalpha` in the C locale. -/
def isalpha (c : Nat) : Bool :=
  (decide (65 ≤ c) && decide (c ≤ 90)) || (decide (97 ≤ c) && decide (c ≤ 122))

/-- The function `isalnum` in the C locale. -/
def isalnum (c : Nat) : Bool := isalpha c || isdigit c

/-- The table `SingleTokens`. -/
def SingleTokens : List (Nat × Symbol_t) :=
  [(59, T_SEMICOLON), (58, T_COLON), (46, T_DOT), (63, T_QUESTION), (44, T_COMMA),
   (40, T_LEFT_PAREN), (41, T_RIGHT_PAREN), (123, T_LEFT_CURLY_BRACKET),
   (125, T_RIGHT_CURLY_BRACKET), (91, T_LEFT_SQUARE_BRACKET), (93, T_RIGHT_SQUARE_BRACKET),
   (43, T_ADD), (45, T_SUB), (42, T_MUL), (47, T_DIV)]

/-- The table `Keywords`. -/
def Keywords : List (List Nat × Symbol_t) :=
  [(bytes "in", T_KEYWORD_IN), (bytes "out", T_KEYWORD_OUT), (bytes "event", T_KEYWORD_EVENT),
   (bytes "node", T_KEYWORD_NODE), (bytes "query", T_KEYWORD_QUERY),
   (bytes "float", T_TYPE_FLOAT), (bytes "bool", T_TYPE_BOOL),
   (bytes "true", T_KEYWORD_TRUE), (bytes "false", T_KEYWORD_FALSE)]

/-- The first entry of a table whose key is `k` (the `for` loops over the tables). -/
def lookupTable {α : Type} [DecidableEq α] (k : α) : List (α × Symbol_t) → Option Symbol_t
  | [] => none
  | (k1, s) :: rest => if k1 = k then some s else lookupTable k rest

/-- The whitespace branch of case `TOK_INITIAL` for the character `c` just read: while
`c` is a space, tab, newline or carriage return the next character is read. The result
is the first other character, or `none` when `GetChar` fails, with the stream and the
position reached. -/
def skipSpace : Nat → List Nat → PositionInfo → Option Nat × List Nat × PositionInfo
  | c, [], pos =>
    if c = 32 ∨ c = 9 ∨ c = 10 ∨ c = 13 then (none, [], pos) else (some c, [], pos)
  | c, c1 :: rest, pos =>
    if c = 32 ∨ c = 9 ∨ c = 10 ∨ c = 13 then skipSpace c1 rest (pos.advance c1)
    else (some c, c1 :: rest, pos)

/-- The loop of case `TOK_IDENT`:
`while (Peek(c) && (isalnum(c) || c == 95)) { GetChar(c); value += c; }`.
The result is the stream, the position and `value` after the loop. -/
def identLoop : List Nat → PositionInfo → List Nat → List Nat × PositionInfo × List Nat
  | [], pos, value => ([], pos, value)
  | c :: rest, pos, value =>
    match peekChar (c :: rest) with
    | some p =>
      if isalnum p || p == 95 then identLoop rest (pos.advance c) (value ++ [c])
      else (c :: rest, pos, value)
    | none => (c :: rest, pos, value)

/-- The loop of case `TOK_NUMERIC`: digits are appended; a dot is appended, switches
`m_State` to `TOK_FLOAT` and ends the loop; anything else ends the loop. The result is
`m_State`, the stream, the position and `value` after the loop. -/
def numericLoop :
    List Nat → PositionInfo → List Nat → TokState × List Nat × PositionInfo × List Nat
  | [], pos, value => (.TOK_NUMERIC, [], pos, value)
  | c :: rest, pos, value =>
    match peekChar (c :: rest) with
    | some p =>
      if isdigit p then numericLoop rest (pos.advance c) (value ++ [c])
      else if p = 46 then (.TOK_FLOAT, rest, pos.advance c, value ++ [c])
      else (.TOK_NUMERIC, c :: rest, pos, value)
    | none => (.TOK_NUMERIC, c :: rest, pos, value)

/-- The loop of case `TOK_FLOAT`: digits are appended; an `f` is extracted, not
appended, and ends the loop; anything else ends the loop. -/
def floatLoop : List Nat → PositionInfo → List Nat → List Nat × PositionInfo × List Nat
  | [], pos, value => ([], pos, value)
  | c :: rest, pos, value =>
    match peekChar (c :: rest) with
    | some p =>
      if isdigit p then floatLoop rest (pos.advance c) (value ++ [c])
      else if p = 102 then (rest, pos.advance c, value)
      else (c :: rest, pos, value)
    | none => (c :: rest, pos, value)

/-- Case `TOK_IDENT` of `Tokenizer::GetSym`, entered with the text collected so far. -/
def Tokenizer.tokIdent (tk : Tokenizer) (value : List Nat) : Symbol_t × Tokenizer :=
  let r := identLoop tk.m_Stream tk.m_Position value
  let tk1 := { tk with m_Stream := r.1, m_Position := r.2.1 }
  match lookupTable r.2.2 Keywords with
  | some s => (s, tk1)
  | none =>
    let x := tk1.m_SymbolTable.Insert (some r.2.2) true
    (T_IDENT, { tk1 with m_SymbolTable := x.2, u := .m_SymbolIndex x.1 })

/-- Case `TOK_FLOAT` of `Tokenizer::GetSym`. A failed extraction leaves the largest
finite value in the union. -/
def Tokenizer.tokFloat (tk : Tokenizer) (value : List Nat) : Symbol_t × Tokenizer :=
  let r := floatLoop tk.m_Stream tk.m_Position value
  let tk1 := { tk with m_Stream := r.1, m_Position := r.2.1 }
  match readFloat r.2.2 with
  | none => (T_FAILURE, { tk1 with u := .m_RealValue ⟨false, 16777215, 104⟩ })
  | some f => (T_REAL, { tk1 with u := .m_RealValue f })

/-- Case `TOK_NUMERIC` of `Tokenizer::GetSym`; when the loop has switched to
`TOK_FLOAT` the next round of the `for` loop runs case `TOK_FLOAT`. A failed extraction
leaves `INT_MAX` in the union. -/
def Tokenizer.tokNumeric (tk : Tokenizer) (value : List Nat) : Symbol_t × Tokenizer :=
  let r := numericLoop tk.m_Stream tk.m_Position value
  let tk1 := { tk with m_State := r.1, m_Stream := r.2.1, m_Position := r.2.2.1 }
  if r.1 = .TOK_NUMERIC then
    match readInt r.2.2.2 with
    | none => (T_FAILURE, { tk1 with u := .m_IntValue 2147483647 })
    | some v => (T_INTEGER, { tk1 with u := .m_IntValue v })
  else tk1.tokFloat r.2.2.2

/-- The expression `Peek(c) ? ((c == 61) ? (GetChar(c), yes) : no) : no` used for the
characters that may be followed by an equals sign. -/
def Tokenizer.followedByEq (tk : Tokenizer) (yes no : Symbol_t) : Symbol_t × Tokenizer :=
  match peekChar tk.m_Stream with
  | some p => if p = 61 then (yes, tk.GetChar.2) else (no, tk)
  | none => (no, tk)

/-- Case `TOK_INITIAL` of `Tokenizer::GetSym` for a character `c` that is not white
space. A character that starts no token falls through into case `TOK_IDENT` with an
empty `value`. -/
def Tokenizer.tokInitial (tk : Tokenizer) (c : Nat) : Symbol_t × Tokenizer :=
  match lookupTable c SingleTokens with
  | some s => (s, tk)
  | none =>
    if c = 61 then tk.followedByEq T_EQUAL T_ASSIGN
    else if c = 60 then tk.followedByEq T_LEQ T_LESS
    else if c = 62 then tk.followedByEq T_GEQ T_GRT
    else if isdigit c then Tokenizer.tokNumeric { tk with m_State := .TOK_NUMERIC } [c]
    else if isalpha c then Tokenizer.tokIdent { tk with m_State := .TOK_IDENT } [c]
    else tk.tokIdent []

/-- The part of `Tokenizer::GetSym` that reads the stream (no cached token). -/
def Tokenizer.scan (tk : Tokenizer) : Symbol_t × Tokenizer :=
  match tk.m_Stream with
  | [] => (T_EOF, tk)
  | c :: rest =>
    let r := skipSpace c rest (tk.m_Position.advance c)
    let tk1 := { tk with m_Stream := r.2.1, m_Position := r.2.2 }
    match r.1 with
    | none => (T_EOF, tk1)
    | some c1 => tk1.tokInitial c1

/-- The function `Tokenizer::GetSym`. -/
def Tokenizer.GetSym (tk : Tokenizer) : Symbol_t × Tokenizer :=
  let tk0 := { tk with m_State := .TOK_INITIAL }
  if tk0.m_HasPeeked then (tk0.m_NextSym, { tk0 with m_HasPeeked := false })
  else tk0.scan

/-- The function `Tokenizer::Peek()`. -/
def Tokenizer.Peek (tk : Tokenizer) : Symbol_t × Tokenizer :=
  if tk.m_HasPeeked then (tk.m_NextSym, tk)
  else
    let r := tk.GetSym
    (r.1, { r.2 with m_NextSym := r.1, m_HasPeeked := true })

/-- The function `Tokenizer::GetTokenString`; the `default` branch returns the null pointer. -/
def GetTokenString : Symbol_t → Option String
  | T_IDENT => some "T_IDENT"
  | T_KEYWORD_IN => some "T_KEYWORD_IN"
  | T_KEYWORD_OUT => some "T_KEYWORD_OUT"
  | T_KEYWORD_NODE => some "T_KEYWORD_NODE"
  | T_KEYWORD_QUERY => some "T_KEYWORD_QUERY"
  | T_KEYWORD_EVENT => some "T_KEYWORD_EVENT"
  | T_KEYWORD_TRUE => some "T_KEYWORD_TRUE"
  | T_KEYWORD_FALSE => some "T_KEYWORD_FALSE"
  | T_TYPE_FLOAT => some "T_TYPE_FLOAT"
  | T_INTEGER => some "T_TYPE_INTEGER"
  | T_REAL => some "T_REAL"
  | T_ASSIGN => some "T_ASSIGN"
  | T_QUESTION => some "T_QUESTION"
  | T_COMMA => some "T_COMMA"
  | T_SEMICOLON => some "T_SEMICOLON"
  | T_COLON => some "T_COLON"
  | T_DOT => some "T_DOT"
  | T_LEFT_PAREN => some "T_LEFT_PAREN"
  | T_RIGHT_PAREN => some "T_RIGHT_PAREN"
  | T_LEFT_SQUARE_BRACKET => some "T_LEFT_SQUARE_BRACKET"
  | T_RIGHT_SQUARE_BRACKET => some "T_RIGHT_SQUARE_BRACKET"
  | T_LEFT_CURLY_BRACKET => some "T_LEFT_CURLY_BRACKET"
  | T_RIGHT_CURLY_BRACKET => some "T_RIGHT_CURLY_BRACKET"
  | T_ADD => some "T_ADD"
  | T_SUB => some "T_SUB"
  | T_MUL => some "T_MUL"
  | T_DIV => some "T_DIV"
  | T_EQUAL => some "T_EQUAL"
  | T_LESS => some "T_ASSIGN"
  | T_GRT => some "T_GRT"
  | T_LEQ => some "T_LEQ"
  | T_GEQ => some "T_GEQ"
  | T_FAILURE => some "T_FAILURE"
  | T_EOF => some "T_EOF"
  | T_TYPE_BOOL => none

/-! ## The document -/

/-- The enumeration `FlowEvent::EventDirection`. -/
inductive EventDirection
  | EVENT_IN
  | EVENT_OUT
  deriving DecidableEq, Repr

/-- The structure `FlowEvent`. -/
structure FlowEvent where
  Direction : Option EventDirection
  NameIndex : Option Nat
  deriving DecidableEq, Repr

/-- The anonymous enumeration of `FlowVariable::Type`. -/
inductive VarType
  | TYPE_BOOL
  | TYPE_FLOAT
  deriving DecidableEq, Repr

/-- The union `FlowVariable::DefaultValue`, tagged by the member written. -/
inductive DefaultVal
  | fValue (f : FloatVal)
  | bValue (b : Bool)
  deriving DecidableEq, Repr

/-- The structure `FlowVariable` (the member `Type` is `Type_` here). -/
structure FlowVariable where
  Type_ : Option VarType
  DefaultValue : Option DefaultVal
  HasDefaultValue : Option Bool
  HasDirection : Option Bool
  Direction : Option EventDirection
  NameIndex : Option Nat
  deriving DecidableEq, Repr

/-- The structure `FlowNode`. -/
structure FlowNode where
  NameIndex : Option Nat
  Events : List FlowEvent
  Variables : List FlowVariable
  deriving DecidableEq, Repr

/-- The structure `FlowQuery`. -/
structure FlowQuery where
  NameIndex : Option Nat
  Variables : List FlowVariable
  Events : List FlowEvent
  deriving DecidableEq, Repr

/-- The structure `FlowDocument`. -/
structure FlowDocument where
  Nodes : List FlowNode
  Queries : List FlowQuery
  deriving DecidableEq, Repr

/-- A default-constructed `FlowEvent` local: nothing is initialised. -/
def FlowEvent.new : FlowEvent := ⟨none, none⟩

/-- A default-constructed `FlowVariable` local: nothing is initialised. -/
def FlowVariable.new : FlowVariable := ⟨none, none, none, none, none, none⟩

/-- A default-constructed `FlowNode` local: the vectors are empty. -/
def FlowNode.new : FlowNode := ⟨none, [], []⟩

/-- A default-constructed `FlowQuery` local: the vectors are empty. -/
def FlowQuery.new : FlowQuery := ⟨none, [], []⟩

/-- A default-constructed `FlowDocument`. -/
def FlowDocument.new : FlowDocument := ⟨[], []⟩

/-! ## The parser -/

/-- A `std::stringstream` that is written to: the text so far and the badbit. Inserting
a null `const char *` sets the badbit; nothing is written while it is set. -/
structure OStream where
  str : String
  bad : Bool
  deriving DecidableEq, Repr

/-- The insertion `os << s` of a `const char *`. -/
def OStream.putStr (os : OStream) (s : Option String) : OStream :=
  if os.bad then os
  else match s with
    | none => { os with bad := true }
    | some t => { os with str := os.str ++ t }

/-- The insertion `os << n` of a `size_t`. -/
def OStream.putNat (os : OStream) (n : Nat) : OStream :=
  if os.bad then os else { os with str := os.str ++ toString n }

/-- The insertion `operator <<` of parser.cpp for a `PositionInfo`. -/
def OStream.putPos (os : OStream) (pos : PositionInfo) : OStream :=
  ((((os.putStr (some "(Ln: ")).putNat pos.Row).putStr (some ", Col: ")).putNat pos.Col).putStr
    (some ")")

/-- The class `Parser`. -/
structure Parser where
  m_StringPool : Pool
  m_ErrorString : String
  deriving DecidableEq, Repr

/-- A default-constructed `Parser`. -/
def Parser.new : Parser := ⟨⟨[]⟩, ""⟩

/-- The function `Parser::GetErrorString`. -/
def Parser.GetErrorString (P : Parser) : String := P.m_ErrorString

/-- The function `Parser::GetString`. -/
def Parser.GetString (P : Parser) (a_Index : Nat) : Option (List Nat) :=
  (P.m_StringPool.GetPointer a_Index).map cstr

/-- The function `Parser::Expect`. -/
def Parser.Expect (P : Parser) (a_Expected : Symbol_t) (a_Tokenizer : Tokenizer) :
    Bool × Parser × Tokenizer :=
  match a_Tokenizer.GetSym with
  | (actual, tk) =>
    if actual ≠ a_Expected then
      let err := ((((OStream.mk "" false).putStr (some "EXPECTED ")).putStr
        (GetTokenString a_Expected)).putStr (some " at ")).putPos tk.Position
      let err := (err.putStr (some ", actual ")).putStr (GetTokenString actual)
      (false, { P with m_ErrorString := err.str }, tk)
    else (true, P, tk)

/-- The function `Parser::Unexpected`. -/
def Parser.Unexpected (P : Parser) (a_Sym : Symbol_t) (a_Position : PositionInfo) : Parser :=
  let err := ((((OStream.mk "" false).putStr (some "UNEXPECTED ")).putStr
    (GetTokenString a_Sym)).putStr (some " at ")).putPos a_Position
  { P with m_ErrorString := err.str }

/-- The function `Parser::InsertName`; the address `a_NameIndex` is never null in this program.
`none` stands for the result `false`, `some (P, i)` for `true` with `i` written to
`*a_NameIndex`. -/
def Parser.InsertName (P : Parser) (a_String : Option (List Nat)) : Option (Parser × Nat) :=
  match a_String with
  | none => none
  | some s =>
    let r := P.m_StringPool.Insert (s ++ [0])
    some ({ P with m_StringPool := r.1 }, r.2)

/-- The function `Parser::ParseEvent`. -/
def Parser.ParseEvent (P : Parser) (a_Tokenizer : Tokenizer) (a_Event : FlowEvent) :
    Bool × Parser × Tokenizer × FlowEvent :=
  match P.Expect T_KEYWORD_EVENT a_Tokenizer with
  | (false, P, tk) => (false, P, tk, a_Event)
  | (true, P, tk) =>
    match P.Expect T_IDENT tk with
    | (false, P, tk) => (false, P, tk, a_Event)
    | (true, P, tk) =>
      match P.InsertName (tk.Lookup tk.SymIndex) with
      | none => (false, P, tk, a_Event)
      | some (P, i) =>
        match P.Expect T_SEMICOLON tk with
        | (false, P, tk) => (false, P, tk, { a_Event with NameIndex := some i })
        | (true, P, tk) => (true, P, tk, { a_Event with NameIndex := some i })

/-- The function `Parser::ParseVariable`. In the float branch a token that is neither `T_REAL` nor
`T_INTEGER` after the assignment records a diagnostic and the function goes on to the
semicolon; in the bool branch it returns. -/
def Parser.ParseVariable (P : Parser) (a_Tokenizer : Tokenizer) (a_Variable : FlowVariable) :
    Bool × Parser × Tokenizer × FlowVariable :=
  match a_Tokenizer.GetSym with
  | (sym, tk) =>
    if sym = T_TYPE_FLOAT then
      let v := { a_Variable with Type_ := some .TYPE_FLOAT }
      match P.Expect T_IDENT tk with
      | (false, P, tk) => (false, P, tk, v)
      | (true, P, tk) =>
        match P.InsertName (tk.Lookup tk.SymIndex) with
        | none => (false, P, tk, v)
        | some (P, i) =>
          let v := { v with NameIndex := some i }
          match tk.Peek with
          | (sym, tk) =>
            if sym = T_ASSIGN then
              match tk.GetSym.2.GetSym with
              | (sym, tk) =>
                let v := { v with HasDefaultValue := some true }
                if sym = T_REAL then
                  let v := { v with DefaultValue := some (.fValue tk.RealValue) }
                  match P.Expect T_SEMICOLON tk with
                  | (ok, P, tk) => (ok, P, tk, v)
                else if sym = T_INTEGER then
                  let v := { v with DefaultValue := some (.fValue (castFloat tk.IntValue)) }
                  match P.Expect T_SEMICOLON tk with
                  | (ok, P, tk) => (ok, P, tk, v)
                else
                  match (P.Unexpected sym tk.Position).Expect T_SEMICOLON tk with
                  | (ok, P, tk) => (ok, P, tk, v)
            else
              match P.Expect T_SEMICOLON tk with
              | (ok, P, tk) => (ok, P, tk, { v with HasDefaultValue := some false })
    else if sym = T_TYPE_BOOL then
      let v := { a_Variable with Type_ := some .TYPE_BOOL }
      match P.Expect T_IDENT tk with
      | (false, P, tk) => (false, P, tk, v)
      | (true, P, tk) =>
        match P.InsertName (tk.Lookup tk.SymIndex) with
        | none => (false, P, tk, v)
        | some (P, i) =>
          let v := { v with NameIndex := some i }
          match tk.Peek with
          | (sym, tk) =>
            if sym = T_ASSIGN then
              match tk.GetSym.2.GetSym with
              | (sym, tk) =>
                let v := { v with HasDefaultValue := some true }
                if sym = T_KEYWORD_TRUE then
                  match P.Expect T_SEMICOLON tk with
                  | (ok, P, tk) => (ok, P, tk, { v with DefaultValue := some (.bValue true) })
                else if sym = T_KEYWORD_FALSE then
                  match P.Expect T_SEMICOLON tk with
                  | (ok, P, tk) => (ok, P, tk, { v with DefaultValue := some (.bValue false) })
                else (false, P.Unexpected sym tk.Position, tk, v)
            else
              match P.Expect T_SEMICOLON tk with
              | (ok, P, tk) => (ok, P, tk, { v with HasDefaultValue := some false })
    else (false, P.Unexpected sym tk.Position, tk, a_Variable)

/-- The direction chosen from a prefix token: `EVENT_IN` for `in`, else `EVENT_OUT`. -/
def dirOf (pfx : Symbol_t) : EventDirection :=
  if pfx = T_KEYWORD_IN then .EVENT_IN else .EVENT_OUT

/-- The member loop `for (;;)` of `Parser::ParseNode`, entered with the token `pfx`
that was peeked. The flag is `false` when the loop left the function with
`return false` and `true` when it ended with `break`. -/
def Parser.ParseNodeLoop : Nat → Parser → Tokenizer → Symbol_t → FlowNode →
    Option (Bool × Parser × Tokenizer × FlowNode)
  | 0, _, _, _, _ => none
  | fuel + 1, P, tk, pfx, a_Node =>
    if pfx = T_TYPE_FLOAT ∨ pfx = T_TYPE_BOOL then
      match P.ParseVariable tk FlowVariable.new with
      | (false, P, tk, _) => some (false, P, tk, a_Node)
      | (true, P, tk, v) =>
        Parser.ParseNodeLoop fuel P tk.Peek.2 tk.Peek.1
          { a_Node with Variables := a_Node.Variables ++ [v] }
    else if pfx = T_KEYWORD_IN ∨ pfx = T_KEYWORD_OUT then
      match tk.GetSym.2.Peek with
      | (sym, tk) =>
        if sym = T_TYPE_BOOL ∨ sym = T_TYPE_FLOAT then
          match P.ParseVariable tk FlowVariable.new with
          | (false, P, tk, _) => some (false, P, tk, a_Node)
          | (true, P, tk, v) =>
            Parser.ParseNodeLoop fuel P tk.Peek.2 tk.Peek.1
              { a_Node with Variables := a_Node.Variables ++
                  [{ v with HasDirection := some true, Direction := some (dirOf pfx) }] }
        else
          match P.ParseEvent tk FlowEvent.new with
          | (false, P, tk, _) => some (false, P, tk, a_Node)
          | (true, P, tk, ev) =>
            Parser.ParseNodeLoop fuel P tk.Peek.2 tk.Peek.1
              { a_Node with Events := a_Node.Events ++
                  [{ ev with Direction := some (dirOf pfx) }] }
    else some (true, P, tk, a_Node)

/-- The function `Parser::ParseNode`; `fuel` bounds the member loop. -/
def Parser.ParseNode (fuel : Nat) (P : Parser) (a_Tokenizer : Tokenizer) (a_Node : FlowNode) :
    Option (Bool × Parser × Tokenizer × FlowNode) :=
  match P.Expect T_KEYWORD_NODE a_Tokenizer with
  | (false, P, tk) => some (false, P, tk, a_Node)
  | (true, P, tk) =>
    match P.Expect T_IDENT tk with
    | (false, P, tk) => some (false, P, tk, a_Node)
    | (true, P, tk) =>
      match P.InsertName (tk.Lookup tk.SymIndex) with
      | none => some (false, P, tk, a_Node)
      | some (P, i) =>
        let node := { a_Node with NameIndex := some i }
        match P.Expect T_LEFT_CURLY_BRACKET tk with
        | (false, P, tk) => some (false, P, tk, node)
        | (true, P, tk) =>
          match Parser.ParseNodeLoop fuel P tk.Peek.2 tk.Peek.1 node with
          | none => none
          | some (false, P, tk, node) => some (false, P, tk, node)
          | some (true, P, tk, node) =>
            match P.Expect T_RIGHT_CURLY_BRACKET tk with
            | (ok, P, tk) => some (ok, P, tk, node)

/-- The member loop `while (prefix == T_KEYWORD_OUT)` of `Parser::ParseQuery`. The flag
is `false` when the loop left the function with `return false`. -/
def Parser.ParseQueryLoop : Nat → Parser → Tokenizer → Symbol_t → FlowQuery →
    Option (Bool × Parser × Tokenizer × FlowQuery)
  | 0, _, _, _, _ => none
  | fuel + 1, P, tk, pfx, a_Query =>
    if pfx = T_KEYWORD_OUT then
      match tk.GetSym.2.Peek with
      | (sym, tk) =>
        if sym = T_KEYWORD_EVENT then
          match P.ParseEvent tk FlowEvent.new with
          | (false, P, tk, _) => some (false, P, tk, a_Query)
          | (true, P, tk, ev) =>
            Parser.ParseQueryLoop fuel P tk.Peek.2 tk.Peek.1
              { a_Query with Events := a_Query.Events ++
                  [{ ev with Direction := some .EVENT_OUT }] }
        else
          match P.ParseVariable tk FlowVariable.new with
          | (false, P, tk, _) => some (false, P, tk, a_Query)
          | (true, P, tk, v) =>
            Parser.ParseQueryLoop fuel P tk.Peek.2 tk.Peek.1
              { a_Query with Variables := a_Query.Variables ++
                  [{ v with HasDirection := some true, Direction := some .EVENT_OUT }] }
    else some (true, P, tk, a_Query)

/-- The function `Parser::ParseQuery`; `fuel` bounds the member loop. -/
def Parser.ParseQuery (fuel : Nat) (P : Parser) (a_Tokenizer : Tokenizer)
    (a_Query : FlowQuery) : Option (Bool × Parser × Tokenizer × FlowQuery) :=
  match P.Expect T_KEYWORD_QUERY a_Tokenizer with
  | (false, P, tk) => some (false, P, tk, a_Query)
  | (true, P, tk) =>
    match P.Expect T_IDENT tk with
    | (false, P, tk) => some (false, P, tk, a_Query)
    | (true, P, tk) =>
      match P.InsertName (tk.Lookup tk.SymIndex) with
      | none => some (false, P, tk, a_Query)
      | some (P, i) =>
        let query := { a_Query with NameIndex := some i }
        match P.Expect T_LEFT_CURLY_BRACKET tk with
        | (false, P, tk) => some (false, P, tk, query)
        | (true, P, tk) =>
          match Parser.ParseQueryLoop fuel P tk.Peek.2 tk.Peek.1 query with
          | none => none
          | some (false, P, tk, query) => some (false, P, tk, query)
          | some (true, P, tk, query) =>
            match P.Expect T_RIGHT_CURLY_BRACKET tk with
            | (ok, P, tk) => some (ok, P, tk, query)

/-- The loop `while (sym != T_EOF)` of `Parser::ParseDocument`, entered with the token
`sym` that was peeked; `inner` is the fuel handed to the member loops. -/
def Parser.ParseDocumentLoop (inner : Nat) : Nat → Parser → Tokenizer → Symbol_t →
    FlowDocument → Option (Bool × Parser × Tokenizer × FlowDocument)
  | 0, _, _, _, _ => none
  | fuel + 1, P, tk, sym, a_Document =>
    if sym ≠ T_EOF then
      if sym = T_KEYWORD_NODE then
        match P.ParseNode inner tk FlowNode.new with
        | none => none
        | some (false, P, tk, _) => some (false, P, tk, a_Document)
        | some (true, P, tk, node) =>
          Parser.ParseDocumentLoop inner fuel P tk.Peek.2 tk.Peek.1
            { a_Document with Nodes := a_Document.Nodes ++ [node] }
      else if sym = T_KEYWORD_QUERY then
        match P.ParseQuery inner tk FlowQuery.new with
        | none => none
        | some (false, P, tk, _) => some (false, P, tk, a_Document)
        | some (true, P, tk, query) =>
          Parser.ParseDocumentLoop inner fuel P tk.Peek.2 tk.Peek.1
            { a_Document with Queries := a_Document.Queries ++ [query] }
      else some (false, P.Unexpected sym tk.Position, tk, a_Document)
    else some (true, P, tk, a_Document)

/-- The function `Parser::ParseDocument`; `fuel` bounds each of its loops. -/
def Parser.ParseDocument (fuel : Nat) (P : Parser) (a_Tokenizer : Tokenizer)
    (a_Document : FlowDocument) : Option (Bool × Parser × Tokenizer × FlowDocument) :=
  Parser.ParseDocumentLoop fuel fuel P a_Tokenizer.Peek.2 a_Tokenizer.Peek.1 a_Document

/-- The function `Parser::Parse`: the result, the parser and the document after the call. Every
round of a loop takes a token that is not the end of input and every such token takes
at least one character, so no loop makes more rounds than the source has characters;
the fuel is one more than that. -/
def Parser.Parse (P : Parser) (a_String : List Nat) (a_Document : FlowDocument) :
    Option (Bool × Parser × FlowDocument) :=
  match Parser.ParseDocument (a_String.length + 1) { P with m_ErrorString := "" }
      (Tokenizer.new a_String) a_Document with
  | none => none
  | some (ok, P, _, doc) => some (ok, P, doc)

/-! ## Pending tokens -/

/-- What the parser can read off the tokenizer once a token has been produced. -/
structure TokRec where
  sym : Symbol_t
  text : Option (List Nat)
  ival : Int
  rval : FloatVal
  pos : PositionInfo
  deriving DecidableEq, Repr

/-- The record of the token `s` just produced, read off the tokenizer. -/
def Tokenizer.record (tk : Tokenizer) (s : Symbol_t) : TokRec :=
  ⟨s, tk.Lookup tk.SymIndex, tk.IntValue, tk.RealValue, tk.Position⟩

/-- The tokens that repeated scanning produces before the end of input. -/
def scanAll : Nat → Tokenizer → List TokRec
  | 0, _ => []
  | n + 1, tk =>
    if tk.scan.1 = T_EOF then [] else tk.scan.2.record tk.scan.1 :: scanAll n tk.scan.2

/-- The tokens that `GetSym` will return from this state on, up to the end of input. -/
def Tokenizer.pending (tk : Tokenizer) : List TokRec :=
  if tk.m_HasPeeked then
    if tk.m_NextSym = T_EOF then []
    else tk.record tk.m_NextSym :: scanAll (tk.m_Stream.length + 1) tk
  else scanAll (tk.m_Stream.length + 1) tk

/-- Two tokenizer states that differ at most in the lookahead cache and `m_State`. -/
def Tokenizer.same (a b : Tokenizer) : Prop :=
  a.m_Stream = b.m_Stream ∧ a.m_SymbolTable = b.m_SymbolTable ∧ a.m_Position = b.m_Position ∧ a.u = b.u

/-! ## The grammar -/

/-- The grammar's view of a token: its kind, and the payload of identifiers and
numeric literals. -/
inductive Tok
  | ident (name : List Nat)
  | integer (v : Int)
  | real (f : FloatVal)
  | kw (s : Symbol_t)
  deriving DecidableEq, Repr

/-- The grammar's view of a token record; an identifier whose lookup gives the null
pointer is no `IDENT` of the grammar. -/
def TokRec.tok (r : TokRec) : Tok :=
  if r.sym = T_IDENT then
    match r.text with
    | some n => .ident n
    | none => .kw T_IDENT
  else if r.sym = T_INTEGER then .integer r.ival
  else if r.sym = T_REAL then .real r.rval
  else .kw r.sym

/-- The tokens of a source text, as the tokenizer produces them from its start. -/
def tokensOf (src : List Nat) : List TokRec := (Tokenizer.new src).pending

/-- The production `NumberLit`: an integer or a real literal. -/
inductive GNumber
  | integer (v : Int)
  | real (f : FloatVal)
  deriving DecidableEq, Repr

/-- The production `Type IDENT DefaultOpt ";"`: a float variable with an optional
number, or a bool variable with an optional `true` or `false`. -/
inductive GVar
  | float (name : List Nat) (dflt : Option GNumber)
  | bool (name : List Nat) (dflt : Option Bool)
  deriving DecidableEq, Repr

/-- The production `NodeMember`. -/
inductive GNodeMember
  | var (v : GVar)
  | dvar (dir : EventDirection) (v : GVar)
  | event (dir : EventDirection) (name : List Nat)
  deriving DecidableEq, Repr

/-- The production `QueryMember`. -/
inductive GQueryMember
  | event (name : List Nat)
  | var (v : GVar)
  deriving DecidableEq, Repr

/-- The production `NodeDecl`. -/
structure GNode where
  name : List Nat
  members : List GNodeMember
  deriving DecidableEq, Repr

/-- The production `QueryDecl`. -/
structure GQuery where
  name : List Nat
  members : List GQueryMember
  deriving DecidableEq, Repr

/-- One declaration of the production `Document`. -/
inductive GDecl
  | node (n : GNode)
  | query (q : GQuery)
  deriving DecidableEq, Repr

/-- The token of a direction keyword. -/
def dirTok : EventDirection → Tok
  | .EVENT_IN => .kw T_KEYWORD_IN
  | .EVENT_OUT => .kw T_KEYWORD_OUT

/-- The tokens of `DefaultOpt` after `float`. -/
def GNumber.toks : Option GNumber → List Tok
  | none => []
  | some (.integer v) => [.kw T_ASSIGN, .integer v]
  | some (.real f) => [.kw T_ASSIGN, .real f]

/-- The tokens of `DefaultOpt` after `bool`. -/
def boolToks : Option Bool → List Tok
  | none => []
  | some true => [.kw T_ASSIGN, .kw T_KEYWORD_TRUE]
  | some false => [.kw T_ASSIGN, .kw T_KEYWORD_FALSE]

/-- The declared type of a variable. -/
def GVar.type : GVar → VarType
  | .float _ _ => .TYPE_FLOAT
  | .bool _ _ => .TYPE_BOOL

/-- The declared name of a variable. -/
def GVar.name : GVar → List Nat
  | .float n _ => n
  | .bool n _ => n

/-- The token of the production `Type`. -/
def GVar.typeTok : GVar → Tok
  | .float _ _ => .kw T_TYPE_FLOAT
  | .bool _ _ => .kw T_TYPE_BOOL

/-- The tokens of the production `DefaultOpt`. -/
def GVar.defaultToks : GVar → List Tok
  | .float _ d => GNumber.toks d
  | .bool _ d => boolToks d

/-- The tokens of a variable declaration `Type IDENT DefaultOpt ";"`. -/
def GVar.toks (g : GVar) : List Tok :=
  g.typeTok :: .ident g.name :: (g.defaultToks ++ [.kw T_SEMICOLON])

/-- The tokens of a node member. -/
def GNodeMember.toks : GNodeMember → List Tok
  | .var v => v.toks
  | .dvar d v => dirTok d :: v.toks
  | .event d n => [dirTok d, .kw T_KEYWORD_EVENT, .ident n, .kw T_SEMICOLON]

/-- The tokens of a query member. -/
def GQueryMember.toks : GQueryMember → List Tok
  | .event n => [.kw T_KEYWORD_OUT, .kw T_KEYWORD_EVENT, .ident n, .kw T_SEMICOLON]
  | .var v => .kw T_KEYWORD_OUT :: v.toks

/-- The tokens of the members of a node body. -/
def nodeBody : List GNodeMember → List Tok
  | [] => []
  | m :: ms => m.toks ++ nodeBody ms

/-- The tokens of the members of a query body. -/
def queryBody : List GQueryMember → List Tok
  | [] => []
  | m :: ms => m.toks ++ queryBody ms

/-- The tokens of a node declaration. -/
def GNode.toks (n : GNode) : List Tok :=
  [.kw T_KEYWORD_NODE, .ident n.name, .kw T_LEFT_CURLY_BRACKET] ++ nodeBody n.members ++
    [.kw T_RIGHT_CURLY_BRACKET]

/-- The tokens of a query declaration. -/
def GQuery.toks (q : GQuery) : List Tok :=
  [.kw T_KEYWORD_QUERY, .ident q.name, .kw T_LEFT_CURLY_BRACKET] ++ queryBody q.members ++
    [.kw T_RIGHT_CURLY_BRACKET]

/-- The tokens of a declaration. -/
def GDecl.toks : GDecl → List Tok
  | .node n => n.toks
  | .query q => q.toks

/-- The tokens of a document: its declarations one after the other. -/
def docToks : List GDecl → List Tok
  | [] => []
  | d :: ds => d.toks ++ docToks ds

/-- Whether a default was written. -/
def GVar.hasDefault : GVar → Bool
  | .float _ d => d.isSome
  | .bool _ d => d.isSome

/-- The default a declaration asks for: an integer literal cast to float, a real
literal as it is, a boolean literal; `none` when no default was written. -/
def GVar.defaultValue : GVar → Option DefaultVal
  | .float _ (some (.integer v)) => some (.fValue (castFloat v))
  | .float _ (some (.real f)) => some (.fValue f)
  | .float _ none => none
  | .bool _ (some b) => some (.bValue b)
  | .bool _ none => none

/-- The event members of a node body in source order. -/
def nodeEvents : List GNodeMember → List (EventDirection × List Nat)
  | [] => []
  | .event d n :: ms => (d, n) :: nodeEvents ms
  | _ :: ms => nodeEvents ms

/-- The variable members of a node body in source order, with their direction prefix. -/
def nodeVars : List GNodeMember → List (Option EventDirection × GVar)
  | [] => []
  | .var v :: ms => (none, v) :: nodeVars ms
  | .dvar d v :: ms => (some d, v) :: nodeVars ms
  | _ :: ms => nodeVars ms

/-- The event members of a query body in source order. -/
def queryEvents : List GQueryMember → List (List Nat)
  | [] => []
  | .event n :: ms => n :: queryEvents ms
  | _ :: ms => queryEvents ms

/-- The variable members of a query body in source order. -/
def queryVars : List GQueryMember → List GVar
  | [] => []
  | .var v :: ms => v :: queryVars ms
  | _ :: ms => queryVars ms

/-- The node declarations of a document in source order. -/
def docNodes : List GDecl → List GNode
  | [] => []
  | .node n :: ds => n :: docNodes ds
  | _ :: ds => docNodes ds

/-- The query declarations of a document in source order. -/
def docQueries : List GDecl → List GQuery
  | [] => []
  | .query q :: ds => q :: docQueries ds
  | _ :: ds => docQueries ds

/-- The name handle `i` resolves to `name` through `Parser::GetString`. -/
def Parser.Resolves (P : Parser) (i : Option Nat) (name : List Nat) : Prop :=
  ∃ k, i = some k ∧ P.GetString k = some name

/-- A stored event agrees with an event member: its direction is that of the prefix
and its name resolves to the identifier. -/
def EventModels (P : Parser) (e : FlowEvent) (g : EventDirection × List Nat) : Prop :=
  e.Direction = some g.1 ∧ P.Resolves e.NameIndex g.2

/-- A stored variable agrees with a variable member: declared type, name, whether a
default was written, the default when one was written, and the direction when a prefix
was written. -/
def VarModels (P : Parser) (v : FlowVariable) (g : Option EventDirection × GVar) : Prop :=
  v.Type_ = some g.2.type ∧ P.Resolves v.NameIndex g.2.name ∧
    v.HasDefaultValue = some g.2.hasDefault ∧
    (g.2.hasDefault = true → v.DefaultValue = g.2.defaultValue) ∧
    (∀ d, g.1 = some d → v.HasDirection = some true ∧ v.Direction = some d)

/-- A stored node agrees with a node declaration. -/
def NodeModels (P : Parser) (n : FlowNode) (g : GNode) : Prop :=
  P.Resolves n.NameIndex g.name ∧ List.Forall₂ (EventModels P) n.Events (nodeEvents g.members) ∧
    List.Forall₂ (VarModels P) n.Variables (nodeVars g.members)

/-- A stored query agrees with a query declaration: every member is an output. -/
def QueryModels (P : Parser) (q : FlowQuery) (g : GQuery) : Prop :=
  P.Resolves q.NameIndex g.name ∧
    List.Forall₂ (EventModels P) q.Events
      ((queryEvents g.members).map (fun n => (EventDirection.EVENT_OUT, n))) ∧
    List.Forall₂ (VarModels P) q.Variables
      ((queryVars g.members).map (fun v => (some EventDirection.EVENT_OUT, v)))

/-- The parser after `InsertName` of the text `name`. -/
def Parser.push (P : Parser) (name : List Nat) : Parser :=
  { P with m_StringPool := ⟨P.m_StringPool.blocks ++ [name ++ [0]]⟩ }

/-- The diagnostic of `Parser::Expect` for the wanted kind `e` when the token `t` was
read. -/
def expectedMsg (e : Symbol_t) (t : TokRec) : String :=
  ((((((OStream.mk "" false).putStr (some "EXPECTED ")).putStr (GetTokenString e)).putStr
    (some " at ")).putPos t.pos).putStr (some ", actual ")).putStr (GetTokenString t.sym) |>.str

/-- The diagnostic of `Parser::Unexpected` for the token `t`. -/
def unexpectedMsg (t : TokRec) : String :=
  ((((OStream.mk "" false).putStr (some "UNEXPECTED ")).putStr (GetTokenString t.sym)).putStr
    (some " at ")).putPos t.pos |>.str

/-- One parser's pool extends another's: every block of the first is kept in place. -/
def Parser.le (P Q : Parser) : Prop :=
  ∃ ext, Q.m_StringPool.blocks = P.m_StringPool.blocks ++ ext

/-- The variable `ParseVariable` leaves in `a` for the declaration `g` when the name
got the handle `i`. -/
def GVar.stored (g : GVar) (a : FlowVariable) (i : Nat) : FlowVariable :=
  { a with
    Type_ := some g.type
    NameIndex := some i
    HasDefaultValue := some g.hasDefault
    DefaultValue := if g.hasDefault then g.defaultValue else a.DefaultValue }

/-- A token that can start a node member. -/
def startsNodeMember (s : Symbol_t) : Prop :=
  s = T_TYPE_FLOAT ∨ s = T_TYPE_BOOL ∨ s = T_KEYWORD_IN ∨ s = T_KEYWORD_OUT

/-- The number of members of a declaration. -/
def GDecl.size : GDecl → Nat
  | .node n => n.members.length
  | .query q => q.members.length

/-- Every member of a stored query is an output: each variable has its direction flag
set and the direction `EVENT_OUT`, and each event has the direction `EVENT_OUT`. -/
def QueryOut (q : FlowQuery) : Prop :=
  (∀ v ∈ q.Variables, v.HasDirection = some true ∧ v.Direction = some .EVENT_OUT) ∧
    (∀ e ∈ q.Events, e.Direction = some .EVENT_OUT)

/-- The source text of the Test query scenario. -/
def testQuerySrc : List Nat :=
  bytes "query Test \x7b out event Status; out bool boolean_value; \x7d"

/-- The source text of the SoundNode scenario. -/
def soundNodeSrc : List Nat :=
  bytes "node SoundNode \x7b in event Play; out event Stopped; bool boolean_value; float float_value = 1; \x7d"

/-- The text of `FlowDefinition` in main.cpp. -/
def FlowDefinition : List Nat :=
  bytes ("node SoundNode\n\x7b\n   in event Play;\n   in event Stop;\n   out event Playing;\n" ++
    "   out event Stopped;\n   bool boolean_value;\n   float float_value = 1;\n\x7d\n" ++
    "query Test\n\x7b\n   out event Status;\n   out event Play;\n   out bool boolean_value;\n\x7d\n")

/-- The declarations of `FlowDefinition`. -/
def FlowDefinitionDecls : List GDecl :=
  [.node ⟨bytes "SoundNode",
      [.event .EVENT_IN (bytes "Play"), .event .EVENT_IN (bytes "Stop"),
       .event .EVENT_OUT (bytes "Playing"), .event .EVENT_OUT (bytes "Stopped"),
       .var (.bool (bytes "boolean_value") none),
       .var (.float (bytes "float_value") (some (.integer 1)))]⟩,
   .query ⟨bytes "Test",
      [.event (bytes "Status"), .event (bytes "Play"), .var (.bool (bytes "boolean_value") none)]⟩]

/-- The tokens from the start of a declaration up to a place where a variable
declaration may start: a node header and members, optionally with a direction prefix
already read, or a query header and members with the prefix `out` already read. -/
inductive VarSite
  | node (name : List Nat) (ms : List GNodeMember) (dir : Option EventDirection)
  | query (name : List Nat) (ms : List GQueryMember)

/-- The tokens of the optional direction prefix. -/
def dirToks : Option EventDirection → List Tok
  | none => []
  | some d => [dirTok d]

/-- The tokens of a site. -/
def VarSite.toks : VarSite → List Tok
  | .node n ms dir =>
    [.kw T_KEYWORD_NODE, .ident n, .kw T_LEFT_CURLY_BRACKET] ++ nodeBody ms ++ dirToks dir
  | .query n ms =>
    [.kw T_KEYWORD_QUERY, .ident n, .kw T_LEFT_CURLY_BRACKET] ++ queryBody ms ++
      [.kw T_KEYWORD_OUT]

/-- The number of members before a site. -/
def VarSite.size : VarSite → Nat
  | .node _ ms _ => ms.length
  | .query _ ms => ms.length

/-- The source text of the scenario with `in` in a query. -/
def badQuerySrc : List Nat := bytes "query Bad \x7b in event X; \x7d"

/-- The source text of the scenario with a malformed bool default. -/
def badBoolSrc : List Nat := bytes "node N \x7b bool flag = 5; \x7d"

/-- The source text with a keyword as the default of a float variable. -/
def badFloatSrc : List Nat := bytes "node N \x7b float x = true; \x7d"

/-- The source text with a keyword as the default of a float variable and no semicolon
after it. -/
def badFloatNoSemiSrc : List Nat := bytes "node N \x7b float x = true \x7d"

/-- A text begins with the text `p`. -/
def BeginsWith (s p : String) : Prop := ∃ rest, s = p ++ rest

/-! ## Symbol table invariants -/

/-- The search of `Insert` for the text `s` ends at a node that holds `s` and the
offset `h`. -/
def SymbolTable.Node.Finds (s : List Nat) (h : Nat) : SymbolTable.Node → Prop
  | .null => False
  | .node none _ _ _ => False
  | .node (some x) off l r =>
    if strcmp s x = 0 then off = h
    else if strcmp s x < 0 then SymbolTable.Node.Finds s h l
    else SymbolTable.Node.Finds s h r

/-- Every node of the tree holds a text, and its offset is a pool handle under which
that text is stored. -/
def SymbolTable.Node.Consistent (pool : Pool) : SymbolTable.Node → Prop
  | .null => True
  | .node p off l r =>
    (∃ x, p = some x ∧ (pool.GetPointer off).map cstr = some x) ∧
      SymbolTable.Node.Consistent pool l ∧ SymbolTable.Node.Consistent pool r

/-- A run of `Insert` calls, each with its text (or the null pointer) and its `modify`
flag; the returned indices are dropped. -/
def SymbolTable.InsertAll (t : SymbolTable) : List (Option (List Nat) × Bool) → SymbolTable
  | [] => t
  | o :: ops => SymbolTable.InsertAll (t.Insert o.1 o.2).2 ops

/-- The pool `q` keeps every block of the pool `p` in place. -/
def Pool.le (p q : Pool) : Prop := ∃ ext, q.blocks = p.blocks ++ ext

/-- The tree and the pool of a table agree. -/
def SymbolTable.Consistent (t : SymbolTable) : Prop := t.m_pRoot.Consistent t.m_StringPool

/-! ## Lookahead -/

/-- The tokens returned by `k` consecutive calls of `Tokenizer::Peek()`, and the
tokenizer after them. -/
def Tokenizer.PeekTimes : Nat → Tokenizer → List Symbol_t × Tokenizer
  | 0, tk => ([], tk)
  | k + 1, tk => (tk.Peek.1 :: (Tokenizer.PeekTimes k tk.Peek.2).1, (Tokenizer.PeekTimes k tk.Peek.2).2)

/-! ## The accepted language -/

/-- A variable declaration as `ParseVariable` accepts it: a declaration of the grammar,
or `float IDENT = t ;` where `t` is one token of any kind. -/
inductive AVar
  | strict (g : GVar)
  | loose (name : List Nat) (t : Tok)
  deriving DecidableEq, Repr

/-- The declared name of an accepted variable declaration. -/
def AVar.name : AVar → List Nat
  | .strict g => g.name
  | .loose n _ => n

/-- The tokens of an accepted variable declaration. -/
def AVar.toks : AVar → List Tok
  | .strict g => g.toks
  | .loose n t => [.kw T_TYPE_FLOAT, .ident n, .kw T_ASSIGN, t, .kw T_SEMICOLON]

/-- A member of a node or query body as the member loops accept it: a variable
declaration with an optional direction prefix, or an event with its prefix. -/
inductive AMember
  | var (dir : Option EventDirection) (v : AVar)
  | event (dir : EventDirection) (name : List Nat)
  deriving DecidableEq, Repr

/-- The tokens of an accepted member. -/
def AMember.toks : AMember → List Tok
  | .var d v => dirToks d ++ v.toks
  | .event d n => [dirTok d, .kw T_KEYWORD_EVENT, .ident n, .kw T_SEMICOLON]

/-- The member starts with the prefix `out`. -/
def AMember.isOut : AMember → Prop
  | .var d _ => d = some .EVENT_OUT
  | .event d _ => d = .EVENT_OUT

/-- The tokens of a list of accepted members. -/
def memberToks : List AMember → List Tok
  | [] => []
  | m :: ms => m.toks ++ memberToks ms

/-- The names of the event members in source order. -/
def eventNames : List AMember → List (List Nat)
  | [] => []
  | .event _ n :: ms => n :: eventNames ms
  | _ :: ms => eventNames ms

/-- The names of the variable members in source order. -/
def varNames : List AMember → List (List Nat)
  | [] => []
  | .var _ v :: ms => v.name :: varNames ms
  | _ :: ms => varNames ms

/-- A declaration as `ParseNode` or `ParseQuery` accepts it. -/
inductive ADecl
  | node (name : List Nat) (ms : List AMember)
  | query (name : List Nat) (ms : List AMember)
  deriving DecidableEq, Repr

/-- The tokens of an accepted declaration. -/
def ADecl.toks : ADecl → List Tok
  | .node n ms =>
    [.kw T_KEYWORD_NODE, .ident n, .kw T_LEFT_CURLY_BRACKET] ++ memberToks ms ++
      [.kw T_RIGHT_CURLY_BRACKET]
  | .query n ms =>
    [.kw T_KEYWORD_QUERY, .ident n, .kw T_LEFT_CURLY_BRACKET] ++ memberToks ms ++
      [.kw T_RIGHT_CURLY_BRACKET]

/-- Every member of a query declaration starts with `out`. -/
def ADecl.WellFormed : ADecl → Prop
  | .node _ _ => True
  | .query _ ms => ∀ m ∈ ms, m.isOut

/-- The tokens of a list of accepted declarations. -/
def accToks : List ADecl → List Tok
  | [] => []
  | d :: ds => d.toks ++ accToks ds

/-- The name and the members of the node declarations in source order. -/
def accNodes : List ADecl → List (List Nat × List AMember)
  | [] => []
  | .node n ms :: ds => (n, ms) :: accNodes ds
  | _ :: ds => accNodes ds

/-- The name and the members of the query declarations in source order. -/
def accQueries : List ADecl → List (List Nat × List AMember)
  | [] => []
  | .query n ms :: ds => (n, ms) :: accQueries ds
  | _ :: ds => accQueries ds

/-- The stored events carry, in order, handles that `GetString` resolves to the
names. -/
def EventNames (P : Parser) (es : List FlowEvent) (names : List (List Nat)) : Prop :=
  List.Forall₂ (fun e n => P.Resolves e.NameIndex n) es names

/-- The stored variables carry, in order, handles that `GetString` resolves to the
names. -/
def VarNames (P : Parser) (vs : List FlowVariable) (names : List (List Nat)) : Prop :=
  List.Forall₂ (fun v n => P.Resolves v.NameIndex n) vs names

/-- The names of a stored node and of its events and variables resolve to the
identifiers of the declaration. -/
def NodeNames (P : Parser) (n : FlowNode) (g : List Nat × List AMember) : Prop :=
  P.Resolves n.NameIndex g.1 ∧ EventNames P n.Events (eventNames g.2) ∧
    VarNames P n.Variables (varNames g.2)

/-- The names of a stored query and of its events and variables resolve to the
identifiers of the declaration. -/
def QueryNames (P : Parser) (q : FlowQuery) (g : List Nat × List AMember) : Prop :=
  P.Resolves q.NameIndex g.1 ∧ EventNames P q.Events (eventNames g.2) ∧
    VarNames P q.Variables (varNames g.2)

/-! ## Positions -/

/-- The position after the characters `cs` have been extracted one by one through
`GetChar`, starting at `p`. -/
def PositionInfo.after (p : PositionInfo) (cs : List Nat) : PositionInfo :=
  cs.foldl PositionInfo.advance p

/-- The stream `s1` and the position `p1` are reached from `s` and `p` by extracting
characters: some prefix of `s` was consumed and the position was advanced over it. -/
def Tracks (s : List Nat) (p : PositionInfo) (s1 : List Nat) (p1 : PositionInfo) : Prop :=
  ∃ consumed, s = consumed ++ s1 ∧ p1 = p.after consumed

/-- The number of newline characters in a text. -/
def rowOf (cs : List Nat) : Nat := cs.count 10

/-- The characters after the last newline of a text. -/
def lastLine (cs : List Nat) : List Nat := (cs.reverse.takeWhile (fun c => c != 10)).reverse

/-- The column reached after a text: 4 for every tab and 1 for every other character
after the last newline. -/
def colOf (cs : List Nat) : Nat := ((lastLine cs).map (fun c => if c = 9 then 4 else 1)).sum

/-- A call of the tokenizer's interface. -/
inductive TokCall
  | getSym
  | peek
  deriving DecidableEq, Repr

/-- The tokenizer after a sequence of calls of `GetSym()` and `Peek()`. -/
def Tokenizer.calls (tk : Tokenizer) : List TokCall → Tokenizer
  | [] => tk
  | .getSym :: cs => Tokenizer.calls tk.GetSym.2 cs
  | .peek :: cs => Tokenizer.calls tk.Peek.2 cs

/-- A cached end of input was found with the stream exhausted. -/
def Tokenizer.Settled (tk : Tokenizer) : Prop :=
  tk.m_HasPeeked = true → tk.m_NextSym = T_EOF → tk.m_Stream = []

/-- A source whose node name is a character that starts no token. -/
def strayNameSrc : List Nat := bytes "node @ \x7b \x7d"

/-- A source whose node name is written `_n` and whose event name is written `!9_`. -/
def strayNamesSrc : List Nat := bytes "node _n \x7b in event !9_; \x7d"

/-- The text `w` is written in `src`: it is a contiguous piece of it. -/
def Within (w src : List Nat) : Prop := ∃ a b, src = a ++ w ++ b

/-- The source text of the scenario with a bare `event` in a node. -/
def bareEventSrc : List Nat := bytes "node N \x7b event X; \x7d"

/-! ## Numeric literals -/

/-- The text after the leading digits of a numeric literal: nothing for an integer
literal (`none`); for a real literal a dot, the digits `fs` and, when the flag is set,
the suffix `f`. -/
def fracText : Option (List Nat × Bool) → List Nat
  | none => []
  | some (fs, suffix) => 46 :: fs ++ (if suffix then [102] else [])

/-- The literal ends before `rest`: after the digits of an integer literal comes no
digit and no dot; after a real literal without suffix comes no digit and no `f`; after
the suffix `f` anything may come. -/
def literalEnds : Option (List Nat × Bool) → List Nat → Prop
  | none, rest => ∀ x ∈ rest.head?, isdigit x = false ∧ x ≠ 46
  | some (_, true), _ => True
  | some (_, false), rest => ∀ x ∈ rest.head?, isdigit x = false ∧ x ≠ 102

/-- A source with a real literal beyond the range of `float`: 1 followed by 39 zeros and
a dot. -/
def hugeRealSrc : List Nat := bytes "1000000000000000000000000000000000000000."

/-! ## The search tree -/

/-- The texts held in a tree, left subtree first, then the node, then the right
subtree. -/
def SymbolTable.Node.texts : SymbolTable.Node → List (List Nat)
  | .null => []
  | .node p _ l r => SymbolTable.Node.texts l ++ p.toList ++ SymbolTable.Node.texts r

/-- The tree is a binary search tree under `strcmp`: at every node the texts of the left
subtree compare smaller than the node's text and those of the right subtree greater. -/
def SymbolTable.Node.Ordered : SymbolTable.Node → Prop
  | .null => True
  | .node p _ l r =>
    (∀ x, p = some x →
      (∀ y ∈ SymbolTable.Node.texts l, strcmp y x < 0) ∧
      (∀ y ∈ SymbolTable.Node.texts r, 0 < strcmp y x)) ∧
    SymbolTable.Node.Ordered l ∧ SymbolTable.Node.Ordered r

/-- The second tree has every node of the first at the same place, with the same text
and offset; it may have nodes where the first has null pointers. -/
def SymbolTable.Node.Extends : SymbolTable.Node → SymbolTable.Node → Prop
  | .null, _ => True
  | .node _ _ _ _, .null => False
  | .node p off l r, .node p1 off1 l1 r1 =>
    p = p1 ∧ off = off1 ∧ SymbolTable.Node.Extends l l1 ∧ SymbolTable.Node.Extends r r1

/-- The right-leaning chain that holds the texts `xs` with the offsets `k`, `k + 1`,
and so on. -/
def chain : Nat → List (List Nat) → SymbolTable.Node
  | _, [] => .null
  | k, x :: xs => .node (some x) k .null (chain (k + 1) xs)

/-! ## The tokenizer makes progress -/

theorem skipSpace_length (c : Nat) (s : List Nat) (p : PositionInfo) :
    (skipSpace c s p).2.1.length ≤ s.length := by
  induction s generalizing c p with
  | nil => unfold skipSpace; split <;> simp
  | cons a t ih =>
    unfold skipSpace
    split
    · exact Nat.le_succ_of_le (ih a _)
    · simp

theorem identLoop_length (s : List Nat) (p : PositionInfo) (v : List Nat) :
    (identLoop s p v).1.length ≤ s.length := by
  induction s generalizing p v with
  | nil => simp [identLoop]
  | cons a t ih =>
    unfold identLoop
    split
    · split
      · exact Nat.le_succ_of_le (ih _ _)
      · simp
    · simp

theorem numericLoop_length (s : List Nat) (p : PositionInfo) (v : List Nat) :
    (numericLoop s p v).2.1.length ≤ s.length := by
  induction s generalizing p v with
  | nil => simp [numericLoop]
  | cons a t ih =>
    unfold numericLoop
    split
    · split
      · exact Nat.le_succ_of_le (ih _ _)
      · split <;> simp
    · simp

theorem floatLoop_length (s : List Nat) (p : PositionInfo) (v : List Nat) :
    (floatLoop s p v).1.length ≤ s.length := by
  induction s generalizing p v with
  | nil => simp [floatLoop]
  | cons a t ih =>
    unfold floatLoop
    split
    · split
      · exact Nat.le_succ_of_le (ih _ _)
      · split <;> simp
    · simp

theorem tokIdent_length (tk : Tokenizer) (v : List Nat) :
    (tk.tokIdent v).2.m_Stream.length ≤ tk.m_Stream.length := by
  unfold Tokenizer.tokIdent
  have := identLoop_length tk.m_Stream tk.m_Position v
  dsimp only
  split <;> simpa using this

theorem tokFloat_length (tk : Tokenizer) (v : List Nat) :
    (tk.tokFloat v).2.m_Stream.length ≤ tk.m_Stream.length := by
  unfold Tokenizer.tokFloat
  have := floatLoop_length tk.m_Stream tk.m_Position v
  dsimp only
  split <;> simpa using this

theorem tokNumeric_length (tk : Tokenizer) (v : List Nat) :
    (tk.tokNumeric v).2.m_Stream.length ≤ tk.m_Stream.length := by
  unfold Tokenizer.tokNumeric
  have h := numericLoop_length tk.m_Stream tk.m_Position v
  simp only
  split
  · split <;> simpa using h
  · exact le_trans (tokFloat_length _ _) (by simpa using h)

theorem followedByEq_length (tk : Tokenizer) (a b : Symbol_t) :
    (tk.followedByEq a b).2.m_Stream.length ≤ tk.m_Stream.length := by
  unfold Tokenizer.followedByEq
  split
  · split
    · unfold Tokenizer.GetChar; split <;> simp_all
    · simp
  · simp

theorem tokInitial_length (tk : Tokenizer) (c : Nat) :
    (tk.tokInitial c).2.m_Stream.length ≤ tk.m_Stream.length := by
  unfold Tokenizer.tokInitial
  split
  · simp
  · split_ifs
    · exact followedByEq_length _ _ _
    · exact followedByEq_length _ _ _
    · exact followedByEq_length _ _ _
    · exact tokNumeric_length _ _
    · exact tokIdent_length _ _
    · exact tokIdent_length _ _

/-- A scan that does not report the end of input takes at least one character. -/
theorem scan_length (tk : Tokenizer) (h : tk.scan.1 ≠ T_EOF) :
    tk.scan.2.m_Stream.length < tk.m_Stream.length := by
  unfold Tokenizer.scan at h ⊢
  split at h
  · simp at h
  · rename_i c rest hs
    dsimp only at h ⊢
    split at h
    · simp at h
    · rename_i c1 hc
      have h1 : _ ≤ (skipSpace c rest (tk.m_Position.advance c)).2.1.length :=
        tokInitial_length { tk with m_Stream := (skipSpace c rest (tk.m_Position.advance c)).2.1, m_Position := (skipSpace c rest (tk.m_Position.advance c)).2.2 } c1
      have h2 := skipSpace_length c rest (tk.m_Position.advance c)
      rw [hs]; simp only [List.length_cons]; omega

theorem same_refl (a : Tokenizer) : a.same a := ⟨rfl, rfl, rfl, rfl⟩

theorem tokIdent_same {a b : Tokenizer} (h : a.same b) (v : List Nat) :
    (a.tokIdent v).1 = (b.tokIdent v).1 ∧ (a.tokIdent v).2.same (b.tokIdent v).2 := by
  obtain ⟨h1, h2, h3, h4⟩ := h
  unfold Tokenizer.tokIdent
  dsimp only
  rw [h1, h2, h3]
  split <;> simp [Tokenizer.same, *]

theorem tokFloat_same {a b : Tokenizer} (h : a.same b) (v : List Nat) :
    (a.tokFloat v).1 = (b.tokFloat v).1 ∧ (a.tokFloat v).2.same (b.tokFloat v).2 := by
  obtain ⟨h1, h2, h3, h4⟩ := h
  unfold Tokenizer.tokFloat
  dsimp only
  rw [h1, h3]
  split <;> simp [Tokenizer.same, *]

theorem tokNumeric_same {a b : Tokenizer} (h : a.same b) (v : List Nat) :
    (a.tokNumeric v).1 = (b.tokNumeric v).1 ∧ (a.tokNumeric v).2.same (b.tokNumeric v).2 := by
  obtain ⟨h1, h2, h3, h4⟩ := h
  unfold Tokenizer.tokNumeric
  dsimp only
  rw [h1, h3]
  split
  · split <;> simp [Tokenizer.same, *]
  · apply tokFloat_same
    exact ⟨rfl, h2, rfl, h4⟩

theorem followedByEq_same {a b : Tokenizer} (h : a.same b) (x y : Symbol_t) :
    (a.followedByEq x y).1 = (b.followedByEq x y).1 ∧
      (a.followedByEq x y).2.same (b.followedByEq x y).2 := by
  obtain ⟨h1, h2, h3, h4⟩ := h
  unfold Tokenizer.followedByEq Tokenizer.GetChar
  rw [h1]
  split
  · split
    · cases hb : b.m_Stream <;> simp [Tokenizer.same, *]
    · simp [Tokenizer.same, *]
  · simp [Tokenizer.same, *]

theorem tokInitial_same {a b : Tokenizer} (h : a.same b) (c : Nat) :
    (a.tokInitial c).1 = (b.tokInitial c).1 ∧ (a.tokInitial c).2.same (b.tokInitial c).2 := by
  unfold Tokenizer.tokInitial
  split
  · exact ⟨rfl, h⟩
  · obtain ⟨h1, h2, h3, h4⟩ := h
    split_ifs
    · exact followedByEq_same ⟨h1, h2, h3, h4⟩ _ _
    · exact followedByEq_same ⟨h1, h2, h3, h4⟩ _ _
    · exact followedByEq_same ⟨h1, h2, h3, h4⟩ _ _
    · apply tokNumeric_same
      exact ⟨h1, h2, h3, h4⟩
    · apply tokIdent_same
      exact ⟨h1, h2, h3, h4⟩
    · exact tokIdent_same ⟨h1, h2, h3, h4⟩ _

/-- Scanning does not depend on the lookahead cache or on `m_State`. -/
theorem scan_same {a b : Tokenizer} (h : a.same b) :
    a.scan.1 = b.scan.1 ∧ a.scan.2.same b.scan.2 := by
  obtain ⟨h1, h2, h3, h4⟩ := h
  unfold Tokenizer.scan
  rw [h1, h3]
  split
  · exact ⟨rfl, h1, h2, h3, h4⟩
  · dsimp only
    split
    · simp [Tokenizer.same, *]
    · apply tokInitial_same
      exact ⟨rfl, h2, rfl, h4⟩

theorem record_same {a b : Tokenizer} (h : a.same b) (s : Symbol_t) :
    a.record s = b.record s := by
  obtain ⟨h1, h2, h3, h4⟩ := h
  simp [Tokenizer.record, Tokenizer.Lookup, Tokenizer.SymIndex, Tokenizer.IntValue,
    Tokenizer.RealValue, Tokenizer.Position, *]

theorem scanAll_same (n : Nat) {a b : Tokenizer} (h : a.same b) :
    scanAll n a = scanAll n b := by
  induction n generalizing a b with
  | zero => rfl
  | succ n ih =>
    have hs := scan_same h
    unfold scanAll
    rw [hs.1, record_same hs.2, ih hs.2]

theorem scanAll_fuel_eq (n m : Nat) (tk : Tokenizer) (hn : tk.m_Stream.length < n)
    (hm : tk.m_Stream.length < m) : scanAll n tk = scanAll m tk := by
  induction n generalizing m tk with
  | zero => omega
  | succ n ih =>
    cases m with
    | zero => omega
    | succ m =>
      unfold scanAll
      split
      · rfl
      · rename_i hne
        have hl := scan_length tk hne
        rw [ih m _ (by omega) (by omega)]

/-- More fuel than characters never changes the tokens found. -/
theorem scanAll_fuel (n : Nat) (tk : Tokenizer) (h : tk.m_Stream.length < n) :
    scanAll n tk = scanAll (tk.m_Stream.length + 1) tk :=
  scanAll_fuel_eq _ _ tk h (Nat.lt_succ_self _)

theorem scanAll_length (n : Nat) (tk : Tokenizer) :
    (scanAll n tk).length ≤ tk.m_Stream.length := by
  induction n generalizing tk with
  | zero => simp [scanAll]
  | succ n ih =>
    unfold scanAll
    split
    · simp
    · rename_i hne
      have hl := scan_length tk hne
      have := ih tk.scan.2
      simp only [List.length_cons]
      omega

theorem tokIdent_cache (tk : Tokenizer) (v : List Nat) :
    (tk.tokIdent v).2.m_HasPeeked = tk.m_HasPeeked := by
  unfold Tokenizer.tokIdent
  dsimp only
  split <;> rfl

theorem tokFloat_cache (tk : Tokenizer) (v : List Nat) :
    (tk.tokFloat v).2.m_HasPeeked = tk.m_HasPeeked := by
  unfold Tokenizer.tokFloat
  dsimp only
  split <;> rfl

theorem tokNumeric_cache (tk : Tokenizer) (v : List Nat) :
    (tk.tokNumeric v).2.m_HasPeeked = tk.m_HasPeeked := by
  unfold Tokenizer.tokNumeric
  dsimp only
  split
  · split <;> rfl
  · exact tokFloat_cache _ _

theorem followedByEq_cache (tk : Tokenizer) (a b : Symbol_t) :
    (tk.followedByEq a b).2.m_HasPeeked = tk.m_HasPeeked := by
  unfold Tokenizer.followedByEq Tokenizer.GetChar
  split
  · split
    · split <;> rfl
    · rfl
  · rfl

theorem tokInitial_cache (tk : Tokenizer) (c : Nat) :
    (tk.tokInitial c).2.m_HasPeeked = tk.m_HasPeeked := by
  unfold Tokenizer.tokInitial
  split
  · rfl
  · split_ifs
    · exact followedByEq_cache _ _ _
    · exact followedByEq_cache _ _ _
    · exact followedByEq_cache _ _ _
    · exact tokNumeric_cache _ _
    · exact tokIdent_cache _ _
    · exact tokIdent_cache _ _

/-- Scanning leaves the lookahead flag alone. -/
theorem scan_cache (tk : Tokenizer) : tk.scan.2.m_HasPeeked = tk.m_HasPeeked := by
  unfold Tokenizer.scan
  split
  · rfl
  · dsimp only
    split
    · rfl
    · exact tokInitial_cache _ _

theorem pending_of_not_peeked (tk : Tokenizer) (h : tk.m_HasPeeked = false) :
    tk.pending = scanAll (tk.m_Stream.length + 1) tk := by
  simp [Tokenizer.pending, h]

/-- The token `GetSym` returns is the first pending one, and the rest stay pending. -/
theorem GetSym_pending {tk : Tokenizer} {t : TokRec} {ts : List TokRec}
    (h : tk.pending = t :: ts) :
    tk.GetSym.1 = t.sym ∧ tk.GetSym.2.record t.sym = t ∧ tk.GetSym.2.pending = ts ∧
      tk.GetSym.2.m_HasPeeked = false := by
  unfold Tokenizer.GetSym
  unfold Tokenizer.pending at h
  dsimp only
  by_cases hp : tk.m_HasPeeked = true
  · rw [if_pos hp] at h ⊢
    split at h
    · cases h
    · simp only [List.cons.injEq] at h
      obtain ⟨h1, h2⟩ := h
      have hs : Tokenizer.same { tk with m_State := TokState.TOK_INITIAL, m_HasPeeked := false } tk :=
        ⟨rfl, rfl, rfl, rfl⟩
      refine ⟨by rw [← h1]; rfl, ?_, ?_, rfl⟩
      · rw [record_same hs, ← h1]; rfl
      · rw [pending_of_not_peeked _ rfl, ← h2]
        exact scanAll_same _ hs
  · rw [if_neg hp] at h ⊢
    have hp0 : tk.m_HasPeeked = false := by simpa using hp
    have hs : Tokenizer.same { tk with m_State := TokState.TOK_INITIAL } tk := ⟨rfl, rfl, rfl, rfl⟩
    have hc := scan_same hs
    unfold scanAll at h
    split at h
    · cases h
    · rename_i hne
      simp only [List.cons.injEq] at h
      obtain ⟨h1, h2⟩ := h
      have hsym : tk.scan.1 = t.sym := by rw [← h1]; rfl
      have hcache : (Tokenizer.scan { tk with m_State := TokState.TOK_INITIAL }).2.m_HasPeeked = false := by
        rw [scan_cache]; exact hp0
      refine ⟨hc.1.trans hsym, ?_, ?_, hcache⟩
      · rw [record_same hc.2, ← hsym]; exact h1
      · rw [pending_of_not_peeked _ hcache, scanAll_same _ hc.2, ← h2, hc.2.1]
        exact (scanAll_fuel _ _ (scan_length tk hne)).symm

/-- At the end of the pending tokens `GetSym` reports the end of input. -/
theorem GetSym_pending_nil {tk : Tokenizer} (h : tk.pending = []) : tk.GetSym.1 = T_EOF := by
  unfold Tokenizer.GetSym
  unfold Tokenizer.pending at h
  dsimp only
  by_cases hp : tk.m_HasPeeked = true
  · rw [if_pos hp] at h ⊢
    split at h
    · assumption
    · cases h
  · rw [if_neg hp] at h ⊢
    have hs : Tokenizer.same { tk with m_State := TokState.TOK_INITIAL } tk := ⟨rfl, rfl, rfl, rfl⟩
    rw [(scan_same hs).1]
    unfold scanAll at h
    split at h
    · assumption
    · cases h

/-- Peeking returns the first pending token and keeps every token pending. -/
theorem Peek_pending {tk : Tokenizer} {t : TokRec} {ts : List TokRec}
    (h : tk.pending = t :: ts) :
    tk.Peek.1 = t.sym ∧ tk.Peek.2.record t.sym = t ∧ tk.Peek.2.pending = t :: ts := by
  unfold Tokenizer.Peek
  by_cases hp : tk.m_HasPeeked = true
  · rw [if_pos hp]
    unfold Tokenizer.pending at h
    rw [if_pos hp] at h
    split at h
    · cases h
    · simp only [List.cons.injEq] at h
      refine ⟨by rw [← h.1]; rfl, by rw [← h.1]; rfl, ?_⟩
      unfold Tokenizer.pending
      rw [if_pos hp, if_neg (by assumption), h.1, h.2]
  · rw [if_neg hp]
    obtain ⟨h1, h2, h3, h4⟩ := GetSym_pending h
    dsimp only
    have hs : Tokenizer.same { tk.GetSym.2 with m_NextSym := tk.GetSym.1, m_HasPeeked := true }
        tk.GetSym.2 := ⟨rfl, rfl, rfl, rfl⟩
    refine ⟨h1, by rw [record_same hs]; exact h2, ?_⟩
    unfold Tokenizer.pending
    simp only [if_true]
    have hne : tk.GetSym.1 ≠ T_EOF := by
      intro he
      unfold Tokenizer.GetSym at he
      dsimp only at he
      rw [if_neg hp] at he
      have hs0 : Tokenizer.same { tk with m_State := TokState.TOK_INITIAL } tk := ⟨rfl, rfl, rfl, rfl⟩
      rw [(scan_same hs0).1] at he
      rw [pending_of_not_peeked _ (by simpa using hp)] at h
      unfold scanAll at h
      rw [if_pos he] at h
      cases h
    rw [if_neg hne, record_same hs, h1, h2]
    congr 1
    rw [← h3, pending_of_not_peeked _ h4]
    exact scanAll_same _ ⟨rfl, rfl, rfl, rfl⟩

/-- Peeking at the end of the pending tokens reports the end of input. -/
theorem Peek_pending_nil {tk : Tokenizer} (h : tk.pending = []) :
    tk.Peek.1 = T_EOF ∧ tk.Peek.2.pending = [] := by
  unfold Tokenizer.Peek
  by_cases hp : tk.m_HasPeeked = true
  · rw [if_pos hp]
    refine ⟨?_, h⟩
    unfold Tokenizer.pending at h
    rw [if_pos hp] at h
    split at h
    · assumption
    · cases h
  · rw [if_neg hp]
    have he := GetSym_pending_nil h
    refine ⟨he, ?_⟩
    unfold Tokenizer.pending
    simp [he]

/-! ## The parser on well-formed token sequences -/

theorem tok_kw {r : TokRec} {s : Symbol_t} (h : r.tok = .kw s) : r.sym = s := by
  unfold TokRec.tok at h
  split_ifs at h with h1 h2 h3
  · split at h
    · cases h
    · cases h; exact h1
  · cases h; rfl

theorem tok_ident {r : TokRec} {n : List Nat} (h : r.tok = .ident n) :
    r.sym = T_IDENT ∧ r.text = some n := by
  unfold TokRec.tok at h
  split_ifs at h with h1 h2 h3
  split at h
  · rename_i m hm
    cases h; exact ⟨h1, hm⟩
  · cases h

theorem tok_integer {r : TokRec} {v : Int} (h : r.tok = .integer v) :
    r.sym = T_INTEGER ∧ r.ival = v := by
  unfold TokRec.tok at h
  split_ifs at h with h1 h2 h3
  · split at h <;> cases h
  · cases h; exact ⟨h2, rfl⟩

theorem tok_real {r : TokRec} {f : FloatVal} (h : r.tok = .real f) :
    r.sym = T_REAL ∧ r.rval = f := by
  unfold TokRec.tok at h
  split_ifs at h with h1 h2 h3
  · split at h <;> cases h
  · cases h; exact ⟨h3, rfl⟩

theorem map_eq_cons_split {α β : Type} {f : α → β} {l : List α} {b : β} {bs : List β}
    (h : l.map f = b :: bs) : ∃ a as, l = a :: as ∧ f a = b ∧ as.map f = bs := by
  cases l with
  | nil => cases h
  | cons a as =>
    simp only [List.map_cons, List.cons.injEq] at h
    exact ⟨a, as, rfl, h.1, h.2⟩

theorem cstr_nul_free (b : List Nat) : (0 : Nat) ∉ cstr b := by
  intro h
  have := List.mem_takeWhile_imp h
  simp at this

theorem cstr_append_nul {n : List Nat} (h : (0 : Nat) ∉ n) : cstr (n ++ [0]) = n := by
  induction n with
  | nil => simp [cstr]
  | cons a t ih =>
    have ha : a ≠ 0 := fun e => h (by simp [e])
    have ht : (0 : Nat) ∉ t := fun e => h (by simp [e])
    have := ih ht
    unfold cstr at this ⊢
    simp [List.takeWhile_cons, ha, this]

theorem record_text (tk : Tokenizer) (s : Symbol_t) {n : List Nat}
    (h : (tk.record s).text = some n) : (0 : Nat) ∉ n := by
  simp only [Tokenizer.record, Tokenizer.Lookup, SymbolTable.Retrive] at h
  split at h
  · cases h
  · simp only [Option.map_eq_some'] at h
    obtain ⟨b, -, rfl⟩ := h
    exact cstr_nul_free b

theorem parser_le_refl (P : Parser) : P.le P := ⟨[], by simp⟩

theorem parser_le_trans {P Q R : Parser} (h1 : P.le Q) (h2 : Q.le R) : P.le R := by
  obtain ⟨a, ha⟩ := h1
  obtain ⟨b, hb⟩ := h2
  exact ⟨a ++ b, by rw [hb, ha, List.append_assoc]⟩

theorem Parser.le_push (P : Parser) (n : List Nat) : P.le (P.push n) := ⟨[n ++ [0]], rfl⟩

theorem Parser.le_err (P : Parser) (e : String) : P.le { P with m_ErrorString := e } :=
  ⟨[], by simp⟩

theorem Resolves_mono {P Q : Parser} (h : P.le Q) {i : Option Nat} {n : List Nat}
    (hr : P.Resolves i n) : Q.Resolves i n := by
  obtain ⟨ext, he⟩ := h
  obtain ⟨k, rfl, hk⟩ := hr
  refine ⟨k, rfl, ?_⟩
  unfold Parser.GetString Pool.GetPointer at hk ⊢
  rw [he]
  cases hb : P.m_StringPool.blocks.get? k with
  | none => rw [hb] at hk; cases hk
  | some b =>
    rw [hb] at hk
    have hlt : k < P.m_StringPool.blocks.length := by
      rw [List.get?_eq_some] at hb; exact hb.1
    rw [List.get?_eq_getElem?, List.getElem?_append_left hlt, ← List.get?_eq_getElem?, hb]
    exact hk

theorem Resolves_push (P : Parser) {n : List Nat} (h : (0 : Nat) ∉ n) :
    (P.push n).Resolves (some P.m_StringPool.blocks.length) n := by
  refine ⟨_, rfl, ?_⟩
  simp [Parser.GetString, Pool.GetPointer, Parser.push, cstr_append_nul h]

theorem InsertName_some (P : Parser) (n : List Nat) :
    P.InsertName (some n) = some (P.push n, P.m_StringPool.blocks.length) := rfl

theorem Expect_ok (P : Parser) {e : Symbol_t} {tk : Tokenizer} {t : TokRec} {ts : List TokRec}
    (h : tk.pending = t :: ts) (he : t.sym = e) : P.Expect e tk = (true, P, tk.GetSym.2) := by
  have h1 := (GetSym_pending h).1
  unfold Parser.Expect
  simp [h1, he]

theorem Expect_bad (P : Parser) {e : Symbol_t} {tk : Tokenizer} {t : TokRec} {ts : List TokRec}
    (h : tk.pending = t :: ts) (he : t.sym ≠ e) :
    P.Expect e tk = (false, { P with m_ErrorString := expectedMsg e t }, tk.GetSym.2) := by
  obtain ⟨h1, h2, -, -⟩ := GetSym_pending h
  have hpos : tk.GetSym.2.Position = t.pos := congrArg TokRec.pos h2
  unfold Parser.Expect
  simp [h1, he, expectedMsg, hpos]

theorem ParseEvent_ok (P : Parser) (ev : FlowEvent) {tk : Tokenizer} {pre rest : List TokRec}
    {name : List Nat} (h : tk.pending = pre ++ rest)
    (hp : pre.map TokRec.tok = [.kw T_KEYWORD_EVENT, .ident name, .kw T_SEMICOLON]) :
    ∃ tk1, P.ParseEvent tk ev = (true, P.push name, tk1,
        { ev with NameIndex := some P.m_StringPool.blocks.length }) ∧
      tk1.pending = rest ∧ (0 : Nat) ∉ name := by
  obtain ⟨r1, l1, rfl, e1, hp⟩ := map_eq_cons_split hp
  obtain ⟨r2, l2, rfl, e2, hp⟩ := map_eq_cons_split hp
  obtain ⟨r3, l3, rfl, e3, hp⟩ := map_eq_cons_split hp
  obtain rfl := List.map_eq_nil_iff.mp hp
  simp only [List.cons_append, List.nil_append] at h
  obtain ⟨-, -, a3, -⟩ := GetSym_pending h
  obtain ⟨-, b2, b3, -⟩ := GetSym_pending a3
  obtain ⟨-, -, c3, -⟩ := GetSym_pending b3
  have htext : tk.GetSym.2.GetSym.2.Lookup tk.GetSym.2.GetSym.2.SymIndex = some name :=
    (congrArg TokRec.text b2).trans (tok_ident e2).2
  refine ⟨tk.GetSym.2.GetSym.2.GetSym.2, ?_, c3, ?_⟩
  · unfold Parser.ParseEvent
    rw [Expect_ok P h (tok_kw e1)]
    dsimp only
    rw [Expect_ok P a3 (tok_ident e2).1]
    dsimp only
    rw [htext, InsertName_some]
    dsimp only
    rw [Expect_ok _ b3 (tok_kw e3)]
  · exact record_text _ _ ((congrArg TokRec.text b2).trans (tok_ident e2).2)

theorem GetSym_eq {tk : Tokenizer} {t : TokRec} {ts : List TokRec} (h : tk.pending = t :: ts) :
    tk.GetSym = (t.sym, tk.GetSym.2) :=
  Prod.ext (GetSym_pending h).1 rfl

theorem Peek_eq {tk : Tokenizer} {t : TokRec} {ts : List TokRec} (h : tk.pending = t :: ts) :
    tk.Peek = (t.sym, tk.Peek.2) :=
  Prod.ext (Peek_pending h).1 rfl

theorem ParseVariable_ok (P : Parser) (a : FlowVariable) (g : GVar) {tk : Tokenizer}
    {pre rest : List TokRec} (h : tk.pending = pre ++ rest)
    (hp : pre.map TokRec.tok = g.toks) :
    ∃ tk1, P.ParseVariable tk a = (true, P.push g.name, tk1,
        g.stored a P.m_StringPool.blocks.length) ∧
      tk1.pending = rest ∧ (0 : Nat) ∉ g.name := by
  obtain ⟨r1, l1, rfl, e1, hp⟩ := map_eq_cons_split hp
  obtain ⟨r2, l2, rfl, e2, hp⟩ := map_eq_cons_split hp
  simp only [List.cons_append] at h
  obtain ⟨-, -, a3, -⟩ := GetSym_pending h
  obtain ⟨-, b2, b3, -⟩ := GetSym_pending a3
  have htext : tk.GetSym.2.GetSym.2.Lookup tk.GetSym.2.GetSym.2.SymIndex = some g.name :=
    (congrArg TokRec.text b2).trans (tok_ident e2).2
  have hnul : (0 : Nat) ∉ g.name :=
    record_text _ _ ((congrArg TokRec.text b2).trans (tok_ident e2).2)
  rcases g with ⟨name, _ | ⟨v | f⟩⟩ | ⟨name, _ | _ | _⟩
  · -- float, no default
    obtain ⟨r3, l3, rfl, e3, hp⟩ := map_eq_cons_split
      (show l2.map TokRec.tok = Tok.kw T_SEMICOLON :: [] from hp)
    have e1 : r1.tok = Tok.kw T_TYPE_FLOAT := e1
    obtain rfl := List.map_eq_nil_iff.mp hp
    simp only [List.cons_append, List.nil_append] at b3
    obtain ⟨-, -, p3⟩ := Peek_pending b3
    obtain ⟨-, -, c3, -⟩ := GetSym_pending p3
    refine ⟨_, ?_, c3, hnul⟩
    unfold Parser.ParseVariable
    rw [GetSym_eq h]
    dsimp only
    rw [if_pos (tok_kw e1), Expect_ok P a3 (tok_ident e2).1]
    dsimp only
    rw [htext, InsertName_some]
    dsimp only
    rw [Peek_eq b3]
    dsimp only
    rw [if_neg (by rw [tok_kw e3]; decide), Expect_ok _ p3 (tok_kw e3)]
    rfl
  · -- float, integer default
    have e1 : r1.tok = Tok.kw T_TYPE_FLOAT := e1
    obtain ⟨r3, l3, rfl, e3, hp⟩ := map_eq_cons_split
      (show l2.map TokRec.tok = Tok.kw T_ASSIGN :: [Tok.integer v, Tok.kw T_SEMICOLON] from hp)
    obtain ⟨r4, l4, rfl, e4, hp⟩ := map_eq_cons_split hp
    obtain ⟨r5, l5, rfl, e5, hp⟩ := map_eq_cons_split hp
    obtain rfl := List.map_eq_nil_iff.mp hp
    simp only [List.cons_append, List.nil_append] at b3
    obtain ⟨-, -, p3⟩ := Peek_pending b3
    obtain ⟨-, -, c3, -⟩ := GetSym_pending p3
    obtain ⟨-, d2, d3, -⟩ := GetSym_pending c3
    obtain ⟨-, -, f3, -⟩ := GetSym_pending d3
    have hval : tk.GetSym.2.GetSym.2.Peek.2.GetSym.2.GetSym.2.IntValue = v :=
      (congrArg TokRec.ival d2).trans (tok_integer e4).2
    refine ⟨_, ?_, f3, hnul⟩
    unfold Parser.ParseVariable
    rw [GetSym_eq h]
    dsimp only
    rw [if_pos (tok_kw e1), Expect_ok P a3 (tok_ident e2).1]
    dsimp only
    rw [htext, InsertName_some]
    dsimp only
    rw [Peek_eq b3]
    dsimp only
    rw [if_pos (tok_kw e3), GetSym_eq c3]
    dsimp only
    rw [if_neg (by rw [(tok_integer e4).1]; decide), if_pos (tok_integer e4).1,
      Expect_ok _ d3 (tok_kw e5), hval]
    rfl
  · -- float, real default
    have e1 : r1.tok = Tok.kw T_TYPE_FLOAT := e1
    obtain ⟨r3, l3, rfl, e3, hp⟩ := map_eq_cons_split
      (show l2.map TokRec.tok = Tok.kw T_ASSIGN :: [Tok.real f, Tok.kw T_SEMICOLON] from hp)
    obtain ⟨r4, l4, rfl, e4, hp⟩ := map_eq_cons_split hp
    obtain ⟨r5, l5, rfl, e5, hp⟩ := map_eq_cons_split hp
    obtain rfl := List.map_eq_nil_iff.mp hp
    simp only [List.cons_append, List.nil_append] at b3
    obtain ⟨-, -, p3⟩ := Peek_pending b3
    obtain ⟨-, -, c3, -⟩ := GetSym_pending p3
    obtain ⟨-, d2, d3, -⟩ := GetSym_pending c3
    obtain ⟨-, -, f3, -⟩ := GetSym_pending d3
    have hval : tk.GetSym.2.GetSym.2.Peek.2.GetSym.2.GetSym.2.RealValue = f :=
      (congrArg TokRec.rval d2).trans (tok_real e4).2
    refine ⟨_, ?_, f3, hnul⟩
    unfold Parser.ParseVariable
    rw [GetSym_eq h]
    dsimp only
    rw [if_pos (tok_kw e1), Expect_ok P a3 (tok_ident e2).1]
    dsimp only
    rw [htext, InsertName_some]
    dsimp only
    rw [Peek_eq b3]
    dsimp only
    rw [if_pos (tok_kw e3), GetSym_eq c3]
    dsimp only
    rw [if_pos (tok_real e4).1, Expect_ok _ d3 (tok_kw e5), hval]
    rfl
  · -- bool, no default
    have e1 : r1.tok = Tok.kw T_TYPE_BOOL := e1
    obtain ⟨r3, l3, rfl, e3, hp⟩ := map_eq_cons_split
      (show l2.map TokRec.tok = Tok.kw T_SEMICOLON :: [] from hp)
    obtain rfl := List.map_eq_nil_iff.mp hp
    simp only [List.cons_append, List.nil_append] at b3
    obtain ⟨-, -, p3⟩ := Peek_pending b3
    obtain ⟨-, -, c3, -⟩ := GetSym_pending p3
    refine ⟨_, ?_, c3, hnul⟩
    unfold Parser.ParseVariable
    rw [GetSym_eq h]
    dsimp only
    rw [if_neg (by rw [tok_kw e1]; decide), if_pos (tok_kw e1),
      Expect_ok P a3 (tok_ident e2).1]
    dsimp only
    rw [htext, InsertName_some]
    dsimp only
    rw [Peek_eq b3]
    dsimp only
    rw [if_neg (by rw [tok_kw e3]; decide), Expect_ok _ p3 (tok_kw e3)]
    rfl
  · -- bool, default false
    have e1 : r1.tok = Tok.kw T_TYPE_BOOL := e1
    obtain ⟨r3, l3, rfl, e3, hp⟩ := map_eq_cons_split
      (show l2.map TokRec.tok = Tok.kw T_ASSIGN :: [Tok.kw T_KEYWORD_FALSE, Tok.kw T_SEMICOLON] from hp)
    obtain ⟨r4, l4, rfl, e4, hp⟩ := map_eq_cons_split hp
    obtain ⟨r5, l5, rfl, e5, hp⟩ := map_eq_cons_split hp
    obtain rfl := List.map_eq_nil_iff.mp hp
    simp only [List.cons_append, List.nil_append] at b3
    obtain ⟨-, -, p3⟩ := Peek_pending b3
    obtain ⟨-, -, c3, -⟩ := GetSym_pending p3
    obtain ⟨-, -, d3, -⟩ := GetSym_pending c3
    obtain ⟨-, -, f3, -⟩ := GetSym_pending d3
    refine ⟨_, ?_, f3, hnul⟩
    unfold Parser.ParseVariable
    rw [GetSym_eq h]
    dsimp only
    rw [if_neg (by rw [tok_kw e1]; decide), if_pos (tok_kw e1),
      Expect_ok P a3 (tok_ident e2).1]
    dsimp only
    rw [htext, InsertName_some]
    dsimp only
    rw [Peek_eq b3]
    dsimp only
    rw [if_pos (tok_kw e3), GetSym_eq c3]
    dsimp only
    rw [if_neg (by rw [tok_kw e4]; decide), if_pos (tok_kw e4), Expect_ok _ d3 (tok_kw e5)]
    rfl
  · -- bool, default true
    have e1 : r1.tok = Tok.kw T_TYPE_BOOL := e1
    obtain ⟨r3, l3, rfl, e3, hp⟩ := map_eq_cons_split
      (show l2.map TokRec.tok = Tok.kw T_ASSIGN :: [Tok.kw T_KEYWORD_TRUE, Tok.kw T_SEMICOLON] from hp)
    obtain ⟨r4, l4, rfl, e4, hp⟩ := map_eq_cons_split hp
    obtain ⟨r5, l5, rfl, e5, hp⟩ := map_eq_cons_split hp
    obtain rfl := List.map_eq_nil_iff.mp hp
    simp only [List.cons_append, List.nil_append] at b3
    obtain ⟨-, -, p3⟩ := Peek_pending b3
    obtain ⟨-, -, c3, -⟩ := GetSym_pending p3
    obtain ⟨-, -, d3, -⟩ := GetSym_pending c3
    obtain ⟨-, -, f3, -⟩ := GetSym_pending d3
    refine ⟨_, ?_, f3, hnul⟩
    unfold Parser.ParseVariable
    rw [GetSym_eq h]
    dsimp only
    rw [if_neg (by rw [tok_kw e1]; decide), if_pos (tok_kw e1),
      Expect_ok P a3 (tok_ident e2).1]
    dsimp only
    rw [htext, InsertName_some]
    dsimp only
    rw [Peek_eq b3]
    dsimp only
    rw [if_pos (tok_kw e3), GetSym_eq c3]
    dsimp only
    rw [if_pos (tok_kw e4), Expect_ok _ d3 (tok_kw e5)]
    rfl

theorem dirTok_sym {r : TokRec} {d : EventDirection} (h : r.tok = dirTok d) :
    (r.sym = T_KEYWORD_IN ∨ r.sym = T_KEYWORD_OUT) ∧ dirOf r.sym = d := by
  cases d with
  | EVENT_IN => have := tok_kw h; simp [this, dirOf]
  | EVENT_OUT => have := tok_kw h; simp [this, dirOf]

theorem typeTok_sym {r : TokRec} {g : GVar} (h : r.tok = g.typeTok) :
    r.sym = T_TYPE_FLOAT ∨ r.sym = T_TYPE_BOOL := by
  cases g with
  | float n d => exact Or.inl (tok_kw h)
  | bool n d => exact Or.inr (tok_kw h)

theorem stored_models (P Q : Parser) (g : GVar) (a : FlowVariable) (hn : (0 : Nat) ∉ g.name)
    (hle : (P.push g.name).le Q) (od : Option EventDirection)
    (hd : ∀ d, od = some d → a.HasDirection = some true ∧ a.Direction = some d) :
    VarModels Q (g.stored a P.m_StringPool.blocks.length) (od, g) := by
  refine ⟨rfl, Resolves_mono hle (Resolves_push P hn), rfl, ?_, hd⟩
  intro hh
  simp [GVar.stored, hh]

/-- The member loop of a node takes the members of a well-formed body one by one. -/
theorem ParseNodeLoop_members (ms : List GNodeMember) :
    ∀ (k : Nat) (P : Parser) (tk : Tokenizer) (node : FlowNode) (pre rest : List TokRec),
      tk.pending = pre ++ rest → pre.map TokRec.tok = nodeBody ms →
      ∃ (P1 : Parser) (tk1 : Tokenizer) (evs : List FlowEvent) (vars : List FlowVariable),
        Parser.ParseNodeLoop (ms.length + k) P tk.Peek.2 tk.Peek.1 node =
          Parser.ParseNodeLoop k P1 tk1.Peek.2 tk1.Peek.1
            { node with Events := node.Events ++ evs, Variables := node.Variables ++ vars } ∧
        tk1.pending = rest ∧ P.le P1 ∧ P1.m_ErrorString = P.m_ErrorString ∧
        List.Forall₂ (EventModels P1) evs (nodeEvents ms) ∧
        List.Forall₂ (VarModels P1) vars (nodeVars ms) := by
  induction ms with
  | nil =>
    intro k P tk node pre rest h hp
    obtain rfl := List.map_eq_nil_iff.mp hp
    exact ⟨P, tk, [], [], by simp, h, parser_le_refl P, rfl, List.Forall₂.nil, List.Forall₂.nil⟩
  | cons m ms ih =>
    intro k P tk node pre rest h hp
    obtain ⟨pm, pr, rfl, hm, hr⟩ := List.map_eq_append_iff.mp hp
    rw [List.append_assoc] at h
    rw [List.length_cons, Nat.add_right_comm, Parser.ParseNodeLoop]
    cases m with
    | var g =>
      obtain ⟨r1, l1, rfl, e1, -⟩ := map_eq_cons_split hm
      obtain ⟨q1, -, q3⟩ := Peek_pending h
      obtain ⟨tk1, hv, hpend, hn⟩ := ParseVariable_ok P FlowVariable.new g q3 hm
      obtain ⟨P1, tk2, evs, vars, hloop, h2, hle, herr, hev, hvar⟩ :=
        ih k (P.push g.name) tk1 { node with Variables := node.Variables ++
          [g.stored FlowVariable.new P.m_StringPool.blocks.length] } pr rest hpend hr
      refine ⟨P1, tk2, evs, g.stored FlowVariable.new P.m_StringPool.blocks.length :: vars,
        ?_, h2, parser_le_trans (P.le_push _) hle, herr, hev, ?_⟩
      · rw [if_pos (by rw [q1]; exact typeTok_sym e1), hv]
        dsimp only
        rw [hloop]
        simp
      · exact List.Forall₂.cons (stored_models P P1 g _ hn hle none (by simp)) hvar
    | dvar d g =>
      obtain ⟨r0, pv, rfl, e0, hm⟩ := map_eq_cons_split hm
      obtain ⟨r1, l1, rfl, e1, -⟩ := map_eq_cons_split (show pv.map TokRec.tok = _ from hm)
      obtain ⟨q1, -, q3⟩ := Peek_pending h
      obtain ⟨-, -, g3, -⟩ := GetSym_pending q3
      obtain ⟨-, -, p3⟩ := Peek_pending g3
      obtain ⟨hdir, hdof⟩ := dirTok_sym e0
      obtain ⟨tk1, hv, hpend, hn⟩ := ParseVariable_ok P FlowVariable.new g p3 hm
      obtain ⟨P1, tk2, evs, vars, hloop, h2, hle, herr, hev, hvar⟩ :=
        ih k (P.push g.name) tk1 { node with Variables := node.Variables ++
          [{ g.stored FlowVariable.new P.m_StringPool.blocks.length with
              HasDirection := some true, Direction := some d }] } pr rest hpend hr
      refine ⟨P1, tk2, evs, { g.stored FlowVariable.new P.m_StringPool.blocks.length with
              HasDirection := some true, Direction := some d } :: vars,
        ?_, h2, parser_le_trans (P.le_push _) hle, herr, hev, ?_⟩
      · rw [if_neg (by rw [q1]; rcases hdir with hh | hh <;> rw [hh] <;> decide),
          if_pos (by rw [q1]; exact hdir), Peek_eq g3]
        dsimp only
        rw [if_pos (typeTok_sym e1).symm, hv]
        dsimp only
        rw [q1, hdof, hloop]
        simp
      · exact List.Forall₂.cons
          (stored_models P P1 g ⟨none, none, none, some true, some d, none⟩ hn hle (some d)
            (by simp)) hvar
    | event d n =>
      obtain ⟨r0, pv, rfl, e0, hm⟩ := map_eq_cons_split hm
      obtain ⟨r1, l1, rfl, e1, -⟩ := map_eq_cons_split (show pv.map TokRec.tok = _ from hm)
      obtain ⟨q1, -, q3⟩ := Peek_pending h
      obtain ⟨-, -, g3, -⟩ := GetSym_pending q3
      obtain ⟨-, -, p3⟩ := Peek_pending g3
      obtain ⟨hdir, hdof⟩ := dirTok_sym e0
      obtain ⟨tk1, hv, hpend, hn⟩ := ParseEvent_ok P FlowEvent.new p3 hm
      obtain ⟨P1, tk2, evs, vars, hloop, h2, hle, herr, hev, hvar⟩ :=
        ih k (P.push n) tk1 { node with Events := node.Events ++
          [{ Direction := some d, NameIndex := some P.m_StringPool.blocks.length }] }
          pr rest hpend hr
      refine ⟨P1, tk2, { Direction := some d, NameIndex := some P.m_StringPool.blocks.length }
          :: evs, vars, ?_, h2, parser_le_trans (P.le_push _) hle, herr, ?_, hvar⟩
      · rw [if_neg (by rw [q1]; rcases hdir with hh | hh <;> rw [hh] <;> decide),
          if_pos (by rw [q1]; exact hdir), Peek_eq g3]
        dsimp only
        rw [if_neg (by rw [tok_kw e1]; decide), hv]
        dsimp only
        rw [q1, hdof]
        exact hloop.trans (by simp)
      · exact List.Forall₂.cons ⟨rfl, Resolves_mono hle (Resolves_push P hn)⟩ hev

/-- The member loop of a query takes the members of a well-formed body one by one. -/
theorem ParseQueryLoop_members (ms : List GQueryMember) :
    ∀ (k : Nat) (P : Parser) (tk : Tokenizer) (query : FlowQuery) (pre rest : List TokRec),
      tk.pending = pre ++ rest → pre.map TokRec.tok = queryBody ms →
      ∃ (P1 : Parser) (tk1 : Tokenizer) (evs : List FlowEvent) (vars : List FlowVariable),
        Parser.ParseQueryLoop (ms.length + k) P tk.Peek.2 tk.Peek.1 query =
          Parser.ParseQueryLoop k P1 tk1.Peek.2 tk1.Peek.1
            { query with Events := query.Events ++ evs,
                         Variables := query.Variables ++ vars } ∧
        tk1.pending = rest ∧ P.le P1 ∧ P1.m_ErrorString = P.m_ErrorString ∧
        List.Forall₂ (EventModels P1) evs
          ((queryEvents ms).map (fun n => (EventDirection.EVENT_OUT, n))) ∧
        List.Forall₂ (VarModels P1) vars
          ((queryVars ms).map (fun v => (some EventDirection.EVENT_OUT, v))) := by
  induction ms with
  | nil =>
    intro k P tk query pre rest h hp
    obtain rfl := List.map_eq_nil_iff.mp hp
    exact ⟨P, tk, [], [], by simp, h, parser_le_refl P, rfl, List.Forall₂.nil, List.Forall₂.nil⟩
  | cons m ms ih =>
    intro k P tk query pre rest h hp
    obtain ⟨pm, pr, rfl, hm, hr⟩ := List.map_eq_append_iff.mp hp
    rw [List.append_assoc] at h
    rw [List.length_cons, Nat.add_right_comm, Parser.ParseQueryLoop]
    cases m with
    | var g =>
      obtain ⟨r0, pv, rfl, e0, hm⟩ := map_eq_cons_split hm
      obtain ⟨r1, l1, rfl, e1, -⟩ := map_eq_cons_split (show pv.map TokRec.tok = _ from hm)
      obtain ⟨q1, -, q3⟩ := Peek_pending h
      obtain ⟨-, -, g3, -⟩ := GetSym_pending q3
      obtain ⟨-, -, p3⟩ := Peek_pending g3
      obtain ⟨tk1, hv, hpend, hn⟩ := ParseVariable_ok P FlowVariable.new g p3 hm
      obtain ⟨P1, tk2, evs, vars, hloop, h2, hle, herr, hev, hvar⟩ :=
        ih k (P.push g.name) tk1 { query with Variables := query.Variables ++
          [{ g.stored FlowVariable.new P.m_StringPool.blocks.length with
              HasDirection := some true, Direction := some .EVENT_OUT }] } pr rest hpend hr
      refine ⟨P1, tk2, evs, { g.stored FlowVariable.new P.m_StringPool.blocks.length with
              HasDirection := some true, Direction := some .EVENT_OUT } :: vars,
        ?_, h2, parser_le_trans (P.le_push _) hle, herr, hev, ?_⟩
      · rw [if_pos (by rw [q1]; exact tok_kw e0), Peek_eq g3]
        dsimp only
        rw [if_neg (by rcases typeTok_sym e1 with hh | hh <;> rw [hh] <;> decide), hv]
        dsimp only
        rw [hloop]
        simp
      · exact List.Forall₂.cons
          (stored_models P P1 g ⟨none, none, none, some true, some .EVENT_OUT, none⟩ hn hle
            (some .EVENT_OUT) (by simp)) hvar
    | event n =>
      obtain ⟨r0, pv, rfl, e0, hm⟩ := map_eq_cons_split hm
      obtain ⟨r1, l1, rfl, e1, -⟩ := map_eq_cons_split (show pv.map TokRec.tok = _ from hm)
      obtain ⟨q1, -, q3⟩ := Peek_pending h
      obtain ⟨-, -, g3, -⟩ := GetSym_pending q3
      obtain ⟨-, -, p3⟩ := Peek_pending g3
      obtain ⟨tk1, hv, hpend, hn⟩ := ParseEvent_ok P FlowEvent.new p3 hm
      obtain ⟨P1, tk2, evs, vars, hloop, h2, hle, herr, hev, hvar⟩ :=
        ih k (P.push n) tk1 { query with Events := query.Events ++
          [{ Direction := some .EVENT_OUT, NameIndex := some P.m_StringPool.blocks.length }] }
          pr rest hpend hr
      refine ⟨P1, tk2,
        { Direction := some .EVENT_OUT, NameIndex := some P.m_StringPool.blocks.length } :: evs,
        vars, ?_, h2, parser_le_trans (P.le_push _) hle, herr, ?_, hvar⟩
      · rw [if_pos (by rw [q1]; exact tok_kw e0), Peek_eq g3]
        dsimp only
        rw [if_pos (tok_kw e1), hv]
        dsimp only
        exact hloop.trans (by simp)
      · exact List.Forall₂.cons ⟨rfl, Resolves_mono hle (Resolves_push P hn)⟩ hev

/-- The member loop of a node ends, without taking it, at a token that starts no member. -/
theorem ParseNodeLoop_stop (k : Nat) (P : Parser) (tk : Tokenizer) (node : FlowNode)
    (h : ¬ startsNodeMember tk.Peek.1) :
    Parser.ParseNodeLoop (k + 1) P tk.Peek.2 tk.Peek.1 node = some (true, P, tk.Peek.2, node) := by
  rw [Parser.ParseNodeLoop]
  unfold startsNodeMember at h
  rw [if_neg (fun hh => h (by tauto)), if_neg (fun hh => h (by tauto))]

/-- The member loop of a query ends, without taking it, at a token other than `out`. -/
theorem ParseQueryLoop_stop (k : Nat) (P : Parser) (tk : Tokenizer) (query : FlowQuery)
    (h : tk.Peek.1 ≠ T_KEYWORD_OUT) :
    Parser.ParseQueryLoop (k + 1) P tk.Peek.2 tk.Peek.1 query =
      some (true, P, tk.Peek.2, query) := by
  rw [Parser.ParseQueryLoop, if_neg h]

theorem EventModels_mono {P Q : Parser} (h : P.le Q) {e : FlowEvent}
    {g : EventDirection × List Nat} (hm : EventModels P e g) : EventModels Q e g :=
  ⟨hm.1, Resolves_mono h hm.2⟩

theorem VarModels_mono {P Q : Parser} (h : P.le Q) {v : FlowVariable}
    {g : Option EventDirection × GVar} (hm : VarModels P v g) : VarModels Q v g :=
  ⟨hm.1, Resolves_mono h hm.2.1, hm.2.2⟩

theorem NodeModels_mono {P Q : Parser} (h : P.le Q) {n : FlowNode} {g : GNode}
    (hm : NodeModels P n g) : NodeModels Q n g :=
  ⟨Resolves_mono h hm.1, hm.2.1.imp (fun _ _ => EventModels_mono h),
    hm.2.2.imp (fun _ _ => VarModels_mono h)⟩

theorem QueryModels_mono {P Q : Parser} (h : P.le Q) {q : FlowQuery} {g : GQuery}
    (hm : QueryModels P q g) : QueryModels Q q g :=
  ⟨Resolves_mono h hm.1, hm.2.1.imp (fun _ _ => EventModels_mono h),
    hm.2.2.imp (fun _ _ => VarModels_mono h)⟩

/-- A well-formed node declaration is parsed to a node that agrees with it. -/
theorem ParseNode_ok (P : Parser) (g : GNode) (fuel : Nat) {tk : Tokenizer}
    {pre rest : List TokRec} (h : tk.pending = pre ++ rest) (hp : pre.map TokRec.tok = g.toks)
    (hf : g.members.length < fuel) :
    ∃ (P1 : Parser) (tk1 : Tokenizer) (n : FlowNode),
      P.ParseNode fuel tk FlowNode.new = some (true, P1, tk1, n) ∧ tk1.pending = rest ∧
      P.le P1 ∧ P1.m_ErrorString = P.m_ErrorString ∧ NodeModels P1 n g := by
  unfold GNode.toks at hp
  obtain ⟨pa, prb, rfl, hp0, hrb⟩ := List.map_eq_append_iff.mp hp
  clear hp
  obtain ⟨r1, l1, rfl, e1, hp1⟩ := map_eq_cons_split hp0
  clear hp0
  obtain ⟨r2, l2, rfl, e2, hp2⟩ := map_eq_cons_split hp1
  clear hp1
  obtain ⟨r3, l3, rfl, e3, hp⟩ := map_eq_cons_split hp2
  clear hp2
  obtain ⟨rb, l4, rfl, e4, hnil⟩ := map_eq_cons_split hrb
  obtain rfl := List.map_eq_nil_iff.mp hnil
  simp only [List.cons_append, List.nil_append, List.append_assoc] at h
  obtain ⟨-, -, a3, -⟩ := GetSym_pending h
  obtain ⟨-, b2, b3, -⟩ := GetSym_pending a3
  obtain ⟨-, -, c3, -⟩ := GetSym_pending b3
  have htext : tk.GetSym.2.GetSym.2.Lookup tk.GetSym.2.GetSym.2.SymIndex = some g.name :=
    (congrArg TokRec.text b2).trans (tok_ident e2).2
  have hn : (0 : Nat) ∉ g.name := record_text _ _ ((congrArg TokRec.text b2).trans (tok_ident e2).2)
  obtain ⟨k, rfl⟩ : ∃ k, fuel = g.members.length + (k + 1) := ⟨fuel - g.members.length - 1, by omega⟩
  obtain ⟨P1, tk1, evs, vars, hloop, h2, hle, herr, hev, hvar⟩ :=
    ParseNodeLoop_members g.members (k + 1) (P.push g.name) tk.GetSym.2.GetSym.2.GetSym.2
      { FlowNode.new with NameIndex := some P.m_StringPool.blocks.length } l3 (rb :: rest) c3 hp
  obtain ⟨q1, -, q3⟩ := Peek_pending h2
  obtain ⟨-, -, d3, -⟩ := GetSym_pending q3
  have hstop := ParseNodeLoop_stop k P1 tk1
    { NameIndex := some P.m_StringPool.blocks.length, Events := [] ++ evs, Variables := [] ++ vars }
    (by rw [q1, tok_kw e4]; unfold startsNodeMember; decide)
  refine ⟨P1, tk1.Peek.2.GetSym.2,
    { NameIndex := some P.m_StringPool.blocks.length, Events := [] ++ evs,
      Variables := [] ++ vars }, ?_, d3, parser_le_trans (P.le_push _) hle, herr,
    Resolves_mono hle (Resolves_push P hn), ?_, ?_⟩
  · unfold Parser.ParseNode
    rw [Expect_ok P h (tok_kw e1)]
    dsimp only
    rw [Expect_ok P a3 (tok_ident e2).1]
    dsimp only
    rw [htext, InsertName_some]
    dsimp only
    rw [Expect_ok _ b3 (tok_kw e3)]
    dsimp only
    rw [hloop]
    erw [hstop]
    dsimp only
    rw [Expect_ok _ q3 (tok_kw e4)]
  · simpa using hev
  · simpa using hvar

/-- A well-formed query declaration is parsed to a query that agrees with it. -/
theorem ParseQuery_ok (P : Parser) (g : GQuery) (fuel : Nat) {tk : Tokenizer}
    {pre rest : List TokRec} (h : tk.pending = pre ++ rest) (hp : pre.map TokRec.tok = g.toks)
    (hf : g.members.length < fuel) :
    ∃ (P1 : Parser) (tk1 : Tokenizer) (q : FlowQuery),
      P.ParseQuery fuel tk FlowQuery.new = some (true, P1, tk1, q) ∧ tk1.pending = rest ∧
      P.le P1 ∧ P1.m_ErrorString = P.m_ErrorString ∧ QueryModels P1 q g := by
  unfold GQuery.toks at hp
  obtain ⟨pa, prb, rfl, hp0, hrb⟩ := List.map_eq_append_iff.mp hp
  clear hp
  obtain ⟨r1, l1, rfl, e1, hp1⟩ := map_eq_cons_split hp0
  clear hp0
  obtain ⟨r2, l2, rfl, e2, hp2⟩ := map_eq_cons_split hp1
  clear hp1
  obtain ⟨r3, l3, rfl, e3, hp⟩ := map_eq_cons_split hp2
  clear hp2
  obtain ⟨rb, l4, rfl, e4, hnil⟩ := map_eq_cons_split hrb
  obtain rfl := List.map_eq_nil_iff.mp hnil
  simp only [List.cons_append, List.nil_append, List.append_assoc] at h
  obtain ⟨-, -, a3, -⟩ := GetSym_pending h
  obtain ⟨-, b2, b3, -⟩ := GetSym_pending a3
  obtain ⟨-, -, c3, -⟩ := GetSym_pending b3
  have htext : tk.GetSym.2.GetSym.2.Lookup tk.GetSym.2.GetSym.2.SymIndex = some g.name :=
    (congrArg TokRec.text b2).trans (tok_ident e2).2
  have hn : (0 : Nat) ∉ g.name := record_text _ _ ((congrArg TokRec.text b2).trans (tok_ident e2).2)
  obtain ⟨k, rfl⟩ : ∃ k, fuel = g.members.length + (k + 1) := ⟨fuel - g.members.length - 1, by omega⟩
  obtain ⟨P1, tk1, evs, vars, hloop, h2, hle, herr, hev, hvar⟩ :=
    ParseQueryLoop_members g.members (k + 1) (P.push g.name) tk.GetSym.2.GetSym.2.GetSym.2
      { FlowQuery.new with NameIndex := some P.m_StringPool.blocks.length } l3 (rb :: rest) c3 hp
  obtain ⟨q1, -, q3⟩ := Peek_pending h2
  obtain ⟨-, -, d3, -⟩ := GetSym_pending q3
  have hstop := ParseQueryLoop_stop k P1 tk1
    { NameIndex := some P.m_StringPool.blocks.length, Variables := [] ++ vars, Events := [] ++ evs }
    (by rw [q1, tok_kw e4]; decide)
  refine ⟨P1, tk1.Peek.2.GetSym.2,
    { NameIndex := some P.m_StringPool.blocks.length, Variables := [] ++ vars,
      Events := [] ++ evs }, ?_, d3, parser_le_trans (P.le_push _) hle, herr,
    Resolves_mono hle (Resolves_push P hn), ?_, ?_⟩
  · unfold Parser.ParseQuery
    rw [Expect_ok P h (tok_kw e1)]
    dsimp only
    rw [Expect_ok P a3 (tok_ident e2).1]
    dsimp only
    rw [htext, InsertName_some]
    dsimp only
    rw [Expect_ok _ b3 (tok_kw e3)]
    dsimp only
    rw [hloop]
    erw [hstop]
    dsimp only
    rw [Expect_ok _ q3 (tok_kw e4)]
  · simpa using hev
  · simpa using hvar

/-- The document loop takes well-formed declarations one by one. -/
theorem ParseDocumentLoop_decls (inner : Nat) (ds : List GDecl) :
    ∀ (k : Nat) (P : Parser) (tk : Tokenizer) (doc : FlowDocument) (pre rest : List TokRec),
      tk.pending = pre ++ rest → pre.map TokRec.tok = docToks ds →
      (∀ d ∈ ds, d.size < inner) →
      ∃ (P1 : Parser) (tk1 : Tokenizer) (ns : List FlowNode) (qs : List FlowQuery),
        Parser.ParseDocumentLoop inner (ds.length + k) P tk.Peek.2 tk.Peek.1 doc =
          Parser.ParseDocumentLoop inner k P1 tk1.Peek.2 tk1.Peek.1
            { Nodes := doc.Nodes ++ ns, Queries := doc.Queries ++ qs } ∧
        tk1.pending = rest ∧ P.le P1 ∧ P1.m_ErrorString = P.m_ErrorString ∧
        List.Forall₂ (NodeModels P1) ns (docNodes ds) ∧
        List.Forall₂ (QueryModels P1) qs (docQueries ds) := by
  induction ds with
  | nil =>
    intro k P tk doc pre rest h hp _
    obtain rfl := List.map_eq_nil_iff.mp hp
    exact ⟨P, tk, [], [], by simp, h, parser_le_refl P, rfl, List.Forall₂.nil, List.Forall₂.nil⟩
  | cons d ds ih =>
    intro k P tk doc pre rest h hp hin
    obtain ⟨pm, pr, rfl, hm, hr⟩ := List.map_eq_append_iff.mp hp
    clear hp
    rw [List.append_assoc] at h
    rw [List.length_cons, Nat.add_right_comm, Parser.ParseDocumentLoop]
    have hd := hin d (List.mem_cons_self _ _)
    have hrest : ∀ x ∈ ds, x.size < inner := fun x hx => hin x (List.mem_cons_of_mem _ hx)
    cases d with
    | node g =>
      obtain ⟨r1, l1, hpm, e1, -⟩ := map_eq_cons_split (show pm.map TokRec.tok =
        Tok.kw T_KEYWORD_NODE :: _ from hm)
      obtain ⟨q1, -, q3⟩ := Peek_pending
        (show tk.pending = r1 :: (l1 ++ (pr ++ rest)) from by rw [h, hpm]; rfl)
      rw [← List.cons_append, ← hpm] at q3
      obtain ⟨P0, tk0, n, hnode, hpend, hle0, herr0, hmod⟩ := ParseNode_ok P g inner q3 hm hd
      obtain ⟨P1, tk1, ns, qs, hloop, h2, hle, herr, hns, hqs⟩ :=
        ih k P0 tk0 { doc with Nodes := doc.Nodes ++ [n] } pr rest hpend hr hrest
      refine ⟨P1, tk1, n :: ns, qs, ?_, h2, parser_le_trans hle0 hle, herr.trans herr0,
        List.Forall₂.cons (NodeModels_mono hle hmod) hns, hqs⟩
      rw [if_pos (by rw [q1, tok_kw e1]; decide), if_pos (by rw [q1, tok_kw e1]), hnode]
      dsimp only
      rw [hloop]
      simp
    | query g =>
      obtain ⟨r1, l1, hpm, e1, -⟩ := map_eq_cons_split (show pm.map TokRec.tok =
        Tok.kw T_KEYWORD_QUERY :: _ from hm)
      obtain ⟨q1, -, q3⟩ := Peek_pending
        (show tk.pending = r1 :: (l1 ++ (pr ++ rest)) from by rw [h, hpm]; rfl)
      rw [← List.cons_append, ← hpm] at q3
      obtain ⟨P0, tk0, q, hquery, hpend, hle0, herr0, hmod⟩ := ParseQuery_ok P g inner q3 hm hd
      obtain ⟨P1, tk1, ns, qs, hloop, h2, hle, herr, hns, hqs⟩ :=
        ih k P0 tk0 { doc with Queries := doc.Queries ++ [q] } pr rest hpend hr hrest
      refine ⟨P1, tk1, ns, q :: qs, ?_, h2, parser_le_trans hle0 hle, herr.trans herr0,
        hns, List.Forall₂.cons (QueryModels_mono hle hmod) hqs⟩
      rw [if_pos (by rw [q1, tok_kw e1]; decide), if_neg (by rw [q1, tok_kw e1]; decide),
        if_pos (by rw [q1, tok_kw e1]), hquery]
      dsimp only
      rw [hloop]
      simp

theorem GVar.toks_length (g : GVar) : 0 < g.toks.length := by simp [GVar.toks]

theorem nodeBody_length (ms : List GNodeMember) : ms.length ≤ (nodeBody ms).length := by
  induction ms with
  | nil => simp
  | cons m ms ih =>
    have : 0 < m.toks.length := by cases m <;> simp [GNodeMember.toks, GVar.toks]
    simp only [nodeBody, List.length_cons, List.length_append]
    omega

theorem queryBody_length (ms : List GQueryMember) : ms.length ≤ (queryBody ms).length := by
  induction ms with
  | nil => simp
  | cons m ms ih =>
    have : 0 < m.toks.length := by cases m <;> simp [GQueryMember.toks, GVar.toks]
    simp only [queryBody, List.length_cons, List.length_append]
    omega

theorem GDecl.size_lt (d : GDecl) : d.size + 1 ≤ d.toks.length := by
  cases d with
  | node g =>
    have := nodeBody_length g.members
    simp only [GDecl.size, GDecl.toks, GNode.toks, List.length_append, List.length_cons,
      List.length_nil]
    omega
  | query g =>
    have := queryBody_length g.members
    simp only [GDecl.size, GDecl.toks, GQuery.toks, List.length_append, List.length_cons,
      List.length_nil]
    omega

theorem docToks_length (ds : List GDecl) :
    ds.length ≤ (docToks ds).length ∧ ∀ d ∈ ds, d.size < (docToks ds).length := by
  induction ds with
  | nil => simp
  | cons d ds ih =>
    have := d.size_lt
    simp only [docToks, List.length_cons, List.length_append, List.mem_cons]
    refine ⟨by omega, ?_⟩
    rintro x (rfl | hx)
    · omega
    · have := ih.2 x hx
      omega

theorem tokensOf_length (src : List Nat) : (tokensOf src).length ≤ src.length := by
  unfold tokensOf
  rw [pending_of_not_peeked _ rfl]
  exact scanAll_length _ _

/-- A source whose tokens form a sequence of declarations is parsed with success: the
declarations are appended in source order and no diagnostic is recorded. -/
theorem Parse_decls (P : Parser) (doc : FlowDocument) (src : List Nat) (ds : List GDecl)
    (h : (tokensOf src).map TokRec.tok = docToks ds) :
    ∃ (P1 : Parser) (ns : List FlowNode) (qs : List FlowQuery),
      P.Parse src doc = some (true, P1, { Nodes := doc.Nodes ++ ns, Queries := doc.Queries ++ qs }) ∧
      P1.m_ErrorString = "" ∧
      List.Forall₂ (NodeModels P1) ns (docNodes ds) ∧
      List.Forall₂ (QueryModels P1) qs (docQueries ds) := by
  have hlen : (docToks ds).length ≤ src.length := by
    rw [← h, List.length_map]; exact tokensOf_length src
  obtain ⟨hl1, hl2⟩ := docToks_length ds
  obtain ⟨k, hk⟩ : ∃ k, src.length + 1 = ds.length + (k + 1) := ⟨src.length - ds.length, by omega⟩
  obtain ⟨P1, tk1, ns, qs, hloop, h2, -, herr, hns, hqs⟩ :=
    ParseDocumentLoop_decls (src.length + 1) ds (k + 1) { P with m_ErrorString := "" }
      (Tokenizer.new src) doc (tokensOf src) [] (by simp [tokensOf]) h
      (fun d hd => by have := hl2 d hd; omega)
  refine ⟨P1, ns, qs, ?_, herr, hns, hqs⟩
  unfold Parser.Parse Parser.ParseDocument
  rw [hk] at hloop ⊢
  rw [hloop, Parser.ParseDocumentLoop, if_neg (by rw [(Peek_pending_nil h2).1]; simp)]

theorem skipSpace_blank (c : Nat) (rest : List Nat) (p : PositionInfo)
    (hc : c = 32 ∨ c = 9 ∨ c = 10 ∨ c = 13) (h : ∀ x ∈ rest, x = 32 ∨ x = 9 ∨ x = 10 ∨ x = 13) :
    (skipSpace c rest p).1 = none := by
  induction rest generalizing c p with
  | nil => simp [skipSpace, hc]
  | cons a t ih =>
    rw [skipSpace, if_pos hc]
    exact ih a _ (h a (List.mem_cons_self _ _)) (fun x hx => h x (List.mem_cons_of_mem _ hx))

theorem tokensOf_blank (src : List Nat) (h : ∀ c ∈ src, c = 32 ∨ c = 9 ∨ c = 10 ∨ c = 13) :
    tokensOf src = [] := by
  unfold tokensOf
  rw [pending_of_not_peeked _ rfl, scanAll]
  have : (Tokenizer.new src).scan.1 = T_EOF := by
    unfold Tokenizer.scan
    cases src with
    | nil => rfl
    | cons c rest =>
      have hb := skipSpace_blank c rest ((Tokenizer.new (c :: rest)).m_Position.advance c)
        (h c (List.mem_cons_self _ _)) (fun x hx => h x (List.mem_cons_of_mem _ hx))
      simp only [Tokenizer.new] at hb ⊢
      rw [hb]
  rw [if_pos this]

theorem ParseQueryLoop_out (fuel : Nat) :
    ∀ (P : Parser) (tk : Tokenizer) (pfx : Symbol_t) (q : FlowQuery)
      (r : Bool × Parser × Tokenizer × FlowQuery),
      Parser.ParseQueryLoop fuel P tk pfx q = some r → QueryOut q → QueryOut r.2.2.2 := by
  induction fuel with
  | zero => intro P tk pfx q r h; simp [Parser.ParseQueryLoop] at h
  | succ n ih =>
    intro P tk pfx q r h hq
    rw [Parser.ParseQueryLoop] at h
    by_cases h1 : pfx = T_KEYWORD_OUT
    · rw [if_pos h1] at h
      generalize tk.GetSym.2.Peek = pk at h
      obtain ⟨sym, tk1⟩ := pk
      dsimp only at h
      by_cases h2 : sym = T_KEYWORD_EVENT
      · rw [if_pos h2] at h
        generalize P.ParseEvent tk1 FlowEvent.new = pe at h
        obtain ⟨ok, P2, tk2, ev⟩ := pe
        cases ok
        · cases h; exact hq
        · refine ih _ _ _ _ _ h ⟨hq.1, ?_⟩
          intro e he
          simp only [List.mem_append, List.mem_singleton] at he
          rcases he with he | rfl
          · exact hq.2 e he
          · rfl
      · rw [if_neg h2] at h
        generalize P.ParseVariable tk1 FlowVariable.new = pv at h
        obtain ⟨ok, P2, tk2, v⟩ := pv
        cases ok
        · cases h; exact hq
        · refine ih _ _ _ _ _ h ⟨?_, hq.2⟩
          intro w hw
          simp only [List.mem_append, List.mem_singleton] at hw
          rcases hw with hw | rfl
          · exact hq.1 w hw
          · exact ⟨rfl, rfl⟩
    · rw [if_neg h1] at h
      cases h; exact hq

theorem ParseQuery_out (fuel : Nat) (P : Parser) (tk : Tokenizer) (q : FlowQuery)
    (r : Bool × Parser × Tokenizer × FlowQuery)
    (h : P.ParseQuery fuel tk q = some r) (hq : QueryOut q) : QueryOut r.2.2.2 := by
  unfold Parser.ParseQuery at h
  generalize P.Expect T_KEYWORD_QUERY tk = e1 at h
  obtain ⟨ok1, P1, tk1⟩ := e1
  cases ok1
  · cases h; exact hq
  dsimp only at h
  generalize P1.Expect T_IDENT tk1 = e2 at h
  obtain ⟨ok2, P2, tk2⟩ := e2
  cases ok2
  · cases h; exact hq
  dsimp only at h
  generalize P2.InsertName (tk2.Lookup tk2.SymIndex) = e3 at h
  cases e3 with
  | none => cases h; exact hq
  | some x =>
    obtain ⟨P3, i⟩ := x
    dsimp only at h
    generalize P3.Expect T_LEFT_CURLY_BRACKET tk2 = e4 at h
    obtain ⟨ok4, P4, tk4⟩ := e4
    cases ok4
    · cases h; exact hq
    dsimp only at h
    generalize hl : Parser.ParseQueryLoop fuel P4 tk4.Peek.2 tk4.Peek.1
      { q with NameIndex := some i } = e5 at h
    have hq1 : QueryOut { q with NameIndex := some i } := hq
    cases e5 with
    | none => cases h
    | some y =>
      have := ParseQueryLoop_out _ _ _ _ _ _ hl hq1
      obtain ⟨ok5, P5, tk5, q5⟩ := y
      cases ok5
      · cases h; exact this
      · dsimp only at h
        cases h; exact this

theorem ParseDocumentLoop_out (inner fuel : Nat) :
    ∀ (P : Parser) (tk : Tokenizer) (sym : Symbol_t) (doc : FlowDocument)
      (r : Bool × Parser × Tokenizer × FlowDocument),
      Parser.ParseDocumentLoop inner fuel P tk sym doc = some r →
      ∃ qs, r.2.2.2.Queries = doc.Queries ++ qs ∧ ∀ q ∈ qs, QueryOut q := by
  induction fuel with
  | zero => intro P tk sym doc r h; simp [Parser.ParseDocumentLoop] at h
  | succ n ih =>
    intro P tk sym doc r h
    rw [Parser.ParseDocumentLoop] at h
    by_cases h1 : sym = T_EOF
    · rw [if_neg (not_not.mpr h1)] at h
      cases h; exact ⟨[], by simp, by simp⟩
    rw [if_pos h1] at h
    by_cases h2 : sym = T_KEYWORD_NODE
    · rw [if_pos h2] at h
      generalize P.ParseNode inner tk FlowNode.new = e at h
      cases e with
      | none => cases h
      | some y =>
        obtain ⟨ok, P1, tk1, nd⟩ := y
        cases ok
        · cases h; exact ⟨[], by simp, by simp⟩
        · obtain ⟨qs, e1, e2⟩ := ih _ _ _ _ _ h
          exact ⟨qs, e1, e2⟩
    rw [if_neg h2] at h
    by_cases h3 : sym = T_KEYWORD_QUERY
    · rw [if_pos h3] at h
      generalize hq : P.ParseQuery inner tk FlowQuery.new = e at h
      cases e with
      | none => cases h
      | some y =>
        have hout := ParseQuery_out _ _ _ _ _ hq
          ⟨by simp [FlowQuery.new], by simp [FlowQuery.new]⟩
        obtain ⟨ok, P1, tk1, qr⟩ := y
        cases ok
        · cases h; exact ⟨[], by simp, by simp⟩
        · obtain ⟨qs, e1, e2⟩ := ih _ _ _ _ _ h
          refine ⟨qr :: qs, by rw [e1]; simp, ?_⟩
          intro q hq
          simp only [List.mem_cons] at hq
          rcases hq with rfl | hq
          · exact hout
          · exact e2 q hq
    · rw [if_neg h3] at h
      cases h; exact ⟨[], by simp, by simp⟩

/-! ## The parser on malformed members -/

set_option maxRecDepth 100000

/-- Every text the stream model writes after "UNEXPECTED " starts with that word. -/
theorem Unexpected_msg (P : Parser) (s : Symbol_t) (pos : PositionInfo) :
    ∃ rest, (P.Unexpected s pos).m_ErrorString = "UNEXPECTED" ++ rest := by
  unfold Parser.Unexpected OStream.putPos
  cases hs : GetTokenString s with
  | none => exact ⟨" ", by simp [OStream.putStr, OStream.putNat]⟩
  | some n =>
    refine ⟨" " ++ n ++ " at " ++ "(Ln: " ++ toString pos.Row ++ ", Col: " ++ toString pos.Col ++ ")", ?_⟩
    simp [OStream.putStr, OStream.putNat, String.append_assoc]
    rfl

theorem ParseVariable_bool_bad (P : Parser) (a : FlowVariable) {tk : Tokenizer}
    {r1 r2 r3 : TokRec} {tl : List TokRec} {x : List Nat}
    (h : tk.pending = r1 :: r2 :: r3 :: tl)
    (e1 : r1.tok = .kw T_TYPE_BOOL) (e2 : r2.tok = .ident x) (e3 : r3.tok = .kw T_ASSIGN)
    (ht : ∀ t ∈ tl.head?, t.sym ≠ T_KEYWORD_TRUE ∧ t.sym ≠ T_KEYWORD_FALSE) :
    (P.ParseVariable tk a).1 = false ∧
      ∃ rest, (P.ParseVariable tk a).2.1.m_ErrorString = "UNEXPECTED" ++ rest := by
  obtain ⟨-, -, a3, -⟩ := GetSym_pending h
  obtain ⟨-, b2, b3, -⟩ := GetSym_pending a3
  obtain ⟨-, -, p3⟩ := Peek_pending b3
  obtain ⟨-, -, c3, -⟩ := GetSym_pending p3
  have htext : tk.GetSym.2.GetSym.2.Lookup tk.GetSym.2.GetSym.2.SymIndex = some x :=
    (congrArg TokRec.text b2).trans (tok_ident e2).2
  have hsym : tk.GetSym.2.GetSym.2.Peek.2.GetSym.2.GetSym.1 ≠ T_KEYWORD_TRUE ∧
      tk.GetSym.2.GetSym.2.Peek.2.GetSym.2.GetSym.1 ≠ T_KEYWORD_FALSE := by
    cases tl with
    | nil => rw [GetSym_pending_nil c3]; exact ⟨by decide, by decide⟩
    | cons t ts => rw [(GetSym_pending c3).1]; exact ht t rfl
  have hv : P.ParseVariable tk a = (false,
      (P.push x).Unexpected tk.GetSym.2.GetSym.2.Peek.2.GetSym.2.GetSym.1
        tk.GetSym.2.GetSym.2.Peek.2.GetSym.2.GetSym.2.Position,
      tk.GetSym.2.GetSym.2.Peek.2.GetSym.2.GetSym.2,
      { a with Type_ := some .TYPE_BOOL, NameIndex := some P.m_StringPool.blocks.length,
               HasDefaultValue := some true }) := by
    unfold Parser.ParseVariable
    rw [GetSym_eq h]
    dsimp only
    rw [if_neg (by rw [tok_kw e1]; decide), if_pos (tok_kw e1), Expect_ok P a3 (tok_ident e2).1]
    dsimp only
    rw [htext, InsertName_some]
    dsimp only
    rw [Peek_eq b3]
    dsimp only
    rw [if_pos (tok_kw e3)]
    rw [show tk.GetSym.2.GetSym.2.Peek.2.GetSym.2.GetSym =
      (tk.GetSym.2.GetSym.2.Peek.2.GetSym.2.GetSym.1,
        tk.GetSym.2.GetSym.2.Peek.2.GetSym.2.GetSym.2) from rfl]
    dsimp only
    rw [if_neg hsym.1, if_neg hsym.2]
  rw [hv]
  exact ⟨rfl, Unexpected_msg _ _ _⟩

theorem ParseVariable_false_eq (P : Parser) (tk : Tokenizer) (a : FlowVariable)
    (h : (P.ParseVariable tk a).1 = false) :
    P.ParseVariable tk a = (false, (P.ParseVariable tk a).2.1, (P.ParseVariable tk a).2.2.1,
      (P.ParseVariable tk a).2.2.2) :=
  Prod.ext h rfl

/-- The state the document loop reaches after a run of well-formed declarations. -/
theorem Parse_after_decls (P : Parser) (doc : FlowDocument) (src : List Nat) (ds : List GDecl)
    (pd rest : List TokRec) (h : tokensOf src = pd ++ rest)
    (hp : pd.map TokRec.tok = docToks ds) :
    ∃ (P1 : Parser) (tk1 : Tokenizer) (doc1 : FlowDocument) (k : Nat),
      tk1.pending = rest ∧
      P.Parse src doc =
        (match Parser.ParseDocumentLoop (src.length + 1) (k + 1) P1 tk1.Peek.2 tk1.Peek.1 doc1 with
          | none => none
          | some (ok, P, _, doc) => some (ok, P, doc)) := by
  have hlen : pd.length + rest.length ≤ src.length := by
    rw [← List.length_append, ← h]; exact tokensOf_length src
  have hpl : (docToks ds).length = pd.length := by rw [← hp, List.length_map]
  obtain ⟨hl1, hl2⟩ := docToks_length ds
  obtain ⟨k, hk⟩ : ∃ k, src.length + 1 = ds.length + (k + 1) := ⟨src.length - ds.length, by omega⟩
  obtain ⟨P1, tk1, ns, qs, hloop, h2, -, -, -, -⟩ :=
    ParseDocumentLoop_decls (src.length + 1) ds (k + 1) { P with m_ErrorString := "" }
      (Tokenizer.new src) doc pd rest h hp (fun d hd => by have := hl2 d hd; omega)
  refine ⟨P1, tk1, { Nodes := doc.Nodes ++ ns, Queries := doc.Queries ++ qs }, k, h2, ?_⟩
  unfold Parser.Parse Parser.ParseDocument
  rw [← hloop, ← hk]

theorem ParseNode_bool_bad (P : Parser) (name : List Nat) (ms : List GNodeMember)
    (dir : Option EventDirection) (x : List Nat) (fuel : Nat) {tk : Tokenizer}
    {ps tl : List TokRec} (h : tk.pending = ps ++ tl)
    (hp : ps.map TokRec.tok = (VarSite.node name ms dir).toks ++
      [.kw T_TYPE_BOOL, .ident x, .kw T_ASSIGN])
    (hf : ms.length < fuel)
    (ht : ∀ t ∈ tl.head?, t.sym ≠ T_KEYWORD_TRUE ∧ t.sym ≠ T_KEYWORD_FALSE) :
    ∃ r, P.ParseNode fuel tk FlowNode.new = some r ∧ r.1 = false ∧
      ∃ rest, r.2.1.m_ErrorString = "UNEXPECTED" ++ rest := by
  unfold VarSite.toks at hp
  obtain ⟨pa, pv, rfl, hp0, hv⟩ := List.map_eq_append_iff.mp hp
  clear hp
  obtain ⟨pb, pdir, rfl, hp1, hdir⟩ := List.map_eq_append_iff.mp hp0
  clear hp0
  obtain ⟨r1, l1, rfl, e1, hp2⟩ := map_eq_cons_split hp1
  clear hp1
  obtain ⟨r2, l2, rfl, e2, hp3⟩ := map_eq_cons_split hp2
  clear hp2
  obtain ⟨r3, l3, rfl, e3, hp4⟩ := map_eq_cons_split hp3
  clear hp3
  obtain ⟨v1, m1, rfl, f1, hv1⟩ := map_eq_cons_split hv
  clear hv
  obtain ⟨v2, m2, rfl, f2, hv2⟩ := map_eq_cons_split hv1
  clear hv1
  obtain ⟨v3, m3, rfl, f3, hv3⟩ := map_eq_cons_split hv2
  clear hv2
  obtain rfl := List.map_eq_nil_iff.mp hv3
  simp only [List.cons_append, List.nil_append, List.append_assoc] at h
  obtain ⟨-, -, a3, -⟩ := GetSym_pending h
  obtain ⟨-, b2, b3, -⟩ := GetSym_pending a3
  obtain ⟨-, -, c3, -⟩ := GetSym_pending b3
  have htext : tk.GetSym.2.GetSym.2.Lookup tk.GetSym.2.GetSym.2.SymIndex = some name :=
    (congrArg TokRec.text b2).trans (tok_ident e2).2
  obtain ⟨k, rfl⟩ : ∃ k, fuel = ms.length + (k + 1) := ⟨fuel - ms.length - 1, by omega⟩
  obtain ⟨P1, tk1, evs, vars, hloop, h2, -, -, -, -⟩ :=
    ParseNodeLoop_members ms (k + 1) (P.push name) tk.GetSym.2.GetSym.2.GetSym.2
      { FlowNode.new with NameIndex := some P.m_StringPool.blocks.length } l3
      (pdir ++ (v1 :: v2 :: v3 :: tl)) c3 hp4
  have start : P.ParseNode (ms.length + (k + 1)) tk FlowNode.new =
      (match Parser.ParseNodeLoop (k + 1) P1 tk1.Peek.2 tk1.Peek.1
          { NameIndex := some P.m_StringPool.blocks.length, Events := [] ++ evs,
            Variables := [] ++ vars } with
        | none => none
        | some (false, P, tk, node) => some (false, P, tk, node)
        | some (true, P, tk, node) =>
          match P.Expect T_RIGHT_CURLY_BRACKET tk with
          | (ok, P, tk) => some (ok, P, tk, node)) := by
    unfold Parser.ParseNode
    rw [Expect_ok P h (tok_kw e1)]
    dsimp only
    rw [Expect_ok P a3 (tok_ident e2).1]
    dsimp only
    rw [htext, InsertName_some]
    dsimp only
    rw [Expect_ok _ b3 (tok_kw e3)]
    dsimp only
    rw [hloop]
    rfl
  rw [start, Parser.ParseNodeLoop]
  cases dir with
  | none =>
    obtain rfl := List.map_eq_nil_iff.mp hdir
    simp only [List.nil_append] at h2
    obtain ⟨q1, -, q3⟩ := Peek_pending h2
    obtain ⟨hb1, hb2⟩ := ParseVariable_bool_bad P1 FlowVariable.new q3 f1 f2 f3 ht
    rw [if_pos (by rw [q1, tok_kw f1]; exact Or.inr rfl), ParseVariable_false_eq _ _ _ hb1]
    exact ⟨_, rfl, rfl, hb2⟩
  | some d =>
    obtain ⟨d1, n1, rfl, g1, hd1⟩ := map_eq_cons_split hdir
    obtain rfl := List.map_eq_nil_iff.mp hd1
    simp only [List.cons_append, List.nil_append] at h2
    obtain ⟨q1, -, q3⟩ := Peek_pending h2
    obtain ⟨-, -, g3, -⟩ := GetSym_pending q3
    obtain ⟨-, -, p3⟩ := Peek_pending g3
    obtain ⟨hds, -⟩ := dirTok_sym g1
    obtain ⟨hb1, hb2⟩ := ParseVariable_bool_bad P1 FlowVariable.new p3 f1 f2 f3 ht
    rw [if_neg (by rw [q1]; rcases hds with hh | hh <;> rw [hh] <;> decide),
      if_pos (by rw [q1]; exact hds), Peek_eq g3]
    dsimp only
    rw [if_pos (by rw [tok_kw f1]; exact Or.inl rfl), ParseVariable_false_eq _ _ _ hb1]
    exact ⟨_, rfl, rfl, hb2⟩

theorem ParseQuery_bool_bad (P : Parser) (name : List Nat) (ms : List GQueryMember)
    (x : List Nat) (fuel : Nat) {tk : Tokenizer}
    {ps tl : List TokRec} (h : tk.pending = ps ++ tl)
    (hp : ps.map TokRec.tok = (VarSite.query name ms).toks ++
      [.kw T_TYPE_BOOL, .ident x, .kw T_ASSIGN])
    (hf : ms.length < fuel)
    (ht : ∀ t ∈ tl.head?, t.sym ≠ T_KEYWORD_TRUE ∧ t.sym ≠ T_KEYWORD_FALSE) :
    ∃ r, P.ParseQuery fuel tk FlowQuery.new = some r ∧ r.1 = false ∧
      ∃ rest, r.2.1.m_ErrorString = "UNEXPECTED" ++ rest := by
  unfold VarSite.toks at hp
  obtain ⟨pa, pv, rfl, hp0, hv⟩ := List.map_eq_append_iff.mp hp
  clear hp
  obtain ⟨pb, pdir, rfl, hp1, hdir⟩ := List.map_eq_append_iff.mp hp0
  clear hp0
  obtain ⟨r1, l1, rfl, e1, hp2⟩ := map_eq_cons_split hp1
  clear hp1
  obtain ⟨r2, l2, rfl, e2, hp3⟩ := map_eq_cons_split hp2
  clear hp2
  obtain ⟨r3, l3, rfl, e3, hp4⟩ := map_eq_cons_split hp3
  clear hp3
  obtain ⟨v1, m1, rfl, f1, hv1⟩ := map_eq_cons_split hv
  clear hv
  obtain ⟨v2, m2, rfl, f2, hv2⟩ := map_eq_cons_split hv1
  clear hv1
  obtain ⟨v3, m3, rfl, f3, hv3⟩ := map_eq_cons_split hv2
  clear hv2
  obtain rfl := List.map_eq_nil_iff.mp hv3
  obtain ⟨d1, n1, rfl, g1, hd1⟩ := map_eq_cons_split hdir
  obtain rfl := List.map_eq_nil_iff.mp hd1
  simp only [List.cons_append, List.nil_append, List.append_assoc] at h
  obtain ⟨-, -, a3, -⟩ := GetSym_pending h
  obtain ⟨-, b2, b3, -⟩ := GetSym_pending a3
  obtain ⟨-, -, c3, -⟩ := GetSym_pending b3
  have htext : tk.GetSym.2.GetSym.2.Lookup tk.GetSym.2.GetSym.2.SymIndex = some name :=
    (congrArg TokRec.text b2).trans (tok_ident e2).2
  obtain ⟨k, rfl⟩ : ∃ k, fuel = ms.length + (k + 1) := ⟨fuel - ms.length - 1, by omega⟩
  obtain ⟨P1, tk1, evs, vars, hloop, h2, -, -, -, -⟩ :=
    ParseQueryLoop_members ms (k + 1) (P.push name) tk.GetSym.2.GetSym.2.GetSym.2
      { FlowQuery.new with NameIndex := some P.m_StringPool.blocks.length } l3
      (d1 :: v1 :: v2 :: v3 :: tl) c3 hp4
  have start : P.ParseQuery (ms.length + (k + 1)) tk FlowQuery.new =
      (match Parser.ParseQueryLoop (k + 1) P1 tk1.Peek.2 tk1.Peek.1
          { NameIndex := some P.m_StringPool.blocks.length, Variables := [] ++ vars,
            Events := [] ++ evs } with
        | none => none
        | some (false, P, tk, query) => some (false, P, tk, query)
        | some (true, P, tk, query) =>
          match P.Expect T_RIGHT_CURLY_BRACKET tk with
          | (ok, P, tk) => some (ok, P, tk, query)) := by
    unfold Parser.ParseQuery
    rw [Expect_ok P h (tok_kw e1)]
    dsimp only
    rw [Expect_ok P a3 (tok_ident e2).1]
    dsimp only
    rw [htext, InsertName_some]
    dsimp only
    rw [Expect_ok _ b3 (tok_kw e3)]
    dsimp only
    rw [hloop]
    rfl
  rw [start, Parser.ParseQueryLoop]
  obtain ⟨q1, -, q3⟩ := Peek_pending h2
  obtain ⟨-, -, g3, -⟩ := GetSym_pending q3
  obtain ⟨-, -, p3⟩ := Peek_pending g3
  obtain ⟨hb1, hb2⟩ := ParseVariable_bool_bad P1 FlowVariable.new p3 f1 f2 f3 ht
  rw [if_pos (by rw [q1]; exact tok_kw g1), Peek_eq g3]
  dsimp only
  rw [if_neg (by rw [tok_kw f1]; decide), ParseVariable_false_eq _ _ _ hb1]
  exact ⟨_, rfl, rfl, hb2⟩

/-- A query body that goes on with a token other than `out` or the closing bracket
fails at the closing bracket, with the diagnostic of `Expect`. -/
theorem ParseQuery_stop_bad (P : Parser) (name : List Nat) (ms : List GQueryMember)
    (fuel : Nat) {tk : Tokenizer} {ps post : List TokRec} {t : TokRec}
    (h : tk.pending = ps ++ t :: post)
    (hp : ps.map TokRec.tok =
      [.kw T_KEYWORD_QUERY, .ident name, .kw T_LEFT_CURLY_BRACKET] ++ queryBody ms)
    (hf : ms.length < fuel) (ht1 : t.sym ≠ T_KEYWORD_OUT) (ht2 : t.sym ≠ T_RIGHT_CURLY_BRACKET) :
    ∃ r, P.ParseQuery fuel tk FlowQuery.new = some r ∧ r.1 = false ∧
      r.2.1.m_ErrorString = expectedMsg T_RIGHT_CURLY_BRACKET t := by
  obtain ⟨r1, l1, rfl, e1, hp2⟩ := map_eq_cons_split hp
  clear hp
  obtain ⟨r2, l2, rfl, e2, hp3⟩ := map_eq_cons_split hp2
  clear hp2
  obtain ⟨r3, l3, rfl, e3, hp4⟩ := map_eq_cons_split hp3
  clear hp3
  simp only [List.cons_append, List.nil_append, List.append_assoc] at h
  obtain ⟨-, -, a3, -⟩ := GetSym_pending h
  obtain ⟨-, b2, b3, -⟩ := GetSym_pending a3
  obtain ⟨-, -, c3, -⟩ := GetSym_pending b3
  have htext : tk.GetSym.2.GetSym.2.Lookup tk.GetSym.2.GetSym.2.SymIndex = some name :=
    (congrArg TokRec.text b2).trans (tok_ident e2).2
  obtain ⟨k, rfl⟩ : ∃ k, fuel = ms.length + (k + 1) := ⟨fuel - ms.length - 1, by omega⟩
  obtain ⟨P1, tk1, evs, vars, hloop, h2, -, -, -, -⟩ :=
    ParseQueryLoop_members ms (k + 1) (P.push name) tk.GetSym.2.GetSym.2.GetSym.2
      { FlowQuery.new with NameIndex := some P.m_StringPool.blocks.length } l3
      (t :: post) c3 hp4
  obtain ⟨q1, -, q3⟩ := Peek_pending h2
  have hstop := ParseQueryLoop_stop k P1 tk1
    { NameIndex := some P.m_StringPool.blocks.length, Variables := [] ++ vars, Events := [] ++ evs }
    (by rw [q1]; exact ht1)
  refine ⟨(false, ⟨P1.m_StringPool, expectedMsg T_RIGHT_CURLY_BRACKET t⟩,
    tk1.Peek.2.GetSym.2, ⟨some P.m_StringPool.blocks.length, [] ++ vars, [] ++ evs⟩),
    ?_, rfl, rfl⟩
  unfold Parser.ParseQuery
  rw [Expect_ok P h (tok_kw e1)]
  dsimp only
  rw [Expect_ok P a3 (tok_ident e2).1]
  dsimp only
  rw [htext, InsertName_some]
  dsimp only
  rw [Expect_ok _ b3 (tok_kw e3)]
  dsimp only
  rw [hloop]
  erw [hstop]
  dsimp only
  rw [Expect_bad _ q3 ht2]

theorem ParseDocumentLoop_node_fail (inner k : Nat) (P : Parser) (tk : Tokenizer)
    (doc : FlowDocument) (r : Bool × Parser × Tokenizer × FlowNode)
    (hs : tk.Peek.1 = T_KEYWORD_NODE)
    (hr : P.ParseNode inner tk.Peek.2 FlowNode.new = some r) (hf : r.1 = false) :
    Parser.ParseDocumentLoop inner (k + 1) P tk.Peek.2 tk.Peek.1 doc =
      some (false, r.2.1, r.2.2.1, doc) := by
  obtain ⟨ok, P1, tk1, n⟩ := r
  obtain rfl : ok = false := hf
  rw [Parser.ParseDocumentLoop, if_pos (by rw [hs]; decide), if_pos hs, hr]

theorem ParseDocumentLoop_query_fail (inner k : Nat) (P : Parser) (tk : Tokenizer)
    (doc : FlowDocument) (r : Bool × Parser × Tokenizer × FlowQuery)
    (hs : tk.Peek.1 = T_KEYWORD_QUERY)
    (hr : P.ParseQuery inner tk.Peek.2 FlowQuery.new = some r) (hf : r.1 = false) :
    Parser.ParseDocumentLoop inner (k + 1) P tk.Peek.2 tk.Peek.1 doc =
      some (false, r.2.1, r.2.2.1, doc) := by
  obtain ⟨ok, P1, tk1, n⟩ := r
  obtain rfl : ok = false := hf
  rw [Parser.ParseDocumentLoop, if_pos (by rw [hs]; decide), if_neg (by rw [hs]; decide),
    if_pos hs, hr]

theorem expectedMsg_in (t : TokRec) (h : t.sym = T_KEYWORD_IN) :
    expectedMsg T_RIGHT_CURLY_BRACKET t =
      "EXPECTED T_RIGHT_CURLY_BRACKET at (Ln: " ++ toString t.pos.Row ++ ", Col: " ++
        toString t.pos.Col ++ "), actual T_KEYWORD_IN" := by
  simp [expectedMsg, OStream.putPos, OStream.putStr, OStream.putNat, GetTokenString, h,
    String.append_assoc]

theorem not_beginsWith_of_head {s p : String} {a b : Char} {as bs : List Char}
    (hs : s.data = a :: as) (hp : p.data = b :: bs) (hab : a ≠ b) : ¬ BeginsWith s p := by
  rintro ⟨rest, h⟩
  have := congrArg String.data h
  rw [String.data_append, hs, hp] at this
  simp only [List.cons_append, List.cons.injEq] at this
  exact hab this.1

/-! ## The symbol table -/

theorem strcmp_self (s : List Nat) : strcmp s s = 0 := by
  induction s with
  | nil => rfl
  | cons a t ih => simp [strcmp, ih]

theorem strcmp_eq_zero {a b : List Nat} (h : strcmp a b = 0) : a = b := by
  induction a generalizing b with
  | nil =>
    cases b with
    | nil => rfl
    | cons y ys => simp [strcmp] at h
  | cons x xs ih =>
    cases b with
    | nil => simp [strcmp] at h
    | cons y ys =>
      rw [strcmp] at h
      by_cases h1 : x < y
      · rw [if_pos h1] at h
        exact absurd h (by decide)
      · rw [if_neg h1] at h
        by_cases h2 : y < x
        · rw [if_pos h2] at h
          exact absurd h (by decide)
        · rw [if_neg h2] at h
          have : x = y := by omega
          rw [this, ih h]

theorem allocNode_eq (s : List Nat) (pool : Pool) (hs : (0 : Nat) ∉ s) :
    SymbolTable.allocNode s pool =
      (some pool.blocks.length, .node (some s) pool.blocks.length .null .null,
        ⟨pool.blocks ++ [s ++ [0]]⟩) := by
  simp [SymbolTable.allocNode, Pool.Insert, Pool.GetPointer, cstr_append_nul hs]

theorem Finds_Insert {s : List Nat} {h : Nat} {t : SymbolTable.Node}
    (hf : t.Finds s h) (m : Bool) (pool : Pool) :
    SymbolTable.Node.Insert s m pool t = (some h, t, pool) := by
  induction t with
  | null => exact hf.elim
  | node p off l r ihl ihr =>
    cases p with
    | none => exact hf.elim
    | some x =>
      rw [SymbolTable.Node.Finds] at hf
      rw [SymbolTable.Node.Insert]
      dsimp only
      split_ifs at hf ⊢ with h1 h2
      · rw [hf]
      · rw [ihl hf]
      · rw [ihr hf]

theorem Insert_Finds {s : List Nat} (hs : (0 : Nat) ∉ s) (m : Bool) (pool : Pool)
    (t : SymbolTable.Node) {h : Nat} (hr : (SymbolTable.Node.Insert s m pool t).1 = some h) :
    (SymbolTable.Node.Insert s m pool t).2.1.Finds s h := by
  induction t with
  | null =>
    rw [SymbolTable.Node.Insert] at hr ⊢
    cases m with
    | false => simp at hr
    | true =>
      simp only [if_true, allocNode_eq s pool hs, Option.some.injEq] at hr ⊢
      simp [SymbolTable.Node.Finds, strcmp_self, hr]
  | node p off l r ihl ihr =>
    cases p with
    | none => simp [SymbolTable.Node.Insert] at hr
    | some x =>
      rw [SymbolTable.Node.Insert] at hr ⊢
      dsimp only at hr ⊢
      split_ifs at hr ⊢ with h1 h2
      · simp only [Option.some.injEq] at hr
        simp [SymbolTable.Node.Finds, h1, hr]
      · simp only [SymbolTable.Node.Finds, h1, h2, if_false, if_true]
        exact ihl hr
      · simp only [SymbolTable.Node.Finds, h1, h2, if_false]
        exact ihr hr

theorem Finds_preserved {s : List Nat} {h : Nat} {t : SymbolTable.Node} (hf : t.Finds s h)
    (o : List Nat) (m : Bool) (pool : Pool) :
    (SymbolTable.Node.Insert o m pool t).2.1.Finds s h := by
  induction t with
  | null => exact hf.elim
  | node p off l r ihl ihr =>
    cases p with
    | none => exact hf.elim
    | some x =>
      rw [SymbolTable.Node.Finds] at hf
      rw [SymbolTable.Node.Insert]
      dsimp only
      split_ifs at hf ⊢ with h1 h2 h3 h4 h5 h6 h7 h8
      all_goals simp only [SymbolTable.Node.Finds, *, if_true, if_false]

theorem InsertAll_Finds {s : List Nat} {h : Nat} (ops : List (Option (List Nat) × Bool)) :
    ∀ t : SymbolTable, t.m_pRoot.Finds s h → (t.InsertAll ops).m_pRoot.Finds s h := by
  induction ops with
  | nil => intro t ht; exact ht
  | cons o ops ih =>
    intro t ht
    rw [SymbolTable.InsertAll]
    apply ih
    obtain ⟨p, m⟩ := o
    cases p with
    | none => exact ht
    | some x => exact Finds_preserved ht x m _

theorem pool_le_refl (p : Pool) : p.le p := ⟨[], by simp⟩

theorem pool_le_trans {p q r : Pool} (h1 : p.le q) (h2 : q.le r) : p.le r := by
  obtain ⟨a, ha⟩ := h1
  obtain ⟨b, hb⟩ := h2
  exact ⟨a ++ b, by rw [hb, ha, List.append_assoc]⟩

theorem GetPointer_mono {p q : Pool} (h : p.le q) {i : Nat} {x : List Nat}
    (hx : (p.GetPointer i).map cstr = some x) : (q.GetPointer i).map cstr = some x := by
  obtain ⟨ext, he⟩ := h
  unfold Pool.GetPointer at hx ⊢
  rw [he]
  cases hb : p.blocks.get? i with
  | none => rw [hb] at hx; cases hx
  | some b =>
    have hlt : i < p.blocks.length := by
      rw [List.get?_eq_some] at hb; exact hb.1
    rw [List.get?_eq_getElem?, List.getElem?_append_left hlt, ← List.get?_eq_getElem?]
    exact hx

theorem Insert_pool_le (s : List Nat) (m : Bool) (pool : Pool) (t : SymbolTable.Node) :
    pool.le (SymbolTable.Node.Insert s m pool t).2.2 := by
  induction t with
  | null =>
    rw [SymbolTable.Node.Insert]
    cases m with
    | false => exact pool_le_refl pool
    | true => exact ⟨[s ++ [0]], rfl⟩
  | node p off l r ihl ihr =>
    cases p with
    | none => exact pool_le_refl pool
    | some x =>
      rw [SymbolTable.Node.Insert]
      dsimp only
      split_ifs
      · exact pool_le_refl pool
      · exact ihl
      · exact ihr

theorem Consistent_mono {p q : Pool} (h : p.le q) {t : SymbolTable.Node}
    (ht : t.Consistent p) : t.Consistent q := by
  induction t with
  | null => trivial
  | node x off l r ihl ihr =>
    obtain ⟨⟨y, hy, hg⟩, hl, hr⟩ := ht
    exact ⟨⟨y, hy, GetPointer_mono h hg⟩, ihl hl, ihr hr⟩

theorem allocNode_Consistent (s : List Nat) (pool : Pool) :
    (SymbolTable.allocNode s pool).2.1.Consistent (SymbolTable.allocNode s pool).2.2 := by
  refine ⟨⟨cstr (s ++ [0]), ?_, ?_⟩, trivial, trivial⟩ <;>
    simp [SymbolTable.allocNode, Pool.Insert, Pool.GetPointer]

theorem Insert_Consistent (s : List Nat) (m : Bool) (pool : Pool) (t : SymbolTable.Node)
    (ht : t.Consistent pool) :
    (SymbolTable.Node.Insert s m pool t).2.1.Consistent (SymbolTable.Node.Insert s m pool t).2.2 := by
  induction t with
  | null =>
    rw [SymbolTable.Node.Insert]
    cases m with
    | false => trivial
    | true => exact allocNode_Consistent s pool
  | node p off l r ihl ihr =>
    obtain ⟨⟨y, hy, hg⟩, hl, hr⟩ := ht
    subst hy
    rw [SymbolTable.Node.Insert]
    dsimp only
    split_ifs
    · exact ⟨⟨y, rfl, hg⟩, hl, hr⟩
    · have hle := Insert_pool_le s m pool l
      exact ⟨⟨y, rfl, GetPointer_mono hle hg⟩, ihl hl, Consistent_mono hle hr⟩
    · have hle := Insert_pool_le s m pool r
      exact ⟨⟨y, rfl, GetPointer_mono hle hg⟩, Consistent_mono hle hl, ihr hr⟩

theorem Insert_resolves {s : List Nat} (hs : (0 : Nat) ∉ s) (pool : Pool)
    (t : SymbolTable.Node) (ht : t.Consistent pool) :
    ∃ h, (SymbolTable.Node.Insert s true pool t).1 = some h ∧
      ((SymbolTable.Node.Insert s true pool t).2.2.GetPointer h).map cstr = some s := by
  induction t with
  | null =>
    rw [SymbolTable.Node.Insert, if_pos rfl, allocNode_eq s pool hs]
    exact ⟨_, rfl, by simp [Pool.GetPointer, cstr_append_nul hs]⟩
  | node p off l r ihl ihr =>
    obtain ⟨⟨y, hy, hg⟩, hl, hr⟩ := ht
    subst hy
    rw [SymbolTable.Node.Insert]
    dsimp only
    split_ifs with h1 h2
    · exact ⟨off, rfl, by rw [strcmp_eq_zero h1]; exact hg⟩
    · exact ihl hl
    · exact ihr hr

theorem table_Insert_Consistent (t : SymbolTable) (o : Option (List Nat)) (m : Bool)
    (ht : t.Consistent) : (t.Insert o m).2.Consistent := by
  cases o with
  | none => exact ht
  | some s => exact Insert_Consistent s m _ _ ht

theorem SymbolTable.Insert_le (t : SymbolTable) (o : Option (List Nat)) (m : Bool) :
    t.m_StringPool.le (t.Insert o m).2.m_StringPool := by
  cases o with
  | none => exact pool_le_refl _
  | some s => exact Insert_pool_le s m _ _

theorem SymbolTable.InsertAll_Consistent (ops : List (Option (List Nat) × Bool)) :
    ∀ t : SymbolTable, t.Consistent → (t.InsertAll ops).Consistent := by
  induction ops with
  | nil => intro t ht; exact ht
  | cons o ops ih => intro t ht; exact ih _ (table_Insert_Consistent t o.1 o.2 ht)

theorem SymbolTable.InsertAll_le (ops : List (Option (List Nat) × Bool)) :
    ∀ t : SymbolTable, t.m_StringPool.le (t.InsertAll ops).m_StringPool := by
  induction ops with
  | nil => intro t; exact pool_le_refl _
  | cons o ops ih => intro t; exact pool_le_trans (t.Insert_le o.1 o.2) (ih _)

/-! ## Identifier tokens -/

theorem lookupTable_mem {α : Type} [DecidableEq α] (k : α) (tbl : List (α × Symbol_t))
    {s : Symbol_t} (h : lookupTable k tbl = some s) : s ∈ tbl.map Prod.snd := by
  induction tbl with
  | nil => cases h
  | cons e rest ih =>
    obtain ⟨k1, s1⟩ := e
    rw [lookupTable] at h
    split_ifs at h
    · cases h; simp
    · simp [ih h]

theorem identLoop_nul_free (s : List Nat) (p : PositionInfo) (v : List Nat)
    (hv : (0 : Nat) ∉ v) : (0 : Nat) ∉ (identLoop s p v).2.2 := by
  induction s generalizing p v with
  | nil => simpa [identLoop] using hv
  | cons c rest ih =>
    rw [identLoop]
    unfold peekChar
    dsimp only
    by_cases h255 : c = 255
    · simp only [h255, if_true]; exact hv
    · simp only [h255, if_false]
      by_cases hc : (isalnum c || c == 95) = true
      · rw [if_pos hc]
        apply ih
        intro hmem
        simp only [List.mem_append, List.mem_singleton] at hmem
        rcases hmem with hmem | hmem
        · exact hv hmem
        · subst hmem
          revert hc
          decide
      · rw [if_neg hc]; exact hv

/-- After case `TOK_IDENT` the symbol table is still consistent, and an identifier
token carries a handle that `Lookup` resolves to the text collected. -/
theorem tokIdent_ident (tk : Tokenizer) (v : List Nat) (hv : (0 : Nat) ∉ v)
    (hc : tk.m_SymbolTable.Consistent) :
    (tk.tokIdent v).2.m_SymbolTable.Consistent ∧
      ((tk.tokIdent v).1 = T_IDENT →
        (tk.tokIdent v).2.Lookup (tk.tokIdent v).2.SymIndex =
          some (identLoop tk.m_Stream tk.m_Position v).2.2) := by
  have hn := identLoop_nul_free tk.m_Stream tk.m_Position v hv
  unfold Tokenizer.tokIdent
  dsimp only
  cases hk : lookupTable (identLoop tk.m_Stream tk.m_Position v).2.2 Keywords with
  | some s =>
    refine ⟨hc, ?_⟩
    intro hs
    have hs' : s = T_IDENT := hs
    have := lookupTable_mem _ _ hk
    rw [hs'] at this
    exact absurd this (by decide)
  | none =>
    dsimp only
    refine ⟨table_Insert_Consistent _ _ _ hc, fun _ => ?_⟩
    obtain ⟨h, h1, h2⟩ := Insert_resolves hn _ _ hc
    simp only [Tokenizer.Lookup, Tokenizer.SymIndex, SymbolTable.Insert, SymbolTable.Retrive]
    rw [h1]
    exact h2

theorem tokFloat_table (tk : Tokenizer) (v : List Nat) :
    (tk.tokFloat v).2.m_SymbolTable = tk.m_SymbolTable ∧ (tk.tokFloat v).1 ≠ T_IDENT := by
  unfold Tokenizer.tokFloat
  dsimp only
  split <;> exact ⟨rfl, fun h => by cases h⟩

theorem tokNumeric_table (tk : Tokenizer) (v : List Nat) :
    (tk.tokNumeric v).2.m_SymbolTable = tk.m_SymbolTable ∧ (tk.tokNumeric v).1 ≠ T_IDENT := by
  unfold Tokenizer.tokNumeric
  dsimp only
  split
  · split <;> exact ⟨rfl, fun h => by cases h⟩
  · exact tokFloat_table _ _

theorem followedByEq_table (tk : Tokenizer) (a b : Symbol_t) :
    (tk.followedByEq a b).2.m_SymbolTable = tk.m_SymbolTable ∧
      ((tk.followedByEq a b).1 = a ∨ (tk.followedByEq a b).1 = b) := by
  unfold Tokenizer.followedByEq Tokenizer.GetChar
  split
  · split
    · split <;> exact ⟨rfl, Or.inl rfl⟩
    · exact ⟨rfl, Or.inr rfl⟩
  · exact ⟨rfl, Or.inr rfl⟩

theorem tokInitial_ident (tk : Tokenizer) (c : Nat) (hc : tk.m_SymbolTable.Consistent) :
    (tk.tokInitial c).2.m_SymbolTable.Consistent ∧
      ((tk.tokInitial c).1 = T_IDENT →
        ∃ n, (tk.tokInitial c).2.Lookup (tk.tokInitial c).2.SymIndex = some n) := by
  unfold Tokenizer.tokInitial
  cases hk : lookupTable c SingleTokens with
  | some s =>
    refine ⟨hc, ?_⟩
    intro hs
    have hs' : s = T_IDENT := hs
    have := lookupTable_mem _ _ hk
    rw [hs'] at this
    exact absurd this (by decide)
  | none =>
    dsimp only
    split_ifs with h1 h2 h3 h4 h5
    · obtain ⟨e1, e2⟩ := followedByEq_table tk T_EQUAL T_ASSIGN
      rw [e1]
      exact ⟨hc, fun h => by rcases e2 with e | e <;> rw [e] at h <;> cases h⟩
    · obtain ⟨e1, e2⟩ := followedByEq_table tk T_LEQ T_LESS
      rw [e1]
      exact ⟨hc, fun h => by rcases e2 with e | e <;> rw [e] at h <;> cases h⟩
    · obtain ⟨e1, e2⟩ := followedByEq_table tk T_GEQ T_GRT
      rw [e1]
      exact ⟨hc, fun h => by rcases e2 with e | e <;> rw [e] at h <;> cases h⟩
    · obtain ⟨e1, e2⟩ := tokNumeric_table { tk with m_State := .TOK_NUMERIC } [c]
      rw [e1]
      exact ⟨hc, fun h => absurd h e2⟩
    · have hv : (0 : Nat) ∉ [c] := by
        intro hm
        simp only [List.mem_singleton] at hm
        subst hm
        revert h5
        decide
      obtain ⟨e1, e2⟩ := tokIdent_ident { tk with m_State := .TOK_IDENT } [c] hv hc
      exact ⟨e1, fun h => ⟨_, e2 h⟩⟩
    · obtain ⟨e1, e2⟩ := tokIdent_ident tk [] (by simp) hc
      exact ⟨e1, fun h => ⟨_, e2 h⟩⟩

/-- Scanning keeps the symbol table consistent, and an identifier token it returns has
a handle that `Lookup` resolves. -/
theorem scan_ident (tk : Tokenizer) (hc : tk.m_SymbolTable.Consistent) :
    tk.scan.2.m_SymbolTable.Consistent ∧
      (tk.scan.1 = T_IDENT → ∃ n, (tk.scan.2.record tk.scan.1).text = some n) := by
  unfold Tokenizer.scan
  split
  · exact ⟨hc, fun h => by cases h⟩
  · dsimp only
    split
    · exact ⟨hc, fun h => by cases h⟩
    · exact tokInitial_ident _ _ hc

theorem scanAll_ident (n : Nat) :
    ∀ tk : Tokenizer, tk.m_SymbolTable.Consistent →
      ∀ r ∈ scanAll n tk, r.sym = T_IDENT → ∃ x, r.text = some x := by
  induction n with
  | zero => intro tk _ r hr; simp [scanAll] at hr
  | succ n ih =>
    intro tk hc r hr hs
    obtain ⟨h1, h2⟩ := scan_ident tk hc
    rw [scanAll] at hr
    split_ifs at hr with he
    · cases hr
    · simp only [List.mem_cons] at hr
      rcases hr with rfl | hr
      · exact h2 hs
      · exact ih _ h1 r hr hs

/-- Every identifier token of a source carries a text. -/
theorem tokensOf_ident (src : List Nat) :
    ∀ r ∈ tokensOf src, r.sym = T_IDENT → ∃ x, r.text = some x := by
  unfold tokensOf
  rw [pending_of_not_peeked _ rfl]
  exact scanAll_ident _ _ ⟨⟩

/-- The value of `static_cast<float>(1)` is one: `2 ^ 23 * 2 ^ (-23)`. -/
theorem castFloat_one : castFloat 1 = ⟨false, 2 ^ 23, -23⟩ := by decide

/-! ## Lookahead -/

theorem Peek_HasPeeked (tk : Tokenizer) : tk.Peek.2.m_HasPeeked = true := by
  unfold Tokenizer.Peek
  split_ifs with h
  · exact h
  · rfl

theorem Peek_NextSym (tk : Tokenizer) : tk.Peek.2.m_NextSym = tk.Peek.1 := by
  unfold Tokenizer.Peek
  split_ifs with h
  · rfl
  · rfl

theorem Peek_of_peeked (tk : Tokenizer) (h : tk.m_HasPeeked = true) :
    tk.Peek = (tk.m_NextSym, tk) := by
  unfold Tokenizer.Peek
  rw [if_pos h]

theorem PeekTimes_of_peeked (k : Nat) (tk : Tokenizer) (h : tk.m_HasPeeked = true) :
    Tokenizer.PeekTimes k tk = (List.replicate k tk.m_NextSym, tk) := by
  induction k with
  | zero => rfl
  | succ k ih => rw [Tokenizer.PeekTimes, Peek_of_peeked tk h, ih]; rfl

/-! ## Lookup without insertion -/

theorem Insert_lookup_frame (s : List Nat) (pool : Pool) (t : SymbolTable.Node) :
    (SymbolTable.Node.Insert s false pool t).2 = (t, pool) := by
  induction t with
  | null => rfl
  | node p off l r ihl ihr =>
    cases p with
    | none => rfl
    | some x =>
      rw [SymbolTable.Node.Insert]
      dsimp only
      split_ifs with h1 h2
      · rfl
      · rw [ihl]
      · rw [ihr]

theorem table_lookup_frame (t : SymbolTable) (o : Option (List Nat)) :
    (t.Insert o false).2 = t := by
  cases o with
  | none => rfl
  | some s =>
    unfold SymbolTable.Insert
    dsimp only
    rw [Insert_lookup_frame]

theorem Finds_unique {s : List Nat} {h1 h2 : Nat} {t : SymbolTable.Node}
    (a : t.Finds s h1) (b : t.Finds s h2) : h1 = h2 := by
  induction t with
  | null => exact a.elim
  | node p off l r ihl ihr =>
    cases p with
    | none => exact a.elim
    | some x =>
      rw [SymbolTable.Node.Finds] at a b
      split_ifs at a b with c1 c2
      · rw [← a, ← b]
      · exact ihl a b
      · exact ihr a b

theorem Finds_of_Insert {s o : List Nat} (ho : (0 : Nat) ∉ o) (m : Bool) (pool : Pool)
    (t : SymbolTable.Node) {h : Nat} (hf : (SymbolTable.Node.Insert o m pool t).2.1.Finds s h) :
    t.Finds s h ∨ (o = s ∧ m = true) := by
  induction t with
  | null =>
    rw [SymbolTable.Node.Insert] at hf
    cases m with
    | false => exact hf.elim
    | true =>
      simp only [if_true, allocNode_eq o pool ho] at hf
      rw [SymbolTable.Node.Finds] at hf
      split_ifs at hf with c1 c2
      · exact Or.inr ⟨(strcmp_eq_zero c1).symm, rfl⟩
      · exact hf.elim
      · exact hf.elim
  | node p off l r ihl ihr =>
    cases p with
    | none => exact hf.elim
    | some x =>
      rw [SymbolTable.Node.Insert] at hf
      dsimp only at hf
      rw [SymbolTable.Node.Finds]
      split_ifs at hf with h1 h2
      · rw [SymbolTable.Node.Finds] at hf
        exact Or.inl hf
      · rw [SymbolTable.Node.Finds] at hf
        split_ifs at hf ⊢ with c1 c2
        · exact Or.inl hf
        · exact ihl hf
        · exact Or.inl hf
      · rw [SymbolTable.Node.Finds] at hf
        split_ifs at hf ⊢ with c1 c2
        · exact Or.inl hf
        · exact Or.inl hf
        · exact ihr hf

theorem Finds_of_InsertAll {s : List Nat} {h : Nat} (ops : List (Option (List Nat) × Bool)) :
    ∀ t : SymbolTable, (∀ o ∈ ops, ∀ x, o.1 = some x → (0 : Nat) ∉ x) →
      (t.InsertAll ops).m_pRoot.Finds s h → t.m_pRoot.Finds s h ∨ (some s, true) ∈ ops := by
  induction ops with
  | nil => intro t _ hf; exact Or.inl hf
  | cons o ops ih =>
    intro t hn hf
    rw [SymbolTable.InsertAll] at hf
    rcases ih _ (fun o1 ho1 => hn o1 (List.mem_cons_of_mem _ ho1)) hf with h1 | h1
    · obtain ⟨p, m⟩ := o
      cases p with
      | none => exact Or.inl h1
      | some x =>
        rcases Finds_of_Insert (hn _ (List.mem_cons_self _ _) x rfl) m _ _ h1 with h2 | ⟨h2, h3⟩
        · exact Or.inl h2
        · right; rw [h2, h3]; exact List.mem_cons_self _ _
    · exact Or.inr (List.mem_cons_of_mem _ h1)

theorem InsertAll_interned {s : List Nat} (hs : (0 : Nat) ∉ s)
    (ops : List (Option (List Nat) × Bool)) :
    ∀ t : SymbolTable, t.Consistent → (some s, true) ∈ ops →
      ∃ h, (t.InsertAll ops).m_pRoot.Finds s h := by
  induction ops with
  | nil => intro t _ hm; cases hm
  | cons o ops ih =>
    intro t hc hm
    rw [SymbolTable.InsertAll]
    rcases List.mem_cons.mp hm with h1 | h1
    · subst h1
      obtain ⟨h, e1, -⟩ := Insert_resolves hs _ _ hc
      exact ⟨h, InsertAll_Finds ops _ (Insert_Finds hs true _ _ e1)⟩
    · exact ih _ (table_Insert_Consistent t o.1 o.2 hc) h1

/-! ## The failure token -/

theorem numericLoop_state (s : List Nat) (p : PositionInfo) (v : List Nat) :
    (numericLoop s p v).1 = .TOK_NUMERIC ∨ (numericLoop s p v).1 = .TOK_FLOAT := by
  induction s generalizing p v with
  | nil => exact Or.inl rfl
  | cons c rest ih =>
    rw [numericLoop]
    split
    · split_ifs
      · exact ih _ _
      · exact Or.inr rfl
      · exact Or.inl rfl
    · exact Or.inl rfl

theorem readInt_none (v : List Nat) : readInt v = none ↔ 2147483647 < digitsVal v := by
  unfold readInt
  split_ifs with h
  · simp; omega
  · simp; omega

theorem tokFloat_failure (tk : Tokenizer) (v : List Nat) :
    (tk.tokFloat v).1 = T_FAILURE ↔
      readFloat (floatLoop tk.m_Stream tk.m_Position v).2.2 = none := by
  unfold Tokenizer.tokFloat
  dsimp only
  cases h : readFloat (floatLoop tk.m_Stream tk.m_Position v).2.2 with
  | none => simp
  | some f => simp

theorem tokNumeric_failure (tk : Tokenizer) (v : List Nat) :
    (tk.tokNumeric v).1 = T_FAILURE ↔
      ((numericLoop tk.m_Stream tk.m_Position v).1 = .TOK_NUMERIC ∧
        2147483647 < digitsVal (numericLoop tk.m_Stream tk.m_Position v).2.2.2) ∨
      ((numericLoop tk.m_Stream tk.m_Position v).1 = .TOK_FLOAT ∧
        readFloat (floatLoop (numericLoop tk.m_Stream tk.m_Position v).2.1
          (numericLoop tk.m_Stream tk.m_Position v).2.2.1
          (numericLoop tk.m_Stream tk.m_Position v).2.2.2).2.2 = none) := by
  unfold Tokenizer.tokNumeric
  dsimp only
  rcases numericLoop_state tk.m_Stream tk.m_Position v with h | h
  · rw [if_pos h, ← readInt_none]
    cases hr : readInt (numericLoop tk.m_Stream tk.m_Position v).2.2.2 with
    | none => simp [h]
    | some x => simp [h]
  · rw [if_neg (by rw [h]; decide), tokFloat_failure]
    simp [h]

theorem tokIdent_not_failure (tk : Tokenizer) (v : List Nat) :
    (tk.tokIdent v).1 ≠ T_FAILURE := by
  unfold Tokenizer.tokIdent
  dsimp only
  cases hk : lookupTable (identLoop tk.m_Stream tk.m_Position v).2.2 Keywords with
  | some s =>
    intro hs
    have hs' : s = T_FAILURE := hs
    have := lookupTable_mem _ _ hk
    rw [hs'] at this
    exact absurd this (by decide)
  | none => intro hs; cases hs

theorem lookupTable_digit {c : Nat} (h : isdigit c = true) :
    lookupTable c SingleTokens = none ∧ c ≠ 61 ∧ c ≠ 60 ∧ c ≠ 62 := by
  have h1 : 48 ≤ c ∧ c ≤ 57 := by simpa [isdigit] using h
  refine ⟨?_, by omega, by omega, by omega⟩
  simp only [SingleTokens, lookupTable]
  repeat rw [if_neg (by omega)]

theorem tokInitial_failure (tk : Tokenizer) (c : Nat) :
    (tk.tokInitial c).1 = T_FAILURE ↔
      (isdigit c = true ∧
        (Tokenizer.tokNumeric { tk with m_State := .TOK_NUMERIC } [c]).1 = T_FAILURE) := by
  by_cases hd : isdigit c = true
  · obtain ⟨h0, h1, h2, h3⟩ := lookupTable_digit hd
    unfold Tokenizer.tokInitial
    rw [h0]
    dsimp only
    rw [if_neg h1, if_neg h2, if_neg h3, if_pos hd]
    simp [hd]
  · constructor
    · intro hf
      exfalso
      revert hf
      unfold Tokenizer.tokInitial
      cases hk : lookupTable c SingleTokens with
      | some s =>
        intro hs
        have hs' : s = T_FAILURE := hs
        have := lookupTable_mem _ _ hk
        rw [hs'] at this
        exact absurd this (by decide)
      | none =>
        dsimp only
        split_ifs with h1 h2 h3 h5
        · intro h
          rcases (followedByEq_table tk T_EQUAL T_ASSIGN).2 with e | e <;> rw [e] at h <;> cases h
        · intro h
          rcases (followedByEq_table tk T_LEQ T_LESS).2 with e | e <;> rw [e] at h <;> cases h
        · intro h
          rcases (followedByEq_table tk T_GEQ T_GRT).2 with e | e <;> rw [e] at h <;> cases h
        · exact tokIdent_not_failure _ _
        · exact tokIdent_not_failure _ _
    · intro h
      exact absurd h.1 hd

/-! ## What a successful call has read -/

theorem scanAll_ne_eof (n : Nat) : ∀ tk : Tokenizer, ∀ t ∈ scanAll n tk, t.sym ≠ T_EOF := by
  induction n with
  | zero => intro tk t ht; simp [scanAll] at ht
  | succ n ih =>
    intro tk t ht
    rw [scanAll] at ht
    split_ifs at ht with he
    · cases ht
    · simp only [List.mem_cons] at ht
      rcases ht with rfl | ht
      · exact he
      · exact ih _ t ht

theorem pending_ne_eof (tk : Tokenizer) : ∀ t ∈ tk.pending, t.sym ≠ T_EOF := by
  intro t ht
  unfold Tokenizer.pending at ht
  split_ifs at ht with h1 h2
  · cases ht
  · simp only [List.mem_cons] at ht
    rcases ht with rfl | ht
    · exact h2
    · exact scanAll_ne_eof _ _ t ht
  · exact scanAll_ne_eof _ _ t ht

/-- A token other than the end of input that `GetSym` returns was the first pending
one. -/
theorem GetSym_inv {tk : Tokenizer} (h : tk.GetSym.1 ≠ T_EOF) :
    ∃ t, tk.pending = t :: tk.GetSym.2.pending ∧ t.sym = tk.GetSym.1 ∧
      tk.GetSym.2.record tk.GetSym.1 = t := by
  cases hp : tk.pending with
  | nil => exact absurd (GetSym_pending_nil hp) h
  | cons t ts =>
    obtain ⟨h1, h2, h3, -⟩ := GetSym_pending hp
    exact ⟨t, by rw [h3], h1.symm, by rw [h1]; exact h2⟩

theorem Peek_keeps (tk : Tokenizer) : tk.Peek.2.pending = tk.pending := by
  cases hp : tk.pending with
  | nil => exact (Peek_pending_nil hp).2
  | cons t ts => exact (Peek_pending hp).2.2

/-- A token other than the end of input that `Peek` returns is the first pending one. -/
theorem Peek_inv {tk : Tokenizer} (h : tk.Peek.1 ≠ T_EOF) :
    ∃ t ts, tk.pending = t :: ts ∧ t.sym = tk.Peek.1 := by
  cases hp : tk.pending with
  | nil => exact absurd (Peek_pending_nil hp).1 h
  | cons t ts => exact ⟨t, ts, rfl, (Peek_pending hp).1.symm⟩

theorem Peek_eof {tk : Tokenizer} (h : tk.Peek.1 = T_EOF) : tk.pending = [] := by
  cases hp : tk.pending with
  | nil => rfl
  | cons t ts =>
    have h1 := (Peek_pending hp).1
    rw [h] at h1
    exact absurd h1.symm (pending_ne_eof tk t (by rw [hp]; exact List.mem_cons_self _ _))

/-- A successful `Expect` has taken the first pending token, which is of the wanted
kind, and has left the parser as it was. -/
theorem Expect_inv {P P1 : Parser} {e : Symbol_t} {tk tk1 : Tokenizer}
    (h : P.Expect e tk = (true, P1, tk1)) (he : e ≠ T_EOF) :
    P1 = P ∧ tk1 = tk.GetSym.2 ∧
      ∃ t, tk.pending = t :: tk1.pending ∧ t.sym = e ∧ tk1.record e = t := by
  unfold Parser.Expect at h
  dsimp only at h
  split_ifs at h with hne
  · cases h
  · simp only [Prod.mk.injEq, true_and] at h
    obtain ⟨rfl, rfl⟩ := h
    have hne' : tk.GetSym.1 = e := by simpa using hne
    obtain ⟨t, h1, h2, h3⟩ := GetSym_inv (show tk.GetSym.1 ≠ T_EOF by rw [hne']; exact he)
    rw [hne'] at h2 h3
    exact ⟨rfl, rfl, t, h1, h2, h3⟩

theorem Expect_tokenizer (P : Parser) (e : Symbol_t) (tk : Tokenizer) :
    (P.Expect e tk).2.2 = tk.GetSym.2 := by
  unfold Parser.Expect
  dsimp only
  split_ifs <;> rfl

theorem tok_of_kw {t : TokRec} {s : Symbol_t} (h : t.sym = s) (h1 : s ≠ T_IDENT)
    (h2 : s ≠ T_INTEGER) (h3 : s ≠ T_REAL) : t.tok = .kw s := by
  unfold TokRec.tok
  rw [h, if_neg h1, if_neg h2, if_neg h3]

theorem tok_of_ident {t : TokRec} {n : List Nat} (h : t.sym = T_IDENT) (ht : t.text = some n) :
    t.tok = .ident n := by
  unfold TokRec.tok
  rw [if_pos h, ht]


theorem skipSpace_none (c : Nat) (s : List Nat) (p : PositionInfo)
    (h : (skipSpace c s p).1 = none) : (skipSpace c s p).2.1 = [] := by
  induction s generalizing c p with
  | nil =>
    rw [skipSpace] at h ⊢
    split_ifs at h ⊢
    · rfl
  | cons c1 rest ih =>
    rw [skipSpace] at h ⊢
    split_ifs at h ⊢ with hc
    · exact ih _ _ h

theorem tokIdent_ne_eof (tk : Tokenizer) (v : List Nat) : (tk.tokIdent v).1 ≠ T_EOF := by
  unfold Tokenizer.tokIdent
  dsimp only
  cases hk : lookupTable (identLoop tk.m_Stream tk.m_Position v).2.2 Keywords with
  | some s =>
    intro hs
    have hs' : s = T_EOF := hs
    have := lookupTable_mem _ _ hk
    rw [hs'] at this
    exact absurd this (by decide)
  | none => intro hs; cases hs

theorem tokFloat_ne_eof (tk : Tokenizer) (v : List Nat) : (tk.tokFloat v).1 ≠ T_EOF := by
  unfold Tokenizer.tokFloat
  dsimp only
  split <;> exact fun h => by cases h

theorem tokNumeric_ne_eof (tk : Tokenizer) (v : List Nat) : (tk.tokNumeric v).1 ≠ T_EOF := by
  unfold Tokenizer.tokNumeric
  dsimp only
  split
  · split <;> exact fun h => by cases h
  · exact tokFloat_ne_eof _ _

theorem tokInitial_ne_eof (tk : Tokenizer) (c : Nat) : (tk.tokInitial c).1 ≠ T_EOF := by
  unfold Tokenizer.tokInitial
  cases hk : lookupTable c SingleTokens with
  | some s =>
    intro hs
    have hs' : s = T_EOF := hs
    have := lookupTable_mem _ _ hk
    rw [hs'] at this
    exact absurd this (by decide)
  | none =>
    dsimp only
    split_ifs with h1 h2 h3 h4 h5
    · intro h
      rcases (followedByEq_table tk T_EQUAL T_ASSIGN).2 with e | e <;> rw [e] at h <;> cases h
    · intro h
      rcases (followedByEq_table tk T_LEQ T_LESS).2 with e | e <;> rw [e] at h <;> cases h
    · intro h
      rcases (followedByEq_table tk T_GEQ T_GRT).2 with e | e <;> rw [e] at h <;> cases h
    · exact tokNumeric_ne_eof _ _
    · exact tokIdent_ne_eof _ _
    · exact tokIdent_ne_eof _ _

/-- Scanning reports the end of input only when the stream is exhausted. -/
theorem scan_eof (tk : Tokenizer) (h : tk.scan.1 = T_EOF) : tk.scan.2.m_Stream = [] := by
  unfold Tokenizer.scan at h ⊢
  split at h
  · rename_i hs; exact hs
  · dsimp only at h ⊢
    split at h
    · rename_i hk
      exact skipSpace_none _ _ _ hk
    · exact absurd h (tokInitial_ne_eof _ _)

theorem pending_of_empty {tk : Tokenizer} (hp : tk.m_HasPeeked = false)
    (hs : tk.m_Stream = []) : tk.pending = [] := by
  rw [pending_of_not_peeked tk hp, hs]
  simp [scanAll, Tokenizer.scan, hs]

theorem GetSym_eof_unpeeked {tk : Tokenizer} (hp : tk.m_HasPeeked = false)
    (he : tk.GetSym.1 = T_EOF) : tk.GetSym.2.pending = [] ∧ tk.GetSym.2.m_Stream = [] := by
  unfold Tokenizer.GetSym at he ⊢
  dsimp only at he ⊢
  rw [if_neg (by rw [hp]; decide)] at he ⊢
  have hs := scan_eof _ he
  exact ⟨pending_of_empty (by rw [scan_cache]; exact hp) hs, hs⟩

theorem GetSym_unpeeked (tk : Tokenizer) : tk.GetSym.2.m_HasPeeked = false := by
  unfold Tokenizer.GetSym
  dsimp only
  split_ifs with h
  · rfl
  · rw [scan_cache]; simpa using h

theorem GetSym_inv_eq {tk tk1 : Tokenizer} {s : Symbol_t} (h : tk.GetSym = (s, tk1))
    (hs : s ≠ T_EOF) :
    ∃ t, tk.pending = t :: tk1.pending ∧ t.sym = s ∧ tk1.record s = t := by
  have h1 : tk.GetSym.1 = s := congrArg Prod.fst h
  have h2 : tk.GetSym.2 = tk1 := congrArg Prod.snd h
  obtain ⟨t, a, b, c⟩ := GetSym_inv (show tk.GetSym.1 ≠ T_EOF by rw [h1]; exact hs)
  rw [h1] at b c
  rw [h2] at a c
  exact ⟨t, a, b, c⟩

theorem Peek_inv_eq {tk tk1 : Tokenizer} {s : Symbol_t} (h : tk.Peek = (s, tk1)) :
    tk1.pending = tk.pending ∧ (s ≠ T_EOF → ∃ t ts, tk.pending = t :: ts ∧ t.sym = s) ∧
      (s = T_EOF → tk.pending = []) := by
  have h1 : tk.Peek.1 = s := congrArg Prod.fst h
  have h2 : tk.Peek.2 = tk1 := congrArg Prod.snd h
  refine ⟨by rw [← h2]; exact Peek_keeps tk, ?_, ?_⟩
  · intro hs
    obtain ⟨t, ts, a, b⟩ := Peek_inv (show tk.Peek.1 ≠ T_EOF by rw [h1]; exact hs)
    exact ⟨t, ts, a, b.trans h1⟩
  · intro hs
    exact Peek_eof (h1.trans hs)

theorem Lookup_text {tk : Tokenizer} {s : Symbol_t} {t : TokRec} {n : List Nat}
    (hr : tk.record s = t) (hl : tk.Lookup tk.SymIndex = some n) : t.text = some n := by
  rw [← hr]; exact hl

/-- A successful `ParseEvent` has read `event IDENT ;` and stored the identifier. -/
theorem ParseEvent_inv {P P1 : Parser} {tk tk1 : Tokenizer} {ev ev1 : FlowEvent}
    (h : P.ParseEvent tk ev = (true, P1, tk1, ev1)) :
    ∃ (name : List Nat) (pre : List TokRec), tk.pending = pre ++ tk1.pending ∧
      pre.map TokRec.tok = [.kw T_KEYWORD_EVENT, .ident name, .kw T_SEMICOLON] ∧
      P1 = P.push name ∧ ev1 = { ev with NameIndex := some P.m_StringPool.blocks.length } ∧
      (0 : Nat) ∉ name := by
  unfold Parser.ParseEvent at h
  generalize hE1 : P.Expect T_KEYWORD_EVENT tk = e1 at h
  obtain ⟨ok1, Pa, tka⟩ := e1
  cases ok1
  · cases h
  dsimp only at h
  obtain ⟨rfl, -, t1, p1, s1, -⟩ := Expect_inv hE1 (by decide)
  generalize hE2 : Pa.Expect T_IDENT tka = e2 at h
  obtain ⟨ok2, Pb, tkb⟩ := e2
  cases ok2
  · cases h
  dsimp only at h
  obtain ⟨rfl, -, t2, p2, s2, r2⟩ := Expect_inv hE2 (by decide)
  cases hL : tkb.Lookup tkb.SymIndex with
  | none => rw [hL] at h; cases h
  | some n =>
    rw [hL, InsertName_some] at h
    dsimp only at h
    generalize hE3 : (Pb.push n).Expect T_SEMICOLON tkb = e3 at h
    obtain ⟨ok3, Pc, tkc⟩ := e3
    cases ok3
    · cases h
    dsimp only at h
    obtain ⟨rfl, -, t3, p3, s3, -⟩ := Expect_inv hE3 (by decide)
    simp only [Prod.mk.injEq, true_and] at h
    obtain ⟨rfl, rfl, rfl⟩ := h
    have ht := Lookup_text r2 hL
    refine ⟨n, [t1, t2, t3], ?_, ?_, rfl, rfl, record_text _ _ (r2 ▸ ht)⟩
    · rw [p1, p2, p3]; rfl
    · simp only [List.map_cons, List.map_nil]
      rw [tok_of_kw s1 (by decide) (by decide) (by decide), tok_of_ident s2 ht,
        tok_of_kw s3 (by decide) (by decide) (by decide)]

/-- A successful `ParseVariable` has read a variable declaration of the accepted
language and stored its identifier. -/
theorem ParseVariable_inv {P P1 : Parser} {tk tk1 : Tokenizer} {a v1 : FlowVariable}
    (h : P.ParseVariable tk a = (true, P1, tk1, v1)) :
    ∃ (g : AVar) (pre : List TokRec), tk.pending = pre ++ tk1.pending ∧
      pre.map TokRec.tok = g.toks ∧ P1.m_StringPool = (P.push g.name).m_StringPool ∧
      v1.NameIndex = some P.m_StringPool.blocks.length ∧ (0 : Nat) ∉ g.name := by
  unfold Parser.ParseVariable at h
  generalize hG : tk.GetSym = g0 at h
  obtain ⟨sym, tka⟩ := g0
  dsimp only at h
  by_cases hf : sym = T_TYPE_FLOAT
  · rw [if_pos hf] at h
    obtain ⟨t1, p1, s1, -⟩ := GetSym_inv_eq hG (by rw [hf]; decide)
    rw [hf] at s1
    generalize hE2 : P.Expect T_IDENT tka = e2 at h
    obtain ⟨ok2, Pb, tkb⟩ := e2
    cases ok2
    · cases h
    dsimp only at h
    obtain ⟨rfl, -, t2, p2, s2, r2⟩ := Expect_inv hE2 (by decide)
    cases hL : tkb.Lookup tkb.SymIndex with
    | none => rw [hL] at h; cases h
    | some n =>
      rw [hL, InsertName_some] at h
      dsimp only at h
      have ht := Lookup_text r2 hL
      have hn : (0 : Nat) ∉ n := record_text _ _ (r2 ▸ ht)
      generalize hP : tkb.Peek = pk at h
      obtain ⟨sym2, tkc⟩ := pk
      dsimp only at h
      obtain ⟨k1, k2, -⟩ := Peek_inv_eq hP
      by_cases ha : sym2 = T_ASSIGN
      · rw [if_pos ha] at h
        obtain ⟨t3, ts, p3, s3⟩ := k2 (by rw [ha]; decide)
        rw [ha] at s3
        have hc : tkc.pending = t3 :: ts := k1.trans p3
        obtain ⟨-, -, c3, c4⟩ := GetSym_pending hc
        generalize hG2 : tkc.GetSym.2.GetSym = g2 at h
        obtain ⟨sym3, tkd⟩ := g2
        dsimp only at h
        by_cases hr : sym3 = T_REAL
        · rw [if_pos hr] at h
          obtain ⟨t4, p4, s4, -⟩ := GetSym_inv_eq hG2 (by rw [hr]; decide)
          rw [hr] at s4
          generalize hE3 : (Pb.push n).Expect T_SEMICOLON tkd = e3 at h
          obtain ⟨ok3, Pc, tke⟩ := e3
          dsimp only at h
          simp only [Prod.mk.injEq] at h
          obtain ⟨rfl, rfl, rfl, rfl⟩ := h
          obtain ⟨rfl, -, t5, p5, s5, -⟩ := Expect_inv hE3 (by decide)
          refine ⟨.strict (.float n (some (.real t4.rval))), [t1, t2, t3, t4, t5], ?_, ?_,
            rfl, rfl, hn⟩
          · rw [p1, p2, p3, ← c3, p4, p5]; rfl
          · simp only [List.map_cons, List.map_nil, AVar.toks, GVar.toks, GVar.typeTok,
              GVar.defaultToks, GNumber.toks, GVar.name, List.cons_append, List.nil_append]
            rw [tok_of_kw s1 (by decide) (by decide) (by decide), tok_of_ident s2 ht,
              tok_of_kw s3 (by decide) (by decide) (by decide),
              tok_of_kw s5 (by decide) (by decide) (by decide)]
            simp [TokRec.tok, s4]
        · rw [if_neg hr] at h
          by_cases hi : sym3 = T_INTEGER
          · rw [if_pos hi] at h
            obtain ⟨t4, p4, s4, -⟩ := GetSym_inv_eq hG2 (by rw [hi]; decide)
            rw [hi] at s4
            generalize hE3 : (Pb.push n).Expect T_SEMICOLON tkd = e3 at h
            obtain ⟨ok3, Pc, tke⟩ := e3
            dsimp only at h
            simp only [Prod.mk.injEq] at h
            obtain ⟨rfl, rfl, rfl, rfl⟩ := h
            obtain ⟨rfl, -, t5, p5, s5, -⟩ := Expect_inv hE3 (by decide)
            refine ⟨.strict (.float n (some (.integer t4.ival))), [t1, t2, t3, t4, t5], ?_, ?_,
              rfl, rfl, hn⟩
            · rw [p1, p2, p3, ← c3, p4, p5]; rfl
            · simp only [List.map_cons, List.map_nil, AVar.toks, GVar.toks, GVar.typeTok,
                GVar.defaultToks, GNumber.toks, GVar.name, List.cons_append, List.nil_append]
              rw [tok_of_kw s1 (by decide) (by decide) (by decide), tok_of_ident s2 ht,
                tok_of_kw s3 (by decide) (by decide) (by decide),
                tok_of_kw s5 (by decide) (by decide) (by decide)]
              simp [TokRec.tok, s4]
          · rw [if_neg hi] at h
            generalize hE3 : ((Pb.push n).Unexpected sym3 tkd.Position).Expect T_SEMICOLON tkd =
              e3 at h
            obtain ⟨ok3, Pc, tke⟩ := e3
            dsimp only at h
            simp only [Prod.mk.injEq] at h
            obtain ⟨rfl, rfl, rfl, rfl⟩ := h
            obtain ⟨rfl, -, t5, p5, s5, -⟩ := Expect_inv hE3 (by decide)
            by_cases he : sym3 = T_EOF
            · exfalso
              have hd : tkd.pending = [] := by
                have := (GetSym_eof_unpeeked c4 (by rw [hG2]; exact he)).1
                rw [hG2] at this
                exact this
              rw [hd] at p5
              cases p5
            · obtain ⟨t4, p4, s4, -⟩ := GetSym_inv_eq hG2 he
              refine ⟨.loose n t4.tok, [t1, t2, t3, t4, t5], ?_, ?_, rfl, rfl, hn⟩
              · rw [p1, p2, p3, ← c3, p4, p5]; rfl
              · simp only [List.map_cons, List.map_nil, AVar.toks]
                rw [tok_of_kw s1 (by decide) (by decide) (by decide), tok_of_ident s2 ht,
                  tok_of_kw s3 (by decide) (by decide) (by decide),
                  tok_of_kw s5 (by decide) (by decide) (by decide)]
      · rw [if_neg ha] at h
        generalize hE3 : (Pb.push n).Expect T_SEMICOLON tkc = e3 at h
        obtain ⟨ok3, Pc, tke⟩ := e3
        dsimp only at h
        simp only [Prod.mk.injEq] at h
        obtain ⟨rfl, rfl, rfl, rfl⟩ := h
        obtain ⟨rfl, -, t5, p5, s5, -⟩ := Expect_inv hE3 (by decide)
        refine ⟨.strict (.float n none), [t1, t2, t5], ?_, ?_, rfl, rfl, hn⟩
        · rw [p1, p2, ← k1, p5]; rfl
        · simp only [List.map_cons, List.map_nil, AVar.toks, GVar.toks, GVar.typeTok,
            GVar.defaultToks, GNumber.toks, GVar.name, List.cons_append, List.nil_append]
          rw [tok_of_kw s1 (by decide) (by decide) (by decide), tok_of_ident s2 ht,
            tok_of_kw s5 (by decide) (by decide) (by decide)]
  · rw [if_neg hf] at h
    by_cases hb : sym = T_TYPE_BOOL
    · rw [if_pos hb] at h
      obtain ⟨t1, p1, s1, -⟩ := GetSym_inv_eq hG (by rw [hb]; decide)
      rw [hb] at s1
      generalize hE2 : P.Expect T_IDENT tka = e2 at h
      obtain ⟨ok2, Pb, tkb⟩ := e2
      cases ok2
      · cases h
      dsimp only at h
      obtain ⟨rfl, -, t2, p2, s2, r2⟩ := Expect_inv hE2 (by decide)
      cases hL : tkb.Lookup tkb.SymIndex with
      | none => rw [hL] at h; cases h
      | some n =>
        rw [hL, InsertName_some] at h
        dsimp only at h
        have ht := Lookup_text r2 hL
        have hn : (0 : Nat) ∉ n := record_text _ _ (r2 ▸ ht)
        generalize hP : tkb.Peek = pk at h
        obtain ⟨sym2, tkc⟩ := pk
        dsimp only at h
        obtain ⟨k1, k2, -⟩ := Peek_inv_eq hP
        by_cases ha : sym2 = T_ASSIGN
        · rw [if_pos ha] at h
          obtain ⟨t3, ts, p3, s3⟩ := k2 (by rw [ha]; decide)
          rw [ha] at s3
          have hc : tkc.pending = t3 :: ts := k1.trans p3
          obtain ⟨-, -, c3, c4⟩ := GetSym_pending hc
          generalize hG2 : tkc.GetSym.2.GetSym = g2 at h
          obtain ⟨sym3, tkd⟩ := g2
          dsimp only at h
          by_cases hr : sym3 = T_KEYWORD_TRUE
          · rw [if_pos hr] at h
            obtain ⟨t4, p4, s4, -⟩ := GetSym_inv_eq hG2 (by rw [hr]; decide)
            rw [hr] at s4
            generalize hE3 : (Pb.push n).Expect T_SEMICOLON tkd = e3 at h
            obtain ⟨ok3, Pc, tke⟩ := e3
            dsimp only at h
            simp only [Prod.mk.injEq] at h
            obtain ⟨rfl, rfl, rfl, rfl⟩ := h
            obtain ⟨rfl, -, t5, p5, s5, -⟩ := Expect_inv hE3 (by decide)
            refine ⟨.strict (.bool n (some true)), [t1, t2, t3, t4, t5], ?_, ?_,
              rfl, rfl, hn⟩
            · rw [p1, p2, p3, ← c3, p4, p5]; rfl
            · simp only [List.map_cons, List.map_nil, AVar.toks, GVar.toks, GVar.typeTok,
                GVar.defaultToks, boolToks, GVar.name, List.cons_append, List.nil_append]
              rw [tok_of_kw s1 (by decide) (by decide) (by decide), tok_of_ident s2 ht,
                tok_of_kw s3 (by decide) (by decide) (by decide),
                tok_of_kw s4 (by decide) (by decide) (by decide),
                tok_of_kw s5 (by decide) (by decide) (by decide)]
          · rw [if_neg hr] at h
            by_cases hi : sym3 = T_KEYWORD_FALSE
            · rw [if_pos hi] at h
              obtain ⟨t4, p4, s4, -⟩ := GetSym_inv_eq hG2 (by rw [hi]; decide)
              rw [hi] at s4
              generalize hE3 : (Pb.push n).Expect T_SEMICOLON tkd = e3 at h
              obtain ⟨ok3, Pc, tke⟩ := e3
              dsimp only at h
              simp only [Prod.mk.injEq] at h
              obtain ⟨rfl, rfl, rfl, rfl⟩ := h
              obtain ⟨rfl, -, t5, p5, s5, -⟩ := Expect_inv hE3 (by decide)
              refine ⟨.strict (.bool n (some false)), [t1, t2, t3, t4, t5], ?_, ?_,
                rfl, rfl, hn⟩
              · rw [p1, p2, p3, ← c3, p4, p5]; rfl
              · simp only [List.map_cons, List.map_nil, AVar.toks, GVar.toks, GVar.typeTok,
                  GVar.defaultToks, boolToks, GVar.name, List.cons_append, List.nil_append]
                rw [tok_of_kw s1 (by decide) (by decide) (by decide), tok_of_ident s2 ht,
                  tok_of_kw s3 (by decide) (by decide) (by decide),
                  tok_of_kw s4 (by decide) (by decide) (by decide),
                  tok_of_kw s5 (by decide) (by decide) (by decide)]
            · rw [if_neg hi] at h
              cases h
        · rw [if_neg ha] at h
          generalize hE3 : (Pb.push n).Expect T_SEMICOLON tkc = e3 at h
          obtain ⟨ok3, Pc, tke⟩ := e3
          dsimp only at h
          simp only [Prod.mk.injEq] at h
          obtain ⟨rfl, rfl, rfl, rfl⟩ := h
          obtain ⟨rfl, -, t5, p5, s5, -⟩ := Expect_inv hE3 (by decide)
          refine ⟨.strict (.bool n none), [t1, t2, t5], ?_, ?_, rfl, rfl, hn⟩
          · rw [p1, p2, ← k1, p5]; rfl
          · simp only [List.map_cons, List.map_nil, AVar.toks, GVar.toks, GVar.typeTok,
              GVar.defaultToks, boolToks, GVar.name, List.cons_append, List.nil_append]
            rw [tok_of_kw s1 (by decide) (by decide) (by decide), tok_of_ident s2 ht,
              tok_of_kw s5 (by decide) (by decide) (by decide)]
    · rw [if_neg hb] at h
      cases h

/-! ## One round of a loop -/

theorem Resolves_pool {P Q : Parser} (h : P.m_StringPool = Q.m_StringPool) {i : Option Nat}
    {n : List Nat} (hr : P.Resolves i n) : Q.Resolves i n := by
  obtain ⟨k, hk, hg⟩ := hr
  exact ⟨k, hk, by unfold Parser.GetString at hg ⊢; rw [← h]; exact hg⟩

theorem le_of_pool_push {P Q : Parser} {n : List Nat}
    (h : Q.m_StringPool = (P.push n).m_StringPool) : P.le Q :=
  ⟨[n ++ [0]], by rw [h]; rfl⟩

theorem Resolves_of_push {P Q : Parser} {n : List Nat} {i : Option Nat}
    (h : Q.m_StringPool = (P.push n).m_StringPool) (hn : (0 : Nat) ∉ n)
    (hi : i = some P.m_StringPool.blocks.length) : Q.Resolves i n := by
  rw [hi]
  exact Resolves_pool h.symm (Resolves_push P hn)

theorem cached_pending {tk : Tokenizer} {pfx : Symbol_t} (hc : tk.m_HasPeeked = true)
    (hn : tk.m_NextSym = pfx) (hp : pfx ≠ T_EOF) :
    ∃ t ts, tk.pending = t :: ts ∧ t.sym = pfx := by
  have h := Peek_of_peeked tk hc
  rw [hn] at h
  exact (Peek_inv_eq h).2.1 hp

theorem dirTok_of_sym {t : TokRec} {pfx : Symbol_t} (h : t.sym = pfx)
    (hp : pfx = T_KEYWORD_IN ∨ pfx = T_KEYWORD_OUT) : t.tok = dirTok (dirOf pfx) := by
  rcases hp with rfl | rfl
  · rw [tok_of_kw h (by decide) (by decide) (by decide)]; rfl
  · rw [tok_of_kw h (by decide) (by decide) (by decide)]; rfl

/-- One round of the member loop of `ParseNode`, entered with the peeked token: the
function returns false, or the loop ends on a token that starts no member with nothing
read, or one member of the accepted language has been read and stored and the loop goes
on with the token peeked after it. -/
theorem ParseNodeLoop_step (P : Parser) (tk : Tokenizer) (pfx : Symbol_t) (node : FlowNode)
    (hc : tk.m_HasPeeked = true) (hn : tk.m_NextSym = pfx) :
    (∃ r : Bool × Parser × Tokenizer × FlowNode, r.1 = false ∧
      ∀ fuel, Parser.ParseNodeLoop (fuel + 1) P tk pfx node = some r) ∨
    (¬ startsNodeMember pfx ∧
      ∀ fuel, Parser.ParseNodeLoop (fuel + 1) P tk pfx node = some (true, P, tk, node)) ∨
    (∃ (P1 : Parser) (tk1 : Tokenizer) (es : List FlowEvent) (vs : List FlowVariable)
        (m : AMember) (pre : List TokRec),
      tk.pending = pre ++ tk1.pending ∧ pre.map TokRec.tok = m.toks ∧ P.le P1 ∧
      EventNames P1 es (eventNames [m]) ∧ VarNames P1 vs (varNames [m]) ∧
      ∀ fuel, Parser.ParseNodeLoop (fuel + 1) P tk pfx node =
        Parser.ParseNodeLoop fuel P1 tk1.Peek.2 tk1.Peek.1
          { node with Events := node.Events ++ es, Variables := node.Variables ++ vs }) := by
  by_cases h1 : pfx = T_TYPE_FLOAT ∨ pfx = T_TYPE_BOOL
  · generalize hPV : P.ParseVariable tk FlowVariable.new = r
    obtain ⟨ok, P2, tk2, v⟩ := r
    cases ok
    · left
      exact ⟨(false, P2, tk2, node), rfl, fun fuel => by
        rw [Parser.ParseNodeLoop, if_pos h1, hPV]⟩
    · right; right
      obtain ⟨g, pre, e1, e2, e3, e4, e5⟩ := ParseVariable_inv hPV
      refine ⟨P2, tk2, [], [v], .var none g, pre, e1, by simpa [AMember.toks, dirToks] using e2,
        le_of_pool_push e3, List.Forall₂.nil,
        List.Forall₂.cons (Resolves_of_push e3 e5 e4) List.Forall₂.nil, fun fuel => ?_⟩
      rw [Parser.ParseNodeLoop, if_pos h1, hPV]
      simp
  · by_cases h2 : pfx = T_KEYWORD_IN ∨ pfx = T_KEYWORD_OUT
    · obtain ⟨t0, ts, p0, s0⟩ := cached_pending hc hn
        (by rcases h2 with rfl | rfl <;> decide)
      obtain ⟨-, -, g3, -⟩ := GetSym_pending p0
      generalize hP : tk.GetSym.2.Peek = pk
      obtain ⟨sym, tka⟩ := pk
      have ka : tka.pending = ts := (Peek_inv_eq hP).1.trans g3
      have d0 := dirTok_of_sym s0 h2
      by_cases h3 : sym = T_TYPE_BOOL ∨ sym = T_TYPE_FLOAT
      · generalize hPV : P.ParseVariable tka FlowVariable.new = r
        obtain ⟨ok, P2, tk2, v⟩ := r
        cases ok
        · left
          exact ⟨(false, P2, tk2, node), rfl, fun fuel => by
            rw [Parser.ParseNodeLoop, if_neg h1, if_pos h2, hP]
            dsimp only
            rw [if_pos h3, hPV]⟩
        · right; right
          obtain ⟨g, pre, e1, e2, e3, e4, e5⟩ := ParseVariable_inv hPV
          refine ⟨P2, tk2, [], [{ v with HasDirection := some true, Direction := some (dirOf pfx) }],
            .var (some (dirOf pfx)) g, t0 :: pre, by rw [p0, ← ka, e1]; rfl,
            by simp [AMember.toks, dirToks, d0, e2],
            le_of_pool_push e3, List.Forall₂.nil,
            List.Forall₂.cons (Resolves_of_push e3 e5 e4) List.Forall₂.nil, fun fuel => ?_⟩
          rw [Parser.ParseNodeLoop, if_neg h1, if_pos h2, hP]
          dsimp only
          rw [if_pos h3, hPV]
          simp
      · generalize hPE : P.ParseEvent tka FlowEvent.new = r
        obtain ⟨ok, P2, tk2, ev⟩ := r
        cases ok
        · left
          exact ⟨(false, P2, tk2, node), rfl, fun fuel => by
            rw [Parser.ParseNodeLoop, if_neg h1, if_pos h2, hP]
            dsimp only
            rw [if_neg h3, hPE]⟩
        · right; right
          obtain ⟨name, pre, e1, e2, e3, e4, e5⟩ := ParseEvent_inv hPE
          refine ⟨P2, tk2, [{ ev with Direction := some (dirOf pfx) }], [],
            .event (dirOf pfx) name, t0 :: pre, by rw [p0, ← ka, e1]; rfl,
            by simp [AMember.toks, d0, e2],
            by rw [e3]; exact Parser.le_push P name,
            List.Forall₂.cons (by rw [e3, e4]; exact Resolves_push P e5) List.Forall₂.nil,
            List.Forall₂.nil, fun fuel => ?_⟩
          rw [Parser.ParseNodeLoop, if_neg h1, if_pos h2, hP]
          dsimp only
          rw [if_neg h3, hPE]
          simp
    · right; left
      refine ⟨?_, fun fuel => by rw [Parser.ParseNodeLoop, if_neg h1, if_neg h2]⟩
      intro hs
      unfold startsNodeMember at hs
      rcases hs with hs | hs | hs | hs
      · exact h1 (Or.inl hs)
      · exact h1 (Or.inr hs)
      · exact h2 (Or.inl hs)
      · exact h2 (Or.inr hs)

/-- One round of the member loop of `ParseQuery`, entered with the peeked token: the
function returns false, or the loop ends on a token other than `out` with nothing read,
or one member that starts with `out` has been read and stored and the loop goes on with
the token peeked after it. -/
theorem ParseQueryLoop_step (P : Parser) (tk : Tokenizer) (pfx : Symbol_t) (q : FlowQuery)
    (hc : tk.m_HasPeeked = true) (hn : tk.m_NextSym = pfx) :
    (∃ r : Bool × Parser × Tokenizer × FlowQuery, r.1 = false ∧
      ∀ fuel, Parser.ParseQueryLoop (fuel + 1) P tk pfx q = some r) ∨
    (pfx ≠ T_KEYWORD_OUT ∧
      ∀ fuel, Parser.ParseQueryLoop (fuel + 1) P tk pfx q = some (true, P, tk, q)) ∨
    (∃ (P1 : Parser) (tk1 : Tokenizer) (es : List FlowEvent) (vs : List FlowVariable)
        (m : AMember) (pre : List TokRec),
      tk.pending = pre ++ tk1.pending ∧ pre.map TokRec.tok = m.toks ∧ m.isOut ∧ P.le P1 ∧
      EventNames P1 es (eventNames [m]) ∧ VarNames P1 vs (varNames [m]) ∧
      ∀ fuel, Parser.ParseQueryLoop (fuel + 1) P tk pfx q =
        Parser.ParseQueryLoop fuel P1 tk1.Peek.2 tk1.Peek.1
          { q with Variables := q.Variables ++ vs, Events := q.Events ++ es }) := by
  by_cases h2 : pfx = T_KEYWORD_OUT
  · obtain ⟨t0, ts, p0, s0⟩ := cached_pending hc hn (by rw [h2]; decide)
    obtain ⟨-, -, g3, -⟩ := GetSym_pending p0
    generalize hP : tk.GetSym.2.Peek = pk
    obtain ⟨sym, tka⟩ := pk
    have ka : tka.pending = ts := (Peek_inv_eq hP).1.trans g3
    have d0 : t0.tok = dirTok .EVENT_OUT := by
      rw [h2] at s0
      rw [tok_of_kw s0 (by decide) (by decide) (by decide)]; rfl
    by_cases h3 : sym = T_KEYWORD_EVENT
    · generalize hPE : P.ParseEvent tka FlowEvent.new = r
      obtain ⟨ok, P2, tk2, ev⟩ := r
      cases ok
      · left
        exact ⟨(false, P2, tk2, q), rfl, fun fuel => by
          rw [Parser.ParseQueryLoop, if_pos h2, hP]
          dsimp only
          rw [if_pos h3, hPE]⟩
      · right; right
        obtain ⟨name, pre, e1, e2, e3, e4, e5⟩ := ParseEvent_inv hPE
        refine ⟨P2, tk2, [{ ev with Direction := some .EVENT_OUT }], [],
          .event .EVENT_OUT name, t0 :: pre, by rw [p0, ← ka, e1]; rfl,
          by simp [AMember.toks, d0, e2], rfl,
          by rw [e3]; exact Parser.le_push P name,
          List.Forall₂.cons (by rw [e3, e4]; exact Resolves_push P e5) List.Forall₂.nil,
          List.Forall₂.nil, fun fuel => ?_⟩
        rw [Parser.ParseQueryLoop, if_pos h2, hP]
        dsimp only
        rw [if_pos h3, hPE]
        simp
    · generalize hPV : P.ParseVariable tka FlowVariable.new = r
      obtain ⟨ok, P2, tk2, v⟩ := r
      cases ok
      · left
        exact ⟨(false, P2, tk2, q), rfl, fun fuel => by
          rw [Parser.ParseQueryLoop, if_pos h2, hP]
          dsimp only
          rw [if_neg h3, hPV]⟩
      · right; right
        obtain ⟨g, pre, e1, e2, e3, e4, e5⟩ := ParseVariable_inv hPV
        refine ⟨P2, tk2, [], [{ v with HasDirection := some true, Direction := some .EVENT_OUT }],
          .var (some .EVENT_OUT) g, t0 :: pre, by rw [p0, ← ka, e1]; rfl,
          by simp [AMember.toks, dirToks, d0, e2], rfl,
          le_of_pool_push e3, List.Forall₂.nil,
          List.Forall₂.cons (Resolves_of_push e3 e5 e4) List.Forall₂.nil, fun fuel => ?_⟩
        rw [Parser.ParseQueryLoop, if_pos h2, hP]
        dsimp only
        rw [if_neg h3, hPV]
        simp
  · right; left
    exact ⟨h2, fun fuel => by rw [Parser.ParseQueryLoop, if_neg h2]⟩

theorem avar_toks_ne_nil (g : AVar) : g.toks ≠ [] := by
  cases g <;> simp [AVar.toks, GVar.toks]

theorem amember_toks_ne_nil (m : AMember) : m.toks ≠ [] := by
  cases m with
  | var d v =>
    have := avar_toks_ne_nil v
    simp [AMember.toks, this]
  | event d n => simp [AMember.toks]

theorem pre_ne_nil {pre : List TokRec} {m : AMember} (h : pre.map TokRec.tok = m.toks) :
    pre ≠ [] := by
  intro hp
  rw [hp] at h
  exact amember_toks_ne_nil m h.symm

theorem eventNames_cons (m : AMember) (ms : List AMember) :
    eventNames (m :: ms) = eventNames [m] ++ eventNames ms := by
  cases m <;> simp [eventNames]

theorem varNames_cons (m : AMember) (ms : List AMember) :
    varNames (m :: ms) = varNames [m] ++ varNames ms := by
  cases m <;> simp [varNames]

theorem EventNames_mono {P Q : Parser} (h : P.le Q) {es : List FlowEvent}
    {ns : List (List Nat)} (he : EventNames P es ns) : EventNames Q es ns :=
  List.Forall₂.imp (fun _ _ hr => Resolves_mono h hr) he

theorem VarNames_mono {P Q : Parser} (h : P.le Q) {vs : List FlowVariable}
    {ns : List (List Nat)} (he : VarNames P vs ns) : VarNames Q vs ns :=
  List.Forall₂.imp (fun _ _ hr => Resolves_mono h hr) he

theorem Forall₂_append {α β : Type} {R : α → β → Prop} {a1 a2 : List α} {b1 b2 : List β}
    (h1 : List.Forall₂ R a1 b1) (h2 : List.Forall₂ R a2 b2) :
    List.Forall₂ R (a1 ++ a2) (b1 ++ b2) := by
  induction h1 with
  | nil => exact h2
  | cons h _ ih => exact List.Forall₂.cons h ih

/-! ## Termination and soundness of the parser -/

theorem node_eta (node : FlowNode) :
    ({ node with Events := node.Events ++ [], Variables := node.Variables ++ [] } : FlowNode) =
      node := by
  cases node; simp

theorem query_eta (q : FlowQuery) :
    ({ q with Variables := q.Variables ++ [], Events := q.Events ++ [] } : FlowQuery) = q := by
  cases q; simp

/-- With more fuel than pending tokens the member loop of `ParseNode` returns, and when
it ends without `return false` it has read a sequence of accepted members and stored
their names in order. -/
theorem ParseNodeLoop_run (fuel : Nat) :
    ∀ (P : Parser) (tk : Tokenizer) (pfx : Symbol_t) (node : FlowNode),
      tk.m_HasPeeked = true → tk.m_NextSym = pfx → tk.pending.length < fuel →
      ∃ r : Bool × Parser × Tokenizer × FlowNode,
        Parser.ParseNodeLoop fuel P tk pfx node = some r ∧
        (r.1 = true → ∃ (ms : List AMember) (pre : List TokRec) (es : List FlowEvent)
          (vs : List FlowVariable),
          tk.pending = pre ++ r.2.2.1.pending ∧ pre.map TokRec.tok = memberToks ms ∧
          P.le r.2.1 ∧
          r.2.2.2 = { node with Events := node.Events ++ es, Variables := node.Variables ++ vs } ∧
          EventNames r.2.1 es (eventNames ms) ∧ VarNames r.2.1 vs (varNames ms)) := by
  induction fuel with
  | zero => intro P tk pfx node _ _ hl; omega
  | succ k ih =>
    intro P tk pfx node hc hn hl
    rcases ParseNodeLoop_step P tk pfx node hc hn with
      ⟨r, hr, he⟩ | ⟨-, he⟩ | ⟨P1, tk1, es, vs, m, pre, e1, e2, e3, e4, e5, he⟩
    · exact ⟨r, he k, fun ht => by rw [hr] at ht; cases ht⟩
    · exact ⟨_, he k, fun _ => ⟨[], [], [], [], rfl, rfl, parser_le_refl P,
        (node_eta node).symm, List.Forall₂.nil, List.Forall₂.nil⟩⟩
    · have hpre := pre_ne_nil e2
      have hlen : tk1.Peek.2.pending.length < k := by
        rw [Peek_keeps]
        have := congrArg List.length e1
        rw [List.length_append] at this
        have : 0 < pre.length := List.length_pos.mpr hpre
        omega
      obtain ⟨r, hr, hrt⟩ := ih P1 tk1.Peek.2 tk1.Peek.1 _ (Peek_HasPeeked tk1)
        (Peek_NextSym tk1) hlen
      refine ⟨r, by rw [he k]; exact hr, fun ht => ?_⟩
      obtain ⟨ms, pre2, es2, vs2, f1, f2, f3, f4, f5, f6⟩ := hrt ht
      rw [Peek_keeps] at f1
      refine ⟨m :: ms, pre ++ pre2, es ++ es2, vs ++ vs2, ?_, ?_, parser_le_trans e3 f3, ?_, ?_, ?_⟩
      · rw [e1, f1, List.append_assoc]
      · rw [List.map_append, e2, f2]; rfl
      · rw [f4]; simp
      · rw [eventNames_cons]
        exact Forall₂_append (EventNames_mono f3 e4) f5
      · rw [varNames_cons]
        exact Forall₂_append (VarNames_mono f3 e5) f6

/-- With more fuel than pending tokens the member loop of `ParseQuery` returns, and when
it ends without `return false` it has read a sequence of accepted members that all start
with `out` and stored their names in order. -/
theorem ParseQueryLoop_run (fuel : Nat) :
    ∀ (P : Parser) (tk : Tokenizer) (pfx : Symbol_t) (q : FlowQuery),
      tk.m_HasPeeked = true → tk.m_NextSym = pfx → tk.pending.length < fuel →
      ∃ r : Bool × Parser × Tokenizer × FlowQuery,
        Parser.ParseQueryLoop fuel P tk pfx q = some r ∧
        (r.1 = true → ∃ (ms : List AMember) (pre : List TokRec) (es : List FlowEvent)
          (vs : List FlowVariable),
          tk.pending = pre ++ r.2.2.1.pending ∧ pre.map TokRec.tok = memberToks ms ∧
          (∀ m ∈ ms, m.isOut) ∧ P.le r.2.1 ∧
          r.2.2.2 = { q with Variables := q.Variables ++ vs, Events := q.Events ++ es } ∧
          EventNames r.2.1 es (eventNames ms) ∧ VarNames r.2.1 vs (varNames ms)) := by
  induction fuel with
  | zero => intro P tk pfx q _ _ hl; omega
  | succ k ih =>
    intro P tk pfx q hc hn hl
    rcases ParseQueryLoop_step P tk pfx q hc hn with
      ⟨r, hr, he⟩ | ⟨-, he⟩ | ⟨P1, tk1, es, vs, m, pre, e1, e2, eo, e3, e4, e5, he⟩
    · exact ⟨r, he k, fun ht => by rw [hr] at ht; cases ht⟩
    · exact ⟨_, he k, fun _ => ⟨[], [], [], [], rfl, rfl, by simp, parser_le_refl P,
        (query_eta q).symm, List.Forall₂.nil, List.Forall₂.nil⟩⟩
    · have hpre := pre_ne_nil e2
      have hlen : tk1.Peek.2.pending.length < k := by
        rw [Peek_keeps]
        have := congrArg List.length e1
        rw [List.length_append] at this
        have : 0 < pre.length := List.length_pos.mpr hpre
        omega
      obtain ⟨r, hr, hrt⟩ := ih P1 tk1.Peek.2 tk1.Peek.1 _ (Peek_HasPeeked tk1)
        (Peek_NextSym tk1) hlen
      refine ⟨r, by rw [he k]; exact hr, fun ht => ?_⟩
      obtain ⟨ms, pre2, es2, vs2, f1, f2, fo, f3, f4, f5, f6⟩ := hrt ht
      rw [Peek_keeps] at f1
      refine ⟨m :: ms, pre ++ pre2, es ++ es2, vs ++ vs2, ?_, ?_, ?_, parser_le_trans e3 f3,
        ?_, ?_, ?_⟩
      · rw [e1, f1, List.append_assoc]
      · rw [List.map_append, e2, f2]; rfl
      · intro x hx
        rcases List.mem_cons.mp hx with rfl | hx
        · exact eo
        · exact fo x hx
      · rw [f4]; simp
      · rw [eventNames_cons]
        exact Forall₂_append (EventNames_mono f3 e4) f5
      · rw [varNames_cons]
        exact Forall₂_append (VarNames_mono f3 e5) f6

/-- With more fuel than pending tokens `ParseNode` returns, and when it returns true it
has read a node declaration of the accepted language and stored its names. -/
theorem ParseNode_run (fuel : Nat) (P : Parser) (tk : Tokenizer) (node : FlowNode)
    (hl : tk.pending.length < fuel) :
    ∃ r : Bool × Parser × Tokenizer × FlowNode,
      P.ParseNode fuel tk node = some r ∧
      (r.1 = true → ∃ (name : List Nat) (ms : List AMember) (pre : List TokRec)
        (es : List FlowEvent) (vs : List FlowVariable),
        pre ≠ [] ∧ tk.pending = pre ++ r.2.2.1.pending ∧
        pre.map TokRec.tok = (ADecl.node name ms).toks ∧ P.le r.2.1 ∧
        r.2.2.2.Events = node.Events ++ es ∧ r.2.2.2.Variables = node.Variables ++ vs ∧
        r.2.1.Resolves r.2.2.2.NameIndex name ∧
        EventNames r.2.1 es (eventNames ms) ∧ VarNames r.2.1 vs (varNames ms)) := by
  unfold Parser.ParseNode
  generalize hE1 : P.Expect T_KEYWORD_NODE tk = e1
  obtain ⟨ok1, Pa, tka⟩ := e1
  cases ok1
  · exact ⟨_, rfl, fun ht => by cases ht⟩
  dsimp only
  obtain ⟨rfl, -, t1, p1, s1, -⟩ := Expect_inv hE1 (by decide)
  generalize hE2 : Pa.Expect T_IDENT tka = e2
  obtain ⟨ok2, Pb, tkb⟩ := e2
  cases ok2
  · exact ⟨_, rfl, fun ht => by cases ht⟩
  dsimp only
  obtain ⟨rfl, -, t2, p2, s2, r2⟩ := Expect_inv hE2 (by decide)
  cases hL : tkb.Lookup tkb.SymIndex with
  | none => exact ⟨_, rfl, fun ht => by cases ht⟩
  | some n =>
    rw [InsertName_some]
    dsimp only
    have ht2 := Lookup_text r2 hL
    have hn : (0 : Nat) ∉ n := record_text _ _ (r2 ▸ ht2)
    generalize hE3 : (Pb.push n).Expect T_LEFT_CURLY_BRACKET tkb = e3
    obtain ⟨ok3, Pc, tkc⟩ := e3
    cases ok3
    · exact ⟨_, rfl, fun ht => by cases ht⟩
    dsimp only
    obtain ⟨rfl, -, t3, p3, s3, -⟩ := Expect_inv hE3 (by decide)
    have hlen : tkc.Peek.2.pending.length < fuel := by
      rw [Peek_keeps]
      rw [p1, p2, p3] at hl
      simp only [List.length_cons] at hl
      omega
    obtain ⟨r, hr, hrt⟩ := ParseNodeLoop_run fuel (Pb.push n) tkc.Peek.2 tkc.Peek.1
      { node with NameIndex := some Pb.m_StringPool.blocks.length }
      (Peek_HasPeeked tkc) (Peek_NextSym tkc) hlen
    rw [hr]
    obtain ⟨ok4, Pd, tkd, nd⟩ := r
    cases ok4
    · exact ⟨_, rfl, fun ht => by cases ht⟩
    dsimp only
    obtain ⟨ms, pre, es, vs, f1, f2, f3, f4, f5, f6⟩ := hrt rfl
    rw [Peek_keeps] at f1
    dsimp only at f1 f2 f3 f4 f5 f6
    generalize hE5 : Pd.Expect T_RIGHT_CURLY_BRACKET tkd = e5
    obtain ⟨ok5, Pe, tke⟩ := e5
    refine ⟨_, rfl, fun ht => ?_⟩
    have ht' : ok5 = true := ht
    subst ht'
    obtain ⟨rfl, -, t5, p5, s5, -⟩ := Expect_inv hE5 (by decide)
    refine ⟨n, ms, t1 :: t2 :: t3 :: (pre ++ [t5]), es, vs, by simp, ?_, ?_,
      parser_le_trans (Parser.le_push Pb n) f3, by rw [f4], by rw [f4], ?_, f5, f6⟩
    · rw [p1, p2, p3, f1, p5]; simp
    · simp only [List.map_cons, List.map_append, List.map_nil, ADecl.toks, f2]
      rw [tok_of_kw s1 (by decide) (by decide) (by decide), tok_of_ident s2 ht2,
        tok_of_kw s3 (by decide) (by decide) (by decide),
        tok_of_kw s5 (by decide) (by decide) (by decide)]
      simp
    · rw [f4]
      exact Resolves_mono f3 (Resolves_push Pb hn)

/-- With more fuel than pending tokens `ParseQuery` returns, and when it returns true it
has read a query declaration of the accepted language, whose members all start with
`out`, and stored its names. -/
theorem ParseQuery_run (fuel : Nat) (P : Parser) (tk : Tokenizer) (q : FlowQuery)
    (hl : tk.pending.length < fuel) :
    ∃ r : Bool × Parser × Tokenizer × FlowQuery,
      P.ParseQuery fuel tk q = some r ∧
      (r.1 = true → ∃ (name : List Nat) (ms : List AMember) (pre : List TokRec)
        (es : List FlowEvent) (vs : List FlowVariable),
        pre ≠ [] ∧ tk.pending = pre ++ r.2.2.1.pending ∧
        pre.map TokRec.tok = (ADecl.query name ms).toks ∧ (∀ m ∈ ms, m.isOut) ∧ P.le r.2.1 ∧
        r.2.2.2.Events = q.Events ++ es ∧ r.2.2.2.Variables = q.Variables ++ vs ∧
        r.2.1.Resolves r.2.2.2.NameIndex name ∧
        EventNames r.2.1 es (eventNames ms) ∧ VarNames r.2.1 vs (varNames ms)) := by
  unfold Parser.ParseQuery
  generalize hE1 : P.Expect T_KEYWORD_QUERY tk = e1
  obtain ⟨ok1, Pa, tka⟩ := e1
  cases ok1
  · exact ⟨_, rfl, fun ht => by cases ht⟩
  dsimp only
  obtain ⟨rfl, -, t1, p1, s1, -⟩ := Expect_inv hE1 (by decide)
  generalize hE2 : Pa.Expect T_IDENT tka = e2
  obtain ⟨ok2, Pb, tkb⟩ := e2
  cases ok2
  · exact ⟨_, rfl, fun ht => by cases ht⟩
  dsimp only
  obtain ⟨rfl, -, t2, p2, s2, r2⟩ := Expect_inv hE2 (by decide)
  cases hL : tkb.Lookup tkb.SymIndex with
  | none => exact ⟨_, rfl, fun ht => by cases ht⟩
  | some n =>
    rw [InsertName_some]
    dsimp only
    have ht2 := Lookup_text r2 hL
    have hn : (0 : Nat) ∉ n := record_text _ _ (r2 ▸ ht2)
    generalize hE3 : (Pb.push n).Expect T_LEFT_CURLY_BRACKET tkb = e3
    obtain ⟨ok3, Pc, tkc⟩ := e3
    cases ok3
    · exact ⟨_, rfl, fun ht => by cases ht⟩
    dsimp only
    obtain ⟨rfl, -, t3, p3, s3, -⟩ := Expect_inv hE3 (by decide)
    have hlen : tkc.Peek.2.pending.length < fuel := by
      rw [Peek_keeps]
      rw [p1, p2, p3] at hl
      simp only [List.length_cons] at hl
      omega
    obtain ⟨r, hr, hrt⟩ := ParseQueryLoop_run fuel (Pb.push n) tkc.Peek.2 tkc.Peek.1
      { q with NameIndex := some Pb.m_StringPool.blocks.length }
      (Peek_HasPeeked tkc) (Peek_NextSym tkc) hlen
    rw [hr]
    obtain ⟨ok4, Pd, tkd, nd⟩ := r
    cases ok4
    · exact ⟨_, rfl, fun ht => by cases ht⟩
    dsimp only
    obtain ⟨ms, pre, es, vs, f1, f2, fo, f3, f4, f5, f6⟩ := hrt rfl
    rw [Peek_keeps] at f1
    dsimp only at f1 f2 f3 f4 f5 f6
    generalize hE5 : Pd.Expect T_RIGHT_CURLY_BRACKET tkd = e5
    obtain ⟨ok5, Pe, tke⟩ := e5
    refine ⟨_, rfl, fun ht => ?_⟩
    have ht' : ok5 = true := ht
    subst ht'
    obtain ⟨rfl, -, t5, p5, s5, -⟩ := Expect_inv hE5 (by decide)
    refine ⟨n, ms, t1 :: t2 :: t3 :: (pre ++ [t5]), es, vs, by simp, ?_, ?_, fo,
      parser_le_trans (Parser.le_push Pb n) f3, by rw [f4], by rw [f4], ?_, f5, f6⟩
    · rw [p1, p2, p3, f1, p5]; simp
    · simp only [List.map_cons, List.map_append, List.map_nil, ADecl.toks, f2]
      rw [tok_of_kw s1 (by decide) (by decide) (by decide), tok_of_ident s2 ht2,
        tok_of_kw s3 (by decide) (by decide) (by decide),
        tok_of_kw s5 (by decide) (by decide) (by decide)]
      simp
    · rw [f4]
      exact Resolves_mono f3 (Resolves_push Pb hn)

theorem NodeNames_mono {P Q : Parser} (h : P.le Q) {n : FlowNode}
    {g : List Nat × List AMember} (hn : NodeNames P n g) : NodeNames Q n g :=
  ⟨Resolves_mono h hn.1, EventNames_mono h hn.2.1, VarNames_mono h hn.2.2⟩

theorem QueryNames_mono {P Q : Parser} (h : P.le Q) {q : FlowQuery}
    {g : List Nat × List AMember} (hn : QueryNames P q g) : QueryNames Q q g :=
  ⟨Resolves_mono h hn.1, EventNames_mono h hn.2.1, VarNames_mono h hn.2.2⟩

theorem accNodes_cons (d : ADecl) (ds : List ADecl) :
    accNodes (d :: ds) = accNodes [d] ++ accNodes ds := by
  cases d <;> simp [accNodes]

theorem accQueries_cons (d : ADecl) (ds : List ADecl) :
    accQueries (d :: ds) = accQueries [d] ++ accQueries ds := by
  cases d <;> simp [accQueries]

/-- One round of the loop of `ParseDocument`, entered with the peeked token and with
more fuel for the member loops than pending tokens: the function returns false, or the
loop ends at the end of input with nothing pending, or one declaration of the accepted
language has been read and stored and the loop goes on with the token peeked after
it. -/
theorem ParseDocumentLoop_step (inner : Nat) (P : Parser) (tk : Tokenizer) (sym : Symbol_t)
    (doc : FlowDocument) (hc : tk.m_HasPeeked = true) (hn : tk.m_NextSym = sym)
    (hi : tk.pending.length < inner) :
    (∃ r : Bool × Parser × Tokenizer × FlowDocument, r.1 = false ∧
      ∀ fuel, Parser.ParseDocumentLoop inner (fuel + 1) P tk sym doc = some r) ∨
    (sym = T_EOF ∧ tk.pending = [] ∧
      ∀ fuel, Parser.ParseDocumentLoop inner (fuel + 1) P tk sym doc = some (true, P, tk, doc)) ∨
    (∃ (P1 : Parser) (tk1 : Tokenizer) (d : ADecl) (pre : List TokRec) (ns : List FlowNode)
        (qs : List FlowQuery),
      pre ≠ [] ∧ tk.pending = pre ++ tk1.pending ∧ pre.map TokRec.tok = d.toks ∧
      d.WellFormed ∧ P.le P1 ∧
      List.Forall₂ (NodeNames P1) ns (accNodes [d]) ∧
      List.Forall₂ (QueryNames P1) qs (accQueries [d]) ∧
      ∀ fuel, Parser.ParseDocumentLoop inner (fuel + 1) P tk sym doc =
        Parser.ParseDocumentLoop inner fuel P1 tk1.Peek.2 tk1.Peek.1
          ⟨doc.Nodes ++ ns, doc.Queries ++ qs⟩) := by
  by_cases h0 : sym = T_EOF
  · right; left
    have hp : tk.pending = [] := by
      have h := Peek_of_peeked tk hc
      rw [hn] at h
      exact (Peek_inv_eq h).2.2 h0
    exact ⟨h0, hp, fun fuel => by rw [Parser.ParseDocumentLoop, if_neg (not_not.mpr h0)]⟩
  by_cases h1 : sym = T_KEYWORD_NODE
  · obtain ⟨r, hr, hrt⟩ := ParseNode_run inner P tk FlowNode.new hi
    obtain ⟨ok, P2, tk2, nd⟩ := r
    cases ok
    · left
      exact ⟨(false, P2, tk2, doc), rfl, fun fuel => by
        rw [Parser.ParseDocumentLoop, if_pos h0, if_pos h1, hr]⟩
    · right; right
      obtain ⟨name, ms, pre, es, vs, f0, f1, f2, f3, f4, f5, f6, f7, f8⟩ := hrt rfl
      dsimp only at f1 f3 f4 f5 f6 f7 f8
      simp only [FlowNode.new, List.nil_append] at f4 f5
      refine ⟨P2, tk2, .node name ms, pre, [nd], [], f0, f1, f2, trivial, f3,
        List.Forall₂.cons ⟨f6, by rw [f4]; exact f7, by rw [f5]; exact f8⟩ List.Forall₂.nil,
        List.Forall₂.nil, fun fuel => ?_⟩
      rw [Parser.ParseDocumentLoop, if_pos h0, if_pos h1, hr]
      simp
  · by_cases h2 : sym = T_KEYWORD_QUERY
    · obtain ⟨r, hr, hrt⟩ := ParseQuery_run inner P tk FlowQuery.new hi
      obtain ⟨ok, P2, tk2, qr⟩ := r
      cases ok
      · left
        exact ⟨(false, P2, tk2, doc), rfl, fun fuel => by
          rw [Parser.ParseDocumentLoop, if_pos h0, if_neg h1, if_pos h2, hr]⟩
      · right; right
        obtain ⟨name, ms, pre, es, vs, f0, f1, f2, fo, f3, f4, f5, f6, f7, f8⟩ := hrt rfl
        dsimp only at f1 f3 f4 f5 f6 f7 f8
        simp only [FlowQuery.new, List.nil_append] at f4 f5
        refine ⟨P2, tk2, .query name ms, pre, [], [qr], f0, f1, f2, fo, f3,
          List.Forall₂.nil,
          List.Forall₂.cons ⟨f6, by rw [f4]; exact f7, by rw [f5]; exact f8⟩ List.Forall₂.nil,
          fun fuel => ?_⟩
        rw [Parser.ParseDocumentLoop, if_pos h0, if_neg h1, if_pos h2, hr]
        simp
    · left
      exact ⟨(false, P.Unexpected sym tk.Position, tk, doc), rfl, fun fuel => by
        rw [Parser.ParseDocumentLoop, if_pos h0, if_neg h1, if_neg h2]⟩

/-- With more fuel than pending tokens the loop of `ParseDocument` returns, and when it
returns true the pending tokens were a sequence of accepted declarations, whose names
are stored in order. -/
theorem ParseDocumentLoop_run (inner fuel : Nat) :
    ∀ (P : Parser) (tk : Tokenizer) (sym : Symbol_t) (doc : FlowDocument),
      tk.m_HasPeeked = true → tk.m_NextSym = sym → tk.pending.length < inner →
      tk.pending.length < fuel →
      ∃ r : Bool × Parser × Tokenizer × FlowDocument,
        Parser.ParseDocumentLoop inner fuel P tk sym doc = some r ∧
        (r.1 = true → ∃ (ds : List ADecl) (ns : List FlowNode) (qs : List FlowQuery),
          tk.pending.map TokRec.tok = accToks ds ∧ (∀ d ∈ ds, d.WellFormed) ∧ P.le r.2.1 ∧
          r.2.2.2 = ⟨doc.Nodes ++ ns, doc.Queries ++ qs⟩ ∧
          List.Forall₂ (NodeNames r.2.1) ns (accNodes ds) ∧
          List.Forall₂ (QueryNames r.2.1) qs (accQueries ds)) := by
  induction fuel with
  | zero => intro P tk sym doc _ _ _ hl; omega
  | succ k ih =>
    intro P tk sym doc hc hn hi hl
    rcases ParseDocumentLoop_step inner P tk sym doc hc hn hi with
      ⟨r, hr, he⟩ | ⟨-, hp, he⟩ | ⟨P1, tk1, d, pre, ns, qs, e0, e1, e2, ew, e3, e4, e5, he⟩
    · exact ⟨r, he k, fun ht => by rw [hr] at ht; cases ht⟩
    · refine ⟨_, he k, fun _ => ⟨[], [], [], by rw [hp]; rfl, by simp, parser_le_refl P, ?_,
        List.Forall₂.nil, List.Forall₂.nil⟩⟩
      cases doc; simp
    · have hlen : tk1.Peek.2.pending.length = tk1.pending.length := by rw [Peek_keeps]
      have hsum := congrArg List.length e1
      rw [List.length_append] at hsum
      have hpos : 0 < pre.length := List.length_pos.mpr e0
      obtain ⟨r, hr, hrt⟩ := ih P1 tk1.Peek.2 tk1.Peek.1 ⟨doc.Nodes ++ ns, doc.Queries ++ qs⟩
        (Peek_HasPeeked tk1) (Peek_NextSym tk1) (by omega) (by omega)
      refine ⟨r, by rw [he k]; exact hr, fun ht => ?_⟩
      obtain ⟨ds, ns2, qs2, f1, fw, f3, f4, f5, f6⟩ := hrt ht
      rw [Peek_keeps] at f1
      refine ⟨d :: ds, ns ++ ns2, qs ++ qs2, ?_, ?_, parser_le_trans e3 f3, ?_, ?_, ?_⟩
      · rw [e1, List.map_append, e2, f1]; rfl
      · intro x hx
        rcases List.mem_cons.mp hx with rfl | hx
        · exact ew
        · exact fw x hx
      · rw [f4]; simp
      · rw [accNodes_cons]
        exact Forall₂_append (List.Forall₂.imp (fun _ _ h => NodeNames_mono f3 h) e4) f5
      · rw [accQueries_cons]
        exact Forall₂_append (List.Forall₂.imp (fun _ _ h => QueryNames_mono f3 h) e5) f6

/-- The function `Parse` returns for every source, and when it returns true the tokens of the
source are a sequence of accepted declarations whose names are stored in order. -/
theorem Parse_run (P : Parser) (src : List Nat) (doc : FlowDocument) :
    ∃ r : Bool × Parser × FlowDocument, P.Parse src doc = some r ∧
      (r.1 = true → ∃ (ds : List ADecl) (ns : List FlowNode) (qs : List FlowQuery),
        (tokensOf src).map TokRec.tok = accToks ds ∧ (∀ d ∈ ds, d.WellFormed) ∧
        r.2.2 = ⟨doc.Nodes ++ ns, doc.Queries ++ qs⟩ ∧
        List.Forall₂ (NodeNames r.2.1) ns (accNodes ds) ∧
        List.Forall₂ (QueryNames r.2.1) qs (accQueries ds)) := by
  have hlen : (Tokenizer.new src).Peek.2.pending.length < src.length + 1 := by
    rw [Peek_keeps]
    have := tokensOf_length src
    unfold tokensOf at this
    omega
  obtain ⟨r, hr, hrt⟩ := ParseDocumentLoop_run (src.length + 1) (src.length + 1)
    { P with m_ErrorString := "" } (Tokenizer.new src).Peek.2 (Tokenizer.new src).Peek.1 doc
    (Peek_HasPeeked _) (Peek_NextSym _) hlen hlen
  unfold Parser.Parse Parser.ParseDocument
  rw [hr]
  obtain ⟨ok, P1, tk1, doc1⟩ := r
  refine ⟨(ok, P1, doc1), rfl, fun ht => ?_⟩
  obtain ⟨ds, ns, qs, f1, fw, -, f4, f5, f6⟩ := hrt ht
  rw [Peek_keeps] at f1
  exact ⟨ds, ns, qs, f1, fw, f4, f5, f6⟩

/-! ## Positions -/

theorem after_nil (p : PositionInfo) : p.after [] = p := rfl

theorem after_cons (p : PositionInfo) (c : Nat) (cs : List Nat) :
    p.after (c :: cs) = (p.advance c).after cs := rfl

theorem after_append (p : PositionInfo) (a b : List Nat) :
    p.after (a ++ b) = (p.after a).after b := by
  unfold PositionInfo.after
  rw [List.foldl_append]

theorem rowOf_snoc (cs : List Nat) (c : Nat) :
    rowOf (cs ++ [c]) = rowOf cs + (if c = 10 then 1 else 0) := by
  unfold rowOf
  rw [List.count_append]
  by_cases h : c = 10
  · simp [h]
  · simp [h, List.count_cons]

theorem lastLine_snoc (cs : List Nat) (c : Nat) :
    lastLine (cs ++ [c]) = if c = 10 then [] else lastLine cs ++ [c] := by
  unfold lastLine
  rw [List.reverse_append]
  by_cases h : c = 10
  · simp [h, List.takeWhile_cons]
  · simp [h, List.takeWhile_cons]

theorem colOf_snoc (cs : List Nat) (c : Nat) :
    colOf (cs ++ [c]) = if c = 10 then 0 else colOf cs + (if c = 9 then 4 else 1) := by
  unfold colOf
  rw [lastLine_snoc]
  by_cases h : c = 10
  · simp [h]
  · simp [h]

/-- The position after a text, from the start: the row is the number of newlines and
the column is the width of the last line. -/
theorem after_spec (cs : List Nat) :
    (PositionInfo.mk 0 0).after cs = ⟨rowOf cs, colOf cs⟩ := by
  induction cs using List.reverseRecOn with
  | nil => rfl
  | append_singleton cs c ih =>
    rw [after_append, ih, after_cons, after_nil, rowOf_snoc, colOf_snoc]
    unfold PositionInfo.advance
    by_cases h : c = 10
    · simp [h]
    · by_cases h9 : c = 9
      · simp [h9]
      · simp [h, h9]

theorem Tracks.refl (s : List Nat) (p : PositionInfo) : Tracks s p s p := ⟨[], rfl, rfl⟩

theorem Tracks.trans {s s1 s2 : List Nat} {p p1 p2 : PositionInfo} (h1 : Tracks s p s1 p1)
    (h2 : Tracks s1 p1 s2 p2) : Tracks s p s2 p2 := by
  obtain ⟨a, ha, hpa⟩ := h1
  obtain ⟨b, hb, hpb⟩ := h2
  exact ⟨a ++ b, by rw [ha, hb, List.append_assoc], by rw [hpb, hpa, after_append]⟩

theorem Tracks.step (c : Nat) (s : List Nat) (p : PositionInfo) :
    Tracks (c :: s) p s (p.advance c) := ⟨[c], rfl, rfl⟩

theorem skipSpace_tracks (c : Nat) (s : List Nat) (p : PositionInfo) :
    Tracks s p (skipSpace c s p).2.1 (skipSpace c s p).2.2 := by
  induction s generalizing c p with
  | nil =>
    rw [skipSpace]
    split_ifs <;> exact Tracks.refl _ _
  | cons c1 rest ih =>
    rw [skipSpace]
    split_ifs
    · exact (Tracks.step c1 rest p).trans (ih _ _)
    · exact Tracks.refl _ _

theorem identLoop_tracks (s : List Nat) (p : PositionInfo) (v : List Nat) :
    Tracks s p (identLoop s p v).1 (identLoop s p v).2.1 := by
  induction s generalizing p v with
  | nil => exact Tracks.refl _ _
  | cons c rest ih =>
    rw [identLoop]
    split
    · split_ifs
      · exact (Tracks.step c rest p).trans (ih _ _)
      · exact Tracks.refl _ _
    · exact Tracks.refl _ _

theorem numericLoop_tracks (s : List Nat) (p : PositionInfo) (v : List Nat) :
    Tracks s p (numericLoop s p v).2.1 (numericLoop s p v).2.2.1 := by
  induction s generalizing p v with
  | nil => exact Tracks.refl _ _
  | cons c rest ih =>
    rw [numericLoop]
    split
    · split_ifs
      · exact (Tracks.step c rest p).trans (ih _ _)
      · exact Tracks.step c rest p
      · exact Tracks.refl _ _
    · exact Tracks.refl _ _

theorem floatLoop_tracks (s : List Nat) (p : PositionInfo) (v : List Nat) :
    Tracks s p (floatLoop s p v).1 (floatLoop s p v).2.1 := by
  induction s generalizing p v with
  | nil => exact Tracks.refl _ _
  | cons c rest ih =>
    rw [floatLoop]
    split
    · split_ifs
      · exact (Tracks.step c rest p).trans (ih _ _)
      · exact Tracks.step c rest p
      · exact Tracks.refl _ _
    · exact Tracks.refl _ _

theorem tokIdent_tracks (tk : Tokenizer) (v : List Nat) :
    Tracks tk.m_Stream tk.m_Position (tk.tokIdent v).2.m_Stream (tk.tokIdent v).2.m_Position := by
  unfold Tokenizer.tokIdent
  dsimp only
  split <;> exact identLoop_tracks _ _ _

theorem tokFloat_tracks (tk : Tokenizer) (v : List Nat) :
    Tracks tk.m_Stream tk.m_Position (tk.tokFloat v).2.m_Stream (tk.tokFloat v).2.m_Position := by
  unfold Tokenizer.tokFloat
  dsimp only
  split <;> exact floatLoop_tracks _ _ _

theorem tokNumeric_tracks (tk : Tokenizer) (v : List Nat) :
    Tracks tk.m_Stream tk.m_Position (tk.tokNumeric v).2.m_Stream
      (tk.tokNumeric v).2.m_Position := by
  unfold Tokenizer.tokNumeric
  dsimp only
  split
  · split <;> exact numericLoop_tracks _ _ _
  · exact (numericLoop_tracks tk.m_Stream tk.m_Position v).trans
      (tokFloat_tracks ⟨_, _, _, _, _, _, _⟩ _)

theorem followedByEq_tracks (tk : Tokenizer) (a b : Symbol_t) :
    Tracks tk.m_Stream tk.m_Position (tk.followedByEq a b).2.m_Stream
      (tk.followedByEq a b).2.m_Position := by
  unfold Tokenizer.followedByEq Tokenizer.GetChar
  split
  · split
    · split
      · exact Tracks.refl _ _
      · rename_i c rest hs
        rw [hs]
        exact Tracks.step c rest _
    · exact Tracks.refl _ _
  · exact Tracks.refl _ _

theorem tokInitial_tracks (tk : Tokenizer) (c : Nat) :
    Tracks tk.m_Stream tk.m_Position (tk.tokInitial c).2.m_Stream
      (tk.tokInitial c).2.m_Position := by
  unfold Tokenizer.tokInitial
  split
  · exact Tracks.refl _ _
  · split_ifs
    · exact followedByEq_tracks _ _ _
    · exact followedByEq_tracks _ _ _
    · exact followedByEq_tracks _ _ _
    · exact tokNumeric_tracks { tk with m_State := .TOK_NUMERIC } [c]
    · exact tokIdent_tracks { tk with m_State := .TOK_IDENT } [c]
    · exact tokIdent_tracks _ _

/-- Scanning consumes a prefix of the stream and advances the position over it. -/
theorem scan_tracks (tk : Tokenizer) :
    Tracks tk.m_Stream tk.m_Position tk.scan.2.m_Stream tk.scan.2.m_Position := by
  unfold Tokenizer.scan
  split
  · exact Tracks.refl _ _
  · rename_i c rest hs
    rw [hs]
    dsimp only
    have h1 := (Tracks.step c rest tk.m_Position).trans
      (skipSpace_tracks c rest (tk.m_Position.advance c))
    split
    · exact h1
    · exact h1.trans (tokInitial_tracks ⟨_, _, _, _, _, _, _⟩ _)

theorem GetSym_tracks (tk : Tokenizer) :
    Tracks tk.m_Stream tk.m_Position tk.GetSym.2.m_Stream tk.GetSym.2.m_Position := by
  unfold Tokenizer.GetSym
  dsimp only
  split_ifs
  · exact Tracks.refl _ _
  · exact scan_tracks { tk with m_State := .TOK_INITIAL }

theorem Peek_tracks (tk : Tokenizer) :
    Tracks tk.m_Stream tk.m_Position tk.Peek.2.m_Stream tk.Peek.2.m_Position := by
  unfold Tokenizer.Peek
  split_ifs
  · exact Tracks.refl _ _
  · exact GetSym_tracks tk

theorem GetSym_settled (tk : Tokenizer) : tk.GetSym.2.Settled := by
  intro h
  rw [GetSym_unpeeked] at h
  cases h

theorem Peek_settled {tk : Tokenizer} (hs : tk.Settled) : tk.Peek.2.Settled := by
  unfold Tokenizer.Peek
  by_cases hp : tk.m_HasPeeked = true
  · rw [if_pos hp]; exact hs
  · rw [if_neg hp]
    intro _ he
    have hp0 : tk.m_HasPeeked = false := by simpa using hp
    exact (GetSym_eof_unpeeked hp0 he).2

theorem GetSym_eof_settled {tk : Tokenizer} (hs : tk.Settled) (he : tk.GetSym.1 = T_EOF) :
    tk.GetSym.2.m_Stream = [] := by
  by_cases hp : tk.m_HasPeeked = true
  · unfold Tokenizer.GetSym at he ⊢
    dsimp only at he ⊢
    rw [if_pos hp] at he ⊢
    exact hs hp he
  · exact (GetSym_eof_unpeeked (by simpa using hp) he).2

theorem calls_inv (src : List Nat) (cs : List TokCall) :
    ∀ tk : Tokenizer, Tracks src ⟨0, 0⟩ tk.m_Stream tk.m_Position → tk.Settled →
      Tracks src ⟨0, 0⟩ (tk.calls cs).m_Stream (tk.calls cs).m_Position ∧
        (tk.calls cs).Settled := by
  induction cs with
  | nil => intro tk h1 h2; exact ⟨h1, h2⟩
  | cons c cs ih =>
    intro tk h1 h2
    cases c with
    | getSym => exact ih _ (h1.trans (GetSym_tracks tk)) (GetSym_settled tk)
    | peek => exact ih _ (h1.trans (Peek_tracks tk)) (Peek_settled h2)

/-- A `GetSym` that reads the stream either reports the end of input with the stream
exhausted or consumes a non-empty prefix of the stream. -/
theorem GetSym_consumes (tk : Tokenizer) (hp : tk.m_HasPeeked = false) :
    (tk.GetSym.1 = T_EOF ∧ tk.GetSym.2.m_Stream = []) ∨
    ∃ consumed, consumed ≠ [] ∧ tk.m_Stream = consumed ++ tk.GetSym.2.m_Stream := by
  by_cases he : tk.GetSym.1 = T_EOF
  · exact Or.inl ⟨he, (GetSym_eof_unpeeked hp he).2⟩
  · right
    obtain ⟨consumed, h1, -⟩ := GetSym_tracks tk
    refine ⟨consumed, ?_, h1⟩
    rintro rfl
    have hlt : tk.GetSym.2.m_Stream.length < tk.m_Stream.length := by
      unfold Tokenizer.GetSym at he ⊢
      dsimp only at he ⊢
      rw [if_neg (by rw [hp]; decide)] at he ⊢
      exact scan_length _ he
    rw [List.nil_append] at h1
    rw [← h1] at hlt
    exact absurd hlt (lt_irrefl _)

/-! ## Keywords and identifiers -/

theorem skipSpace_nonblank (c : Nat) (s : List Nat) (p : PositionInfo)
    (hc : ¬ (c = 32 ∨ c = 9 ∨ c = 10 ∨ c = 13)) : skipSpace c s p = (some c, s, p) := by
  cases s with
  | nil => rw [skipSpace, if_neg hc]
  | cons c1 rest => rw [skipSpace, if_neg hc]

theorem skipSpace_blanks (c : Nat) (tail : List Nat)
    (hc : ¬ (c = 32 ∨ c = 9 ∨ c = 10 ∨ c = 13)) (bs : List Nat) :
    ∀ (b : Nat) (p : PositionInfo), (b = 32 ∨ b = 9 ∨ b = 10 ∨ b = 13) →
      (∀ x ∈ bs, x = 32 ∨ x = 9 ∨ x = 10 ∨ x = 13) →
      ∃ p1, skipSpace b (bs ++ c :: tail) p = (some c, tail, p1) := by
  induction bs with
  | nil =>
    intro b p hb _
    rw [List.nil_append, skipSpace, if_pos hb, skipSpace_nonblank c tail _ hc]
    exact ⟨_, rfl⟩
  | cons b1 bs ih =>
    intro b p hb hbs
    rw [List.cons_append, skipSpace, if_pos hb]
    exact ih b1 _ (hbs b1 (List.mem_cons_self _ _))
      (fun x hx => hbs x (List.mem_cons_of_mem _ hx))

/-- Scanning skips leading white space and hands the first other character to case
`TOK_INITIAL`. -/
theorem scan_skip (tk : Tokenizer) (blanks : List Nat) (c : Nat) (tail : List Nat)
    (hs : tk.m_Stream = blanks ++ c :: tail)
    (hb : ∀ x ∈ blanks, x = 32 ∨ x = 9 ∨ x = 10 ∨ x = 13)
    (hc : ¬ (c = 32 ∨ c = 9 ∨ c = 10 ∨ c = 13)) :
    ∃ p1, tk.scan = Tokenizer.tokInitial { tk with m_Stream := tail, m_Position := p1 } c := by
  unfold Tokenizer.scan
  cases blanks with
  | nil =>
    rw [List.nil_append] at hs
    rw [hs]
    dsimp only
    rw [skipSpace_nonblank c tail _ hc]
    exact ⟨_, rfl⟩
  | cons b bs =>
    rw [List.cons_append] at hs
    rw [hs]
    dsimp only
    obtain ⟨p1, h1⟩ := skipSpace_blanks c tail hc bs b (tk.m_Position.advance b)
      (hb b (List.mem_cons_self _ _)) (fun x hx => hb x (List.mem_cons_of_mem _ hx))
    rw [h1]
    exact ⟨p1, rfl⟩

theorem identLoop_value (s : List Nat) (p : PositionInfo) (v : List Nat) :
    ∃ consumed, s = consumed ++ (identLoop s p v).1 ∧ (identLoop s p v).2.2 = v ++ consumed := by
  induction s generalizing p v with
  | nil => exact ⟨[], rfl, by simp [identLoop]⟩
  | cons c rest ih =>
    rw [identLoop]
    split
    · split_ifs
      · obtain ⟨consumed, h1, h2⟩ := ih (p.advance c) (v ++ [c])
        refine ⟨c :: consumed, ?_, ?_⟩
        · rw [List.cons_append, ← h1]
        · rw [h2, List.append_assoc]; rfl
      · exact ⟨[], rfl, by simp⟩
    · exact ⟨[], rfl, by simp⟩

theorem skipSpace_split (c : Nat) (s : List Nat) (p : PositionInfo) (c1 : Nat)
    (h : (skipSpace c s p).1 = some c1) :
    ∃ pre, c :: s = pre ++ c1 :: (skipSpace c s p).2.1 := by
  induction s generalizing c p with
  | nil =>
    rw [skipSpace] at h ⊢
    split_ifs at h ⊢
    cases h
    exact ⟨[], rfl⟩
  | cons x rest ih =>
    rw [skipSpace] at h ⊢
    split_ifs at h ⊢
    · obtain ⟨pre, hp⟩ := ih x _ h
      exact ⟨c :: pre, by rw [List.cons_append, ← hp]⟩
    · cases h
      exact ⟨[], rfl⟩

theorem tokIdent_text (tk : Tokenizer) (v : List Nat) (hv : (0 : Nat) ∉ v)
    (hc : tk.m_SymbolTable.Consistent) (h : (tk.tokIdent v).1 = T_IDENT) :
    ∃ consumed rest, tk.m_Stream = consumed ++ rest ∧
      (tk.tokIdent v).2.Lookup (tk.tokIdent v).2.SymIndex = some (v ++ consumed) := by
  obtain ⟨consumed, h1, h2⟩ := identLoop_value tk.m_Stream tk.m_Position v
  refine ⟨consumed, _, h1, ?_⟩
  rw [← h2]
  exact (tokIdent_ident tk v hv hc).2 h

theorem tokInitial_text (tk : Tokenizer) (c : Nat) (hc : tk.m_SymbolTable.Consistent)
    (h : (tk.tokInitial c).1 = T_IDENT) :
    ∃ w, (tk.tokInitial c).2.Lookup (tk.tokInitial c).2.SymIndex = some w ∧
      Within w (c :: tk.m_Stream) := by
  unfold Tokenizer.tokInitial at h ⊢
  cases hk : lookupTable c SingleTokens with
  | some s =>
    rw [hk] at h
    have hs' : s = T_IDENT := h
    have := lookupTable_mem _ _ hk
    rw [hs'] at this
    exact absurd this (by decide)
  | none =>
    rw [hk] at h
    dsimp only at h ⊢
    split_ifs at h ⊢ with h1 h2 h3 h4 h5
    · rcases (followedByEq_table tk T_EQUAL T_ASSIGN).2 with e | e <;> rw [e] at h <;> cases h
    · rcases (followedByEq_table tk T_LEQ T_LESS).2 with e | e <;> rw [e] at h <;> cases h
    · rcases (followedByEq_table tk T_GEQ T_GRT).2 with e | e <;> rw [e] at h <;> cases h
    · exact absurd h (tokNumeric_table _ _).2
    · have hv : (0 : Nat) ∉ [c] := by
        intro hm
        simp only [List.mem_singleton] at hm
        subst hm
        revert h5
        decide
      obtain ⟨consumed, rest, e1, e2⟩ :=
        tokIdent_text { tk with m_State := .TOK_IDENT } [c] hv hc h
      refine ⟨_, e2, [], rest, ?_⟩
      have e1' : tk.m_Stream = consumed ++ rest := e1
      rw [e1']; simp
    · obtain ⟨consumed, rest, e1, e2⟩ := tokIdent_text tk [] (by simp) hc h
      refine ⟨_, e2, [c], rest, ?_⟩
      rw [e1]; simp

theorem scan_text (tk : Tokenizer) (hc : tk.m_SymbolTable.Consistent)
    (h : tk.scan.1 = T_IDENT) :
    ∃ w, (tk.scan.2.record tk.scan.1).text = some w ∧ Within w tk.m_Stream := by
  unfold Tokenizer.scan at h ⊢
  split at h
  · cases h
  · rename_i c rest hs
    dsimp only at h ⊢
    split at h
    · cases h
    · rename_i c1 hk
      obtain ⟨pre, hpre⟩ := skipSpace_split c rest _ c1 hk
      obtain ⟨w, e1, a, b, e2⟩ := tokInitial_text
        { tk with m_Stream := (skipSpace c rest (tk.m_Position.advance c)).2.1,
                  m_Position := (skipSpace c rest (tk.m_Position.advance c)).2.2 } c1 hc h
      refine ⟨w, e1, pre ++ a, b, ?_⟩
      have e2' : c1 :: (skipSpace c rest (tk.m_Position.advance c)).2.1 = a ++ w ++ b := e2
      rw [hs, hpre, e2']
      simp

theorem Within_of_tracks {w s s1 : List Nat} {p p1 : PositionInfo} (h : Tracks s p s1 p1)
    (hw : Within w s1) : Within w s := by
  obtain ⟨consumed, e1, -⟩ := h
  obtain ⟨a, b, e2⟩ := hw
  exact ⟨consumed ++ a, b, by rw [e1, e2]; simp⟩

theorem scanAll_text (n : Nat) :
    ∀ tk : Tokenizer, tk.m_SymbolTable.Consistent →
      ∀ r ∈ scanAll n tk, r.sym = T_IDENT → ∃ w, r.text = some w ∧ Within w tk.m_Stream := by
  induction n with
  | zero => intro tk _ r hr; simp [scanAll] at hr
  | succ n ih =>
    intro tk hc r hr hs
    rw [scanAll] at hr
    split_ifs at hr with he
    · cases hr
    · simp only [List.mem_cons] at hr
      rcases hr with rfl | hr
      · exact scan_text tk hc hs
      · obtain ⟨w, e1, e2⟩ := ih _ (scan_ident tk hc).1 r hr hs
        exact ⟨w, e1, Within_of_tracks (scan_tracks tk) e2⟩

/-- The text of every identifier token of a source is written in the source. -/
theorem tokensOf_text (src : List Nat) :
    ∀ r ∈ tokensOf src, r.sym = T_IDENT → ∃ w, r.text = some w ∧ Within w src := by
  unfold tokensOf
  rw [pending_of_not_peeked _ rfl]
  exact scanAll_text _ (Tokenizer.new src) trivial

/-! ## A token that ends the member loop of a node -/

/-- When the body of a node declaration, after well-formed members, goes on with a token
that starts no member and is not the closing bracket, `ParseNode` returns false with the
diagnostic of the `Expect` that wants the closing bracket. -/
theorem ParseNode_stop_bad (P : Parser) (name : List Nat) (ms : List GNodeMember)
    (fuel : Nat) {tk : Tokenizer} {ps post : List TokRec} {t : TokRec}
    (h : tk.pending = ps ++ t :: post)
    (hp : ps.map TokRec.tok =
      [.kw T_KEYWORD_NODE, .ident name, .kw T_LEFT_CURLY_BRACKET] ++ nodeBody ms)
    (hf : ms.length < fuel) (ht1 : ¬ startsNodeMember t.sym)
    (ht2 : t.sym ≠ T_RIGHT_CURLY_BRACKET) :
    ∃ r, P.ParseNode fuel tk FlowNode.new = some r ∧ r.1 = false ∧
      r.2.1.m_ErrorString = expectedMsg T_RIGHT_CURLY_BRACKET t := by
  obtain ⟨r1, l1, rfl, e1, hp2⟩ := map_eq_cons_split hp
  clear hp
  obtain ⟨r2, l2, rfl, e2, hp3⟩ := map_eq_cons_split hp2
  clear hp2
  obtain ⟨r3, l3, rfl, e3, hp4⟩ := map_eq_cons_split hp3
  clear hp3
  simp only [List.cons_append, List.nil_append, List.append_assoc] at h
  obtain ⟨-, -, a3, -⟩ := GetSym_pending h
  obtain ⟨-, b2, b3, -⟩ := GetSym_pending a3
  obtain ⟨-, -, c3, -⟩ := GetSym_pending b3
  have htext : tk.GetSym.2.GetSym.2.Lookup tk.GetSym.2.GetSym.2.SymIndex = some name :=
    (congrArg TokRec.text b2).trans (tok_ident e2).2
  obtain ⟨k, rfl⟩ : ∃ k, fuel = ms.length + (k + 1) := ⟨fuel - ms.length - 1, by omega⟩
  obtain ⟨P1, tk1, evs, vars, hloop, h2, -, -, -, -⟩ :=
    ParseNodeLoop_members ms (k + 1) (P.push name) tk.GetSym.2.GetSym.2.GetSym.2
      { FlowNode.new with NameIndex := some P.m_StringPool.blocks.length } l3
      (t :: post) c3 hp4
  obtain ⟨q1, -, q3⟩ := Peek_pending h2
  have hstop := ParseNodeLoop_stop k P1 tk1
    { NameIndex := some P.m_StringPool.blocks.length, Events := [] ++ evs, Variables := [] ++ vars }
    (by rw [q1]; exact ht1)
  refine ⟨(false, ⟨P1.m_StringPool, expectedMsg T_RIGHT_CURLY_BRACKET t⟩,
    tk1.Peek.2.GetSym.2, ⟨some P.m_StringPool.blocks.length, [] ++ evs, [] ++ vars⟩),
    ?_, rfl, rfl⟩
  unfold Parser.ParseNode
  rw [Expect_ok P h (tok_kw e1)]
  dsimp only
  rw [Expect_ok P a3 (tok_ident e2).1]
  dsimp only
  rw [htext, InsertName_some]
  dsimp only
  rw [Expect_ok _ b3 (tok_kw e3)]
  dsimp only
  rw [hloop]
  erw [hstop]
  dsimp only
  rw [Expect_bad _ q3 ht2]

theorem expectedMsg_event (t : TokRec) (h : t.sym = T_KEYWORD_EVENT) :
    expectedMsg T_RIGHT_CURLY_BRACKET t =
      "EXPECTED T_RIGHT_CURLY_BRACKET at (Ln: " ++ toString t.pos.Row ++ ", Col: " ++
        toString t.pos.Col ++ "), actual T_KEYWORD_EVENT" := by
  simp [expectedMsg, OStream.putPos, OStream.putStr, OStream.putNat, GetTokenString, h,
    String.append_assoc]

/-! ## Numeric literals -/

theorem isdigit_bounds {x : Nat} (h : isdigit x = true) : 48 ≤ x ∧ x ≤ 57 := by
  simpa [isdigit] using h

theorem numericLoop_run (rest : List Nat)
    (hr : ∀ x ∈ rest.head?, isdigit x = false ∧ x ≠ 46) (ds : List Nat) :
    ∀ (p : PositionInfo) (v : List Nat), (∀ x ∈ ds, isdigit x = true) →
      ∃ p1, numericLoop (ds ++ rest) p v = (.TOK_NUMERIC, rest, p1, v ++ ds) := by
  induction ds with
  | nil =>
    intro p v _
    rw [List.nil_append, List.append_nil]
    cases rest with
    | nil => exact ⟨p, rfl⟩
    | cons r rs =>
      obtain ⟨h1, h2⟩ := hr r (by simp)
      refine ⟨p, ?_⟩
      rw [numericLoop]
      unfold peekChar
      dsimp only
      split_ifs <;> simp_all
  | cons x ds ih =>
    intro p v hx
    have h1 := hx x (List.mem_cons_self _ _)
    have hb := isdigit_bounds h1
    obtain ⟨p1, hp1⟩ := ih (p.advance x) (v ++ [x]) (fun y hy => hx y (List.mem_cons_of_mem _ hy))
    refine ⟨p1, ?_⟩
    rw [List.cons_append, numericLoop]
    unfold peekChar
    dsimp only
    rw [if_neg (by omega)]
    dsimp only
    rw [if_pos h1, hp1, List.append_assoc]
    rfl

theorem numericLoop_run_dot (rest : List Nat) (ds : List Nat) :
    ∀ (p : PositionInfo) (v : List Nat), (∀ x ∈ ds, isdigit x = true) →
      ∃ p1, numericLoop (ds ++ 46 :: rest) p v = (.TOK_FLOAT, rest, p1, v ++ ds ++ [46]) := by
  induction ds with
  | nil =>
    intro p v _
    refine ⟨p.advance 46, ?_⟩
    rw [List.nil_append, List.append_nil, numericLoop]
    unfold peekChar
    dsimp only
    rw [if_neg (by decide)]
    dsimp only
    rw [if_neg (by decide), if_pos rfl]
  | cons x ds ih =>
    intro p v hx
    have h1 := hx x (List.mem_cons_self _ _)
    have hb := isdigit_bounds h1
    obtain ⟨p1, hp1⟩ := ih (p.advance x) (v ++ [x]) (fun y hy => hx y (List.mem_cons_of_mem _ hy))
    refine ⟨p1, ?_⟩
    rw [List.cons_append, numericLoop]
    unfold peekChar
    dsimp only
    rw [if_neg (by omega)]
    dsimp only
    rw [if_pos h1, hp1]
    simp

theorem floatLoop_run (rest : List Nat)
    (hr : ∀ x ∈ rest.head?, isdigit x = false ∧ x ≠ 102) (fs : List Nat) :
    ∀ (p : PositionInfo) (v : List Nat), (∀ x ∈ fs, isdigit x = true) →
      ∃ p1, floatLoop (fs ++ rest) p v = (rest, p1, v ++ fs) := by
  induction fs with
  | nil =>
    intro p v _
    rw [List.nil_append, List.append_nil]
    cases rest with
    | nil => exact ⟨p, rfl⟩
    | cons r rs =>
      obtain ⟨h1, h2⟩ := hr r (by simp)
      refine ⟨p, ?_⟩
      rw [floatLoop]
      unfold peekChar
      dsimp only
      split_ifs <;> simp_all
  | cons x fs ih =>
    intro p v hx
    have h1 := hx x (List.mem_cons_self _ _)
    have hb := isdigit_bounds h1
    obtain ⟨p1, hp1⟩ := ih (p.advance x) (v ++ [x]) (fun y hy => hx y (List.mem_cons_of_mem _ hy))
    refine ⟨p1, ?_⟩
    rw [List.cons_append, floatLoop]
    unfold peekChar
    dsimp only
    rw [if_neg (by omega)]
    dsimp only
    rw [if_pos h1, hp1, List.append_assoc]
    rfl

theorem floatLoop_run_f (rest : List Nat) (fs : List Nat) :
    ∀ (p : PositionInfo) (v : List Nat), (∀ x ∈ fs, isdigit x = true) →
      ∃ p1, floatLoop (fs ++ 102 :: rest) p v = (rest, p1, v ++ fs) := by
  induction fs with
  | nil =>
    intro p v _
    refine ⟨p.advance 102, ?_⟩
    rw [List.nil_append, List.append_nil, floatLoop]
    unfold peekChar
    dsimp only
    rw [if_neg (by decide)]
    dsimp only
    rw [if_neg (by decide), if_pos rfl]
  | cons x fs ih =>
    intro p v hx
    have h1 := hx x (List.mem_cons_self _ _)
    have hb := isdigit_bounds h1
    obtain ⟨p1, hp1⟩ := ih (p.advance x) (v ++ [x]) (fun y hy => hx y (List.mem_cons_of_mem _ hy))
    refine ⟨p1, ?_⟩
    rw [List.cons_append, floatLoop]
    unfold peekChar
    dsimp only
    rw [if_neg (by omega)]
    dsimp only
    rw [if_pos h1, hp1, List.append_assoc]
    rfl

/-- Case `TOK_FLOAT` on the rest of a real literal: the digits and the optional `f` are
consumed, and the token is `T_REAL` with the converted text when the extraction
succeeds and `T_FAILURE` when it fails. -/
theorem tokFloat_run (T : Tokenizer) (v fs rest : List Nat) (sfx : Bool)
    (hT : T.m_Stream = fs ++ (if sfx then [102] else []) ++ rest)
    (hf : ∀ x ∈ fs, isdigit x = true) (he : literalEnds (some (fs, sfx)) rest) :
    (T.tokFloat v).2.m_Stream = rest ∧
    (∀ f, readFloat (v ++ fs) = some f →
      (T.tokFloat v).1 = T_REAL ∧ (T.tokFloat v).2.RealValue = f) ∧
    (readFloat (v ++ fs) = none → (T.tokFloat v).1 = T_FAILURE) := by
  have hl : ∃ p1, floatLoop T.m_Stream T.m_Position v = (rest, p1, v ++ fs) := by
    rw [hT]
    cases sfx with
    | true =>
      simp only [if_true, List.append_assoc, List.singleton_append]
      exact floatLoop_run_f rest fs _ _ hf
    | false =>
      simp only [Bool.false_eq_true, if_false, List.append_nil]
      exact floatLoop_run rest he fs _ _ hf
  obtain ⟨p1, hl⟩ := hl
  unfold Tokenizer.tokFloat
  dsimp only
  rw [hl]
  dsimp only
  cases hr : readFloat (v ++ fs) with
  | none => exact ⟨rfl, fun f hf => (by cases hf), fun _ => rfl⟩
  | some f => exact ⟨rfl, fun g hg => (by cases hg; exact ⟨rfl, rfl⟩), fun h => (by cases h)⟩

/-- Case `TOK_NUMERIC` on the rest of a numeric literal. -/
theorem tokNumeric_run (T : Tokenizer) (v ds rest : List Nat)
    (frac : Option (List Nat × Bool))
    (hT : T.m_Stream = ds ++ fracText frac ++ rest)
    (hd : ∀ x ∈ ds, isdigit x = true)
    (hf : ∀ fs sfx, frac = some (fs, sfx) → ∀ x ∈ fs, isdigit x = true)
    (he : literalEnds frac rest) :
    (T.tokNumeric v).2.m_Stream = rest ∧
    (frac = none →
      (digitsVal (v ++ ds) ≤ 2147483647 →
        (T.tokNumeric v).1 = T_INTEGER ∧
          (T.tokNumeric v).2.IntValue = (digitsVal (v ++ ds) : Int)) ∧
      (2147483647 < digitsVal (v ++ ds) → (T.tokNumeric v).1 = T_FAILURE)) ∧
    (∀ fs sfx, frac = some (fs, sfx) →
      (∀ f, readFloat (v ++ ds ++ 46 :: fs) = some f →
        (T.tokNumeric v).1 = T_REAL ∧ (T.tokNumeric v).2.RealValue = f) ∧
      (readFloat (v ++ ds ++ 46 :: fs) = none → (T.tokNumeric v).1 = T_FAILURE)) := by
  cases frac with
  | none =>
    simp only [fracText, List.append_nil] at hT
    obtain ⟨p1, hl⟩ := numericLoop_run rest he ds T.m_Position v hd
    rw [← hT] at hl
    unfold Tokenizer.tokNumeric
    dsimp only
    rw [hl]
    dsimp only
    rw [if_pos rfl]
    unfold readInt
    by_cases hv : digitsVal (v ++ ds) ≤ 2147483647
    · rw [if_pos hv]
      exact ⟨rfl, fun _ => ⟨fun _ => ⟨rfl, rfl⟩, fun h => absurd hv (by omega)⟩,
        fun fs sfx h => (by cases h)⟩
    · rw [if_neg hv]
      exact ⟨rfl, fun _ => ⟨fun h => absurd h hv, fun _ => rfl⟩, fun fs sfx h => (by cases h)⟩
  | some fr =>
    obtain ⟨fs, sfx⟩ := fr
    have hfs := hf fs sfx rfl
    obtain ⟨p1, hl⟩ := numericLoop_run_dot (fs ++ (if sfx then [102] else []) ++ rest) ds
      T.m_Position v hd
    have hT2 : T.m_Stream = ds ++ 46 :: (fs ++ (if sfx then [102] else []) ++ rest) := by
      rw [hT]; simp [fracText]
    rw [← hT2] at hl
    unfold Tokenizer.tokNumeric
    dsimp only
    rw [hl]
    dsimp only
    rw [if_neg (by decide)]
    obtain ⟨a1, a2, a3⟩ := tokFloat_run
      { T with m_State := .TOK_FLOAT,
               m_Stream := fs ++ (if sfx then [102] else []) ++ rest, m_Position := p1 }
      (v ++ ds ++ [46]) fs rest sfx rfl hfs he
    have hv : v ++ ds ++ [46] ++ fs = v ++ ds ++ 46 :: fs := by simp
    rw [hv] at a2 a3
    refine ⟨a1, fun h => (by cases h), fun fs2 sfx2 h => ?_⟩
    cases h
    exact ⟨a2, a3⟩

/-! ## The search tree -/

theorem texts_Insert {o : List Nat} (ho : (0 : Nat) ∉ o) (m : Bool) (pool : Pool)
    (t : SymbolTable.Node) (ht : t.Consistent pool) (y : List Nat) :
    y ∈ (SymbolTable.Node.Insert o m pool t).2.1.texts ↔ y ∈ t.texts ∨ (m = true ∧ y = o) := by
  induction t with
  | null =>
    rw [SymbolTable.Node.Insert]
    cases m with
    | false => simp [SymbolTable.Node.texts]
    | true =>
      simp only [if_true, allocNode_eq o pool ho]
      simp [SymbolTable.Node.texts]
  | node p off l r ihl ihr =>
    obtain ⟨⟨x, hx, -⟩, hl, hr⟩ := ht
    subst hx
    rw [SymbolTable.Node.Insert]
    dsimp only
    split_ifs with h1 h2
    · constructor
      · exact Or.inl
      · rintro (h | ⟨-, rfl⟩)
        · exact h
        · rw [strcmp_eq_zero h1]
          simp [SymbolTable.Node.texts]
    · simp only [SymbolTable.Node.texts, List.mem_append, ihl hl]
      tauto
    · simp only [SymbolTable.Node.texts, List.mem_append, ihr hr]
      tauto

theorem Ordered_Insert {o : List Nat} (ho : (0 : Nat) ∉ o) (m : Bool) (pool : Pool)
    (t : SymbolTable.Node) (ht : t.Consistent pool) (hord : t.Ordered) :
    (SymbolTable.Node.Insert o m pool t).2.1.Ordered := by
  induction t with
  | null =>
    rw [SymbolTable.Node.Insert]
    cases m with
    | false => trivial
    | true =>
      simp only [if_true, allocNode_eq o pool ho]
      exact ⟨fun x _ => ⟨fun y hy => (by cases hy), fun y hy => (by cases hy)⟩, trivial, trivial⟩
  | node p off l r ihl ihr =>
    obtain ⟨⟨x, hx, -⟩, hl, hr⟩ := ht
    subst hx
    obtain ⟨hn, hol, hor⟩ := hord
    obtain ⟨hnl, hnr⟩ := hn x rfl
    rw [SymbolTable.Node.Insert]
    dsimp only
    split_ifs with h1 h2
    · exact ⟨hn, hol, hor⟩
    · refine ⟨fun z hz => ?_, ihl hl hol, hor⟩
      cases hz
      refine ⟨fun y hy => ?_, hnr⟩
      rcases (texts_Insert ho m pool l hl y).mp hy with h | ⟨-, rfl⟩
      · exact hnl y h
      · exact h2
    · refine ⟨fun z hz => ?_, hol, ihr hr hor⟩
      cases hz
      refine ⟨hnl, fun y hy => ?_⟩
      rcases (texts_Insert ho m pool r hr y).mp hy with h | ⟨-, rfl⟩
      · exact hnr y h
      · omega

theorem Ordered_nodup (pool : Pool) (t : SymbolTable.Node) (ht : t.Consistent pool)
    (hord : t.Ordered) : t.texts.Nodup := by
  induction t with
  | null => exact List.nodup_nil
  | node p off l r ihl ihr =>
    obtain ⟨⟨x, hx, -⟩, hl, hr⟩ := ht
    subst hx
    obtain ⟨hn, hol, hor⟩ := hord
    obtain ⟨hnl, hnr⟩ := hn x rfl
    simp only [SymbolTable.Node.texts, Option.toList]
    rw [List.nodup_append, List.nodup_append]
    refine ⟨⟨ihl hl hol, List.nodup_singleton x, ?_⟩, ihr hr hor, ?_⟩
    · intro y hy hy2
      simp only [List.mem_singleton] at hy2
      subst hy2
      have := hnl y hy
      rw [strcmp_self] at this
      exact absurd this (by decide)
    · intro y hy hy2
      simp only [List.mem_append, List.mem_singleton] at hy
      have h2 := hnr y hy2
      rcases hy with hy | rfl
      · have h1 := hnl y hy
        omega
      · rw [strcmp_self] at h2
        exact absurd h2 (by decide)

theorem table_texts_Insert (t : SymbolTable) (p : Option (List Nat) × Bool)
    (hp : ∀ x, p.1 = some x → (0 : Nat) ∉ x) (ht : t.Consistent) (y : List Nat) :
    y ∈ (t.Insert p.1 p.2).2.m_pRoot.texts ↔ y ∈ t.m_pRoot.texts ∨ p = (some y, true) := by
  obtain ⟨o, m⟩ := p
  cases o with
  | none => simp [SymbolTable.Insert]
  | some x =>
    have := texts_Insert (hp x rfl) m t.m_StringPool t.m_pRoot ht y
    simp only [SymbolTable.Insert]
    rw [this]
    constructor
    · rintro (h | ⟨rfl, rfl⟩)
      · exact Or.inl h
      · exact Or.inr rfl
    · rintro (h | h)
      · exact Or.inl h
      · simp only [Prod.mk.injEq, Option.some.injEq] at h
        exact Or.inr ⟨h.2, h.1.symm⟩

theorem table_Ordered_Insert (t : SymbolTable) (p : Option (List Nat) × Bool)
    (hp : ∀ x, p.1 = some x → (0 : Nat) ∉ x) (ht : t.Consistent) (ho : t.m_pRoot.Ordered) :
    (t.Insert p.1 p.2).2.m_pRoot.Ordered := by
  obtain ⟨o, m⟩ := p
  cases o with
  | none => exact ho
  | some x => exact Ordered_Insert (hp x rfl) m _ _ ht ho

theorem InsertAll_tree (ops : List (Option (List Nat) × Bool)) :
    ∀ t : SymbolTable, (∀ p ∈ ops, ∀ x, p.1 = some x → (0 : Nat) ∉ x) → t.Consistent →
      t.m_pRoot.Ordered →
      (t.InsertAll ops).m_pRoot.Ordered ∧
      ∀ y, y ∈ (t.InsertAll ops).m_pRoot.texts ↔ y ∈ t.m_pRoot.texts ∨ (some y, true) ∈ ops := by
  induction ops with
  | nil => intro t _ _ ho; exact ⟨ho, fun y => by simp [SymbolTable.InsertAll]⟩
  | cons p ops ih =>
    intro t hn hc ho
    have hp := hn p (List.mem_cons_self _ _)
    obtain ⟨a, b⟩ := ih (t.Insert p.1 p.2).2 (fun q hq => hn q (List.mem_cons_of_mem _ hq))
      (table_Insert_Consistent t p.1 p.2 hc) (table_Ordered_Insert t p hp hc ho)
    refine ⟨a, fun y => ?_⟩
    rw [SymbolTable.InsertAll, b y, table_texts_Insert t p hp hc y, List.mem_cons]
    constructor
    · rintro ((h | h) | h)
      · exact Or.inl h
      · exact Or.inr (Or.inl h.symm)
      · exact Or.inr (Or.inr h)
    · rintro (h | h | h)
      · exact Or.inl (Or.inl h)
      · exact Or.inl (Or.inr h.symm)
      · exact Or.inr h

theorem Extends_refl (t : SymbolTable.Node) : t.Extends t := by
  induction t with
  | null => trivial
  | node p off l r ihl ihr => exact ⟨rfl, rfl, ihl, ihr⟩

theorem Extends_trans {a b c : SymbolTable.Node} (h1 : a.Extends b) (h2 : b.Extends c) :
    a.Extends c := by
  induction a generalizing b c with
  | null => trivial
  | node p off l r ihl ihr =>
    cases b with
    | null => exact h1.elim
    | node p1 off1 l1 r1 =>
      cases c with
      | null => exact h2.elim
      | node p2 off2 l2 r2 =>
        obtain ⟨a1, a2, a3, a4⟩ := h1
        obtain ⟨b1, b2, b3, b4⟩ := h2
        exact ⟨a1.trans b1, a2.trans b2, ihl a3 b3, ihr a4 b4⟩

theorem Extends_Insert (o : List Nat) (m : Bool) (pool : Pool) (t : SymbolTable.Node) :
    t.Extends (SymbolTable.Node.Insert o m pool t).2.1 := by
  induction t with
  | null => trivial
  | node p off l r ihl ihr =>
    cases p with
    | none => exact Extends_refl _
    | some x =>
      rw [SymbolTable.Node.Insert]
      dsimp only
      split_ifs
      · exact Extends_refl _
      · exact ⟨rfl, rfl, ihl, Extends_refl r⟩
      · exact ⟨rfl, rfl, Extends_refl l, ihr⟩

theorem Extends_InsertAll (ops : List (Option (List Nat) × Bool)) :
    ∀ t : SymbolTable, t.m_pRoot.Extends (t.InsertAll ops).m_pRoot := by
  induction ops with
  | nil => intro t; exact Extends_refl _
  | cons p ops ih =>
    intro t
    rw [SymbolTable.InsertAll]
    refine Extends_trans ?_ (ih _)
    obtain ⟨o, m⟩ := p
    cases o with
    | none => exact Extends_refl _
    | some x => exact Extends_Insert x m _ _


theorem Insert_chain (s : List Nat) (hs : (0 : Nat) ∉ s) (xs : List (List Nat)) :
    ∀ (k : Nat) (pool : Pool), pool.blocks.length = k + xs.length →
      (∀ x ∈ xs, 0 < strcmp s x) →
      SymbolTable.Node.Insert s true pool (chain k xs) =
        (some (k + xs.length), chain k (xs ++ [s]), ⟨pool.blocks ++ [s ++ [0]]⟩) := by
  induction xs with
  | nil =>
    intro k pool hl _
    simp only [chain, List.nil_append, List.length_nil, Nat.add_zero] at hl ⊢
    rw [SymbolTable.Node.Insert, if_pos rfl, allocNode_eq s pool hs, hl]
  | cons x xs ih =>
    intro k pool hl hx
    have h0 := hx x (List.mem_cons_self _ _)
    have hl2 : pool.blocks.length = (k + 1) + xs.length := by
      rw [hl, List.length_cons]; omega
    simp only [chain, List.cons_append]
    rw [SymbolTable.Node.Insert]
    dsimp only
    rw [if_neg (by omega), if_neg (by omega),
      ih (k + 1) pool hl2 (fun y hy => hx y (List.mem_cons_of_mem _ hy))]
    simp only [List.length_cons]
    rw [show k + 1 + xs.length = k + (xs.length + 1) by omega]
    rfl

/-- Interning texts in increasing order builds a right-leaning chain. -/
theorem InsertAll_chain (xs : List (List Nat)) :
    ∀ (pre : List (List Nat)) (t : SymbolTable), t.m_pRoot = chain 0 pre →
      t.m_StringPool.blocks.length = pre.length →
      (pre ++ xs).Pairwise (fun a b => 0 < strcmp b a) → (∀ x ∈ xs, (0 : Nat) ∉ x) →
      (t.InsertAll (xs.map (fun x => (some x, true)))).m_pRoot = chain 0 (pre ++ xs) := by
  induction xs with
  | nil => intro pre t h1 _ _ _; simpa [SymbolTable.InsertAll] using h1
  | cons x xs ih =>
    intro pre t h1 h2 hp hn
    have hx : ∀ y ∈ pre, 0 < strcmp x y := by
      intro y hy
      rw [List.pairwise_append] at hp
      exact hp.2.2 y hy x (List.mem_cons_self _ _)
    have hi := Insert_chain x (hn x (List.mem_cons_self _ _)) pre 0 t.m_StringPool
      (by rw [h2]; omega) hx
    rw [List.map_cons, SymbolTable.InsertAll]
    have e : pre ++ x :: xs = (pre ++ [x]) ++ xs := by simp
    rw [e] at hp ⊢
    refine ih (pre ++ [x]) _ ?_ ?_ hp (fun y hy => hn y (List.mem_cons_of_mem _ hy))
    · simp only [SymbolTable.Insert]
      rw [h1, hi]
    · simp only [SymbolTable.Insert]
      rw [h1, hi]
      simp [h2]

/-- The node at which the search for `s` ends holds `s`, and its offset is a pool handle
for `s`. -/
theorem Finds_resolves {s : List Nat} {h : Nat} {pool : Pool} {t : SymbolTable.Node}
    (hf : t.Finds s h) (hc : t.Consistent pool) : (pool.GetPointer h).map cstr = some s := by
  induction t with
  | null => exact hf.elim
  | node p off l r ihl ihr =>
    obtain ⟨⟨x, hx, hg⟩, hl, hr⟩ := hc
    subst hx
    rw [SymbolTable.Node.Finds] at hf
    split_ifs at hf with h1 h2
    · rw [← hf, strcmp_eq_zero h1]; exact hg
    · exact ihl hf hl
    · exact ihr hf hr

/-! ## The claims -/

/-- C2: when `Parse` returns true, every query the call has appended to the document
holds only outputs: each of its variables has `HasDirection` set and the direction
`EVENT_OUT`, and each of its events has the direction `EVENT_OUT`. -/
theorem C2_query_members_are_outputs (P P1 : Parser) (src : List Nat)
    (doc doc1 : FlowDocument) (h : P.Parse src doc = some (true, P1, doc1)) :
    ∃ qs, doc1.Queries = doc.Queries ++ qs ∧
      ∀ q ∈ qs,
        (∀ v ∈ q.Variables, v.HasDirection = some true ∧ v.Direction = some .EVENT_OUT) ∧
        (∀ e ∈ q.Events, e.Direction = some .EVENT_OUT) := by
  unfold Parser.Parse Parser.ParseDocument at h
  generalize hl : Parser.ParseDocumentLoop _ _ _ _ _ _ = e at h
  cases e with
  | none => cases h
  | some y =>
    obtain ⟨qs, h1, h2⟩ := ParseDocumentLoop_out _ _ _ _ _ _ _ hl
    obtain ⟨ok, P2, tk2, d2⟩ := y
    simp only [Option.some.injEq, Prod.mk.injEq] at h
    obtain ⟨-, -, rfl⟩ := h
    exact ⟨qs, h1, h2⟩

/-- C2, witness: the Test query scenario yields one query with the event Status and the
variable boolean_value, both outputs. -/
theorem C2_query_members_are_outputs_witness :
    Parser.new.Parse testQuerySrc FlowDocument.new =
      some (true,
        ⟨⟨[bytes "Test" ++ [0], bytes "Status" ++ [0], bytes "boolean_value" ++ [0]]⟩, ""⟩,
        ⟨[], [⟨some 0,
          [⟨some .TYPE_BOOL, none, some false, some true, some .EVENT_OUT, some 2⟩],
          [⟨some .EVENT_OUT, some 1⟩]⟩]⟩) ∧
    ∃ qs, [(⟨some 0,
          [⟨some .TYPE_BOOL, none, some false, some true, some .EVENT_OUT, some 2⟩],
          [⟨some .EVENT_OUT, some 1⟩]⟩ : FlowQuery)] = FlowDocument.new.Queries ++ qs ∧
      ∀ q ∈ qs,
        (∀ v ∈ q.Variables, v.HasDirection = some true ∧ v.Direction = some .EVENT_OUT) ∧
        (∀ e ∈ q.Events, e.Direction = some .EVENT_OUT) :=
  ⟨by decide, C2_query_members_are_outputs Parser.new
    ⟨⟨[bytes "Test" ++ [0], bytes "Status" ++ [0], bytes "boolean_value" ++ [0]]⟩, ""⟩
    testQuerySrc FlowDocument.new
    ⟨[], [⟨some 0,
      [⟨some .TYPE_BOOL, none, some false, some true, some .EVENT_OUT, some 2⟩],
      [⟨some .EVENT_OUT, some 1⟩]⟩]⟩ (by decide)⟩

/-- C3, evaluation at the failing input: in the SoundNode scenario the parse succeeds
and the two variables declared without a prefix are stored with a `HasDirection` that
was never written. -/
theorem C3_undirected_direction_never_written :
    (Parser.new.Parse soundNodeSrc FlowDocument.new).map
        (fun r => (r.1, r.2.2.Nodes.map (fun n => n.Variables.map (fun v => v.HasDirection)))) =
      some (true, [[none, none]]) := by
  decide

/-- C4, counterexample: for `query Bad { in event X; }` the parse fails, and the recorded
diagnostic is the one of `Expect`; it does not begin with "UNEXPECTED". -/
theorem C4_in_member_counterexample :
    Parser.new.Parse badQuerySrc FlowDocument.new =
      some (false,
        ⟨⟨[bytes "Bad" ++ [0]]⟩,
          "EXPECTED T_RIGHT_CURLY_BRACKET at (Ln: 0, Col: 14), actual T_KEYWORD_IN"⟩,
        FlowDocument.new) ∧
    ¬ BeginsWith "EXPECTED T_RIGHT_CURLY_BRACKET at (Ln: 0, Col: 14), actual T_KEYWORD_IN"
        "UNEXPECTED" :=
  ⟨by decide, not_beginsWith_of_head rfl rfl (by decide)⟩

/-- C4, amended: when the body of a query declaration, after well-formed declarations and
well-formed members, goes on with the token `in`, `Parse` returns false and the
diagnostic is that of `Expect`: the closing bracket was expected and `T_KEYWORD_IN` was
read, at the position the tokenizer had reached when it returned the `in` token. -/
theorem C4_in_member_in_query (P : Parser) (doc : FlowDocument) (src : List Nat)
    (ds : List GDecl) (name : List Nat) (ms : List GQueryMember)
    (pre post : List TokRec) (tin : TokRec)
    (h : tokensOf src = pre ++ tin :: post)
    (hp : pre.map TokRec.tok = docToks ds ++
      ([.kw T_KEYWORD_QUERY, .ident name, .kw T_LEFT_CURLY_BRACKET] ++ queryBody ms))
    (hin : tin.sym = T_KEYWORD_IN) :
    ∃ (P1 : Parser) (doc1 : FlowDocument),
      P.Parse src doc = some (false, P1, doc1) ∧
      P1.GetErrorString =
        "EXPECTED T_RIGHT_CURLY_BRACKET at (Ln: " ++ toString tin.pos.Row ++ ", Col: " ++
          toString tin.pos.Col ++ "), actual T_KEYWORD_IN" := by
  obtain ⟨pd, ps, rfl, hpd, hps⟩ := List.map_eq_append_iff.mp hp
  clear hp
  rw [List.append_assoc] at h
  obtain ⟨P1, tk1, doc1, k, h2, hparse⟩ := Parse_after_decls P doc src ds pd _ h hpd
  have hlen : (pd ++ (ps ++ tin :: post)).length ≤ src.length := by
    rw [← h]; exact tokensOf_length src
  have hms : ms.length < src.length + 1 := by
    have h1 := queryBody_length ms
    have h2 : ps.length = 3 + (queryBody ms).length := by
      rw [← List.length_map ps TokRec.tok, hps]; simp; omega
    simp only [List.length_append, List.length_cons] at hlen
    omega
  obtain ⟨r1, l1, hps1, e1, -⟩ := map_eq_cons_split hps
  obtain ⟨q1, -, q3⟩ := Peek_pending
    (show tk1.pending = r1 :: (l1 ++ tin :: post) from by rw [h2, hps1]; rfl)
  rw [← List.cons_append, ← hps1] at q3
  obtain ⟨r, hr, hf, herr⟩ := ParseQuery_stop_bad P1 name ms (src.length + 1) q3 hps hms
    (by rw [hin]; decide) (by rw [hin]; decide)
  refine ⟨r.2.1, doc1, ?_, ?_⟩
  · rw [hparse, ParseDocumentLoop_query_fail _ _ _ _ _ r (by rw [q1]; exact tok_kw e1) hr hf]
  · exact herr.trans (expectedMsg_in tin hin)

/-- C4, witness of the amended claim: `query Bad { in event X; }`, where the tokenizer
is at line 0, column 14 after `in`. -/
theorem C4_in_member_in_query_witness :
    tokensOf badQuerySrc = (tokensOf badQuerySrc).take 3 ++
      (⟨T_KEYWORD_IN, some (bytes "Bad"), 0, ⟨false, 0, -149⟩, ⟨0, 14⟩⟩ : TokRec) ::
        (tokensOf badQuerySrc).drop 4 ∧
    ∃ (P1 : Parser) (doc1 : FlowDocument),
      Parser.new.Parse badQuerySrc FlowDocument.new = some (false, P1, doc1) ∧
      P1.GetErrorString =
        "EXPECTED T_RIGHT_CURLY_BRACKET at (Ln: " ++ toString 0 ++ ", Col: " ++
          toString 14 ++ "), actual T_KEYWORD_IN" :=
  ⟨by decide, C4_in_member_in_query Parser.new FlowDocument.new badQuerySrc [] (bytes "Bad") []
    ((tokensOf badQuerySrc).take 3)
    ((tokensOf badQuerySrc).drop 4)
    ⟨T_KEYWORD_IN, some (bytes "Bad"), 0, ⟨false, 0, -149⟩, ⟨0, 14⟩⟩
    (by decide) (by decide) rfl⟩

/-- C5: when a bool variable declaration of a node (with or without a direction prefix)
or of a query, reached after well-formed declarations and members, has an equals sign
that is not followed by `true` or `false`, `Parse` returns false and the error string
begins with "UNEXPECTED". -/
theorem C5_bool_default_rejected (P : Parser) (doc : FlowDocument) (src : List Nat)
    (ds : List GDecl) (site : VarSite) (x : List Nat) (pre tl : List TokRec)
    (h : tokensOf src = pre ++ tl)
    (hp : pre.map TokRec.tok = docToks ds ++
      (site.toks ++ [.kw T_TYPE_BOOL, .ident x, .kw T_ASSIGN]))
    (ht : ∀ t ∈ tl.head?, t.sym ≠ T_KEYWORD_TRUE ∧ t.sym ≠ T_KEYWORD_FALSE) :
    ∃ (P1 : Parser) (doc1 : FlowDocument),
      P.Parse src doc = some (false, P1, doc1) ∧ BeginsWith P1.GetErrorString "UNEXPECTED" := by
  obtain ⟨pd, ps, rfl, hpd, hps⟩ := List.map_eq_append_iff.mp hp
  clear hp
  rw [List.append_assoc] at h
  obtain ⟨P1, tk1, doc1, k, h2, hparse⟩ := Parse_after_decls P doc src ds pd _ h hpd
  have hlen : (pd ++ (ps ++ tl)).length ≤ src.length := by
    rw [← h]; exact tokensOf_length src
  have hpsl : ps.length = (site.toks ++ [Tok.kw T_TYPE_BOOL, Tok.ident x, Tok.kw T_ASSIGN]).length := by
    rw [← hps, List.length_map]
  have hms : site.size < src.length + 1 := by
    simp only [List.length_append, List.length_cons, List.length_nil] at hlen hpsl
    cases site with
    | node n ms dir =>
      have := nodeBody_length ms
      simp only [VarSite.toks, VarSite.size, List.length_append, List.length_cons,
        List.length_nil] at hpsl ⊢
      omega
    | query n ms =>
      have := queryBody_length ms
      simp only [VarSite.toks, VarSite.size, List.length_append, List.length_cons,
        List.length_nil] at hpsl ⊢
      omega
  cases site with
  | node n ms dir =>
    obtain ⟨r1, l1, hps1, e1, -⟩ := map_eq_cons_split
      (show ps.map TokRec.tok = Tok.kw T_KEYWORD_NODE :: _ from hps)
    obtain ⟨q1, -, q3⟩ := Peek_pending
      (show tk1.pending = r1 :: (l1 ++ tl) from by rw [h2, hps1]; rfl)
    rw [← List.cons_append, ← hps1] at q3
    obtain ⟨r, hr, hf, herr⟩ := ParseNode_bool_bad P1 n ms dir x (src.length + 1) q3 hps hms ht
    refine ⟨r.2.1, doc1, ?_, herr⟩
    rw [hparse, ParseDocumentLoop_node_fail _ _ _ _ _ r (by rw [q1]; exact tok_kw e1) hr hf]
  | query n ms =>
    obtain ⟨r1, l1, hps1, e1, -⟩ := map_eq_cons_split
      (show ps.map TokRec.tok = Tok.kw T_KEYWORD_QUERY :: _ from hps)
    obtain ⟨q1, -, q3⟩ := Peek_pending
      (show tk1.pending = r1 :: (l1 ++ tl) from by rw [h2, hps1]; rfl)
    rw [← List.cons_append, ← hps1] at q3
    obtain ⟨r, hr, hf, herr⟩ := ParseQuery_bool_bad P1 n ms x (src.length + 1) q3 hps hms ht
    refine ⟨r.2.1, doc1, ?_, herr⟩
    rw [hparse, ParseDocumentLoop_query_fail _ _ _ _ _ r (by rw [q1]; exact tok_kw e1) hr hf]

/-- C5, witness: `node N { bool flag = 5; }`. -/
theorem C5_bool_default_rejected_witness :
    (tokensOf badBoolSrc = (tokensOf badBoolSrc).take 6 ++ (tokensOf badBoolSrc).drop 6 ∧
      ((tokensOf badBoolSrc).take 6).map TokRec.tok = docToks [] ++
        ((VarSite.node (bytes "N") [] none).toks ++
          [.kw T_TYPE_BOOL, .ident (bytes "flag"), .kw T_ASSIGN]) ∧
      ∀ t ∈ ((tokensOf badBoolSrc).drop 6).head?,
        t.sym ≠ T_KEYWORD_TRUE ∧ t.sym ≠ T_KEYWORD_FALSE) ∧
    ∃ (P1 : Parser) (doc1 : FlowDocument),
      Parser.new.Parse badBoolSrc FlowDocument.new = some (false, P1, doc1) ∧
      BeginsWith P1.GetErrorString "UNEXPECTED" :=
  ⟨⟨by decide, by decide, by decide⟩,
    C5_bool_default_rejected Parser.new FlowDocument.new badBoolSrc []
      (VarSite.node (bytes "N") [] none) (bytes "flag") ((tokensOf badBoolSrc).take 6)
      ((tokensOf badBoolSrc).drop 6) (by decide) (by decide) (by decide)⟩

/-- C6, evaluation at the failing input: for `node N { float x = true; }` the parse
returns true and stores the node, with the diagnostic of `Unexpected` left in the error
string. -/
theorem C6_float_default_keyword_accepted :
    Parser.new.Parse badFloatSrc FlowDocument.new =
      some (true,
        ⟨⟨[bytes "N" ++ [0], bytes "x" ++ [0]]⟩, "UNEXPECTED T_KEYWORD_TRUE at (Ln: 0, Col: 23)"⟩,
        ⟨[⟨some 0, [], [⟨some .TYPE_FLOAT, none, some true, none, none, some 1⟩]⟩], []⟩) := by
  decide

/-- C7: on a source made only of spaces, tabs, newlines and carriage returns (the empty
source included) `Parse` returns true, leaves the document as it was and leaves an empty
error string. -/
theorem C7_blank_source (P : Parser) (doc : FlowDocument) (src : List Nat)
    (h : ∀ c ∈ src, c = 32 ∨ c = 9 ∨ c = 10 ∨ c = 13) :
    P.Parse src doc = some (true, { P with m_ErrorString := "" }, doc) ∧
      Parser.GetErrorString { P with m_ErrorString := "" } = "" := by
  refine ⟨?_, rfl⟩
  have hnil : (Tokenizer.new src).pending = [] := tokensOf_blank src h
  unfold Parser.Parse Parser.ParseDocument
  rw [Parser.ParseDocumentLoop, if_neg (by rw [(Peek_pending_nil hnil).1]; simp)]

/-- C7, witness: the empty source and a source of blanks. -/
theorem C7_blank_source_witness :
    (∀ c ∈ bytes " \n\t\r ", c = 32 ∨ c = 9 ∨ c = 10 ∨ c = 13) ∧
    Parser.new.Parse (bytes " \n\t\r ") FlowDocument.new =
      some (true, { Parser.new with m_ErrorString := "" }, FlowDocument.new) ∧
    Parser.GetErrorString { Parser.new with m_ErrorString := "" } = "" :=
  ⟨by decide, C7_blank_source Parser.new FlowDocument.new (bytes " \n\t\r ") (by decide)⟩

/-- C8: a source whose tokens are a sequence of node and query declarations of the
grammar is parsed with success; the nodes appended to the document are the node
declarations in source order and the queries appended are the query declarations in
source order. -/
theorem C8_grammar_complete (P : Parser) (src : List Nat) (ds : List GDecl)
    (h : (tokensOf src).map TokRec.tok = docToks ds) :
    ∃ (P1 : Parser) (doc : FlowDocument),
      P.Parse src FlowDocument.new = some (true, P1, doc) ∧
      List.Forall₂ (NodeModels P1) doc.Nodes (docNodes ds) ∧
      List.Forall₂ (QueryModels P1) doc.Queries (docQueries ds) := by
  obtain ⟨P1, ns, qs, hparse, -, hns, hqs⟩ := Parse_decls P FlowDocument.new src ds h
  exact ⟨P1, _, hparse, by simpa [FlowDocument.new] using hns,
    by simpa [FlowDocument.new] using hqs⟩

/-- C8, witness: the text of main.cpp gives the node SoundNode and the query Test. -/
theorem C8_grammar_complete_witness :
    (tokensOf FlowDefinition).map TokRec.tok = docToks FlowDefinitionDecls ∧
    ∃ (P1 : Parser) (doc : FlowDocument),
      Parser.new.Parse FlowDefinition FlowDocument.new = some (true, P1, doc) ∧
      List.Forall₂ (NodeModels P1) doc.Nodes (docNodes FlowDefinitionDecls) ∧
      List.Forall₂ (QueryModels P1) doc.Queries (docQueries FlowDefinitionDecls) :=
  ⟨by decide, C8_grammar_complete Parser.new FlowDefinition FlowDefinitionDecls (by decide)⟩

/-- C9: once `Insert(s)` has returned a handle `h` (for a text without an embedded NUL),
every later `Insert(s)` on the same table, whatever was inserted in between and whatever
the `modify` flag, returns `h` and leaves the tree and the pool as they are. -/
theorem C9_insert_same_handle (t : SymbolTable) (s : List Nat) (m m2 : Bool) (h : Nat)
    (ops : List (Option (List Nat) × Bool)) (hs : (0 : Nat) ∉ s)
    (hr : (t.Insert (some s) m).1 = some h) :
    ((t.Insert (some s) m).2.InsertAll ops).Insert (some s) m2 =
      (some h, (t.Insert (some s) m).2.InsertAll ops) := by
  have h1 : (t.Insert (some s) m).2.m_pRoot.Finds s h :=
    Insert_Finds hs m t.m_StringPool t.m_pRoot hr
  have h2 := InsertAll_Finds ops _ h1
  rw [SymbolTable.Insert, Finds_Insert h2]

/-- C9, witness: on a table that holds `a`, the text `b` is interned and gets the handle
1; after `c`, `b` again and a lookup of `0`, a further `Insert` of `b` returns 1 and
changes nothing. -/
theorem C9_insert_same_handle_witness :
    ((0 : Nat) ∉ bytes "b" ∧
      ((SymbolTable.new.Insert (some (bytes "a")) true).2.Insert (some (bytes "b")) true).1 =
        some 1) ∧
    (((SymbolTable.new.Insert (some (bytes "a")) true).2.Insert (some (bytes "b")) true).2.InsertAll
        [(some (bytes "c"), true), (some (bytes "b"), true), (some (bytes "0"), false)]).Insert
        (some (bytes "b")) true =
      (some 1,
        ((SymbolTable.new.Insert (some (bytes "a")) true).2.Insert (some (bytes "b")) true).2.InsertAll
          [(some (bytes "c"), true), (some (bytes "b"), true), (some (bytes "0"), false)]) :=
  ⟨⟨by decide, by decide⟩,
    C9_insert_same_handle (SymbolTable.new.Insert (some (bytes "a")) true).2 (bytes "b") true true 1
      [(some (bytes "c"), true), (some (bytes "b"), true), (some (bytes "0"), false)]
      (by decide) (by decide)⟩

/-- C10: on a table built from the empty one by `Insert` calls, the handle that
`Insert(s)` returns for a text without an embedded NUL resolves through `Retrive` to
`s`, and it still resolves to `s` after any further `Insert` calls. -/
theorem C10_retrive_insert_round_trip (ops1 ops2 : List (Option (List Nat) × Bool))
    (s : List Nat) (hs : (0 : Nat) ∉ s) :
    ((SymbolTable.new.InsertAll ops1).Insert (some s) true).2.Retrive
        ((SymbolTable.new.InsertAll ops1).Insert (some s) true).1 = some s ∧
    (((SymbolTable.new.InsertAll ops1).Insert (some s) true).2.InsertAll ops2).Retrive
        ((SymbolTable.new.InsertAll ops1).Insert (some s) true).1 = some s := by
  have hc : (SymbolTable.new.InsertAll ops1).Consistent :=
    SymbolTable.InsertAll_Consistent ops1 _ ⟨⟩
  obtain ⟨h, h1, h2⟩ := Insert_resolves hs _ _ hc
  have e1 : ((SymbolTable.new.InsertAll ops1).Insert (some s) true).1 = some h := h1
  have e2 : ((((SymbolTable.new.InsertAll ops1).Insert (some s) true).2.m_StringPool.GetPointer
      h).map cstr) = some s := h2
  rw [e1]
  exact ⟨e2, GetPointer_mono (SymbolTable.InsertAll_le ops2 _) e2⟩

/-- C10, witness: `Play` is interned after `Stop`, and `Stop` again and `Zed` after
it. -/
theorem C10_retrive_insert_round_trip_witness :
    (0 : Nat) ∉ bytes "Play" ∧
    ((SymbolTable.new.InsertAll [(some (bytes "Stop"), true)]).Insert (some (bytes "Play")) true).2.Retrive
        ((SymbolTable.new.InsertAll [(some (bytes "Stop"), true)]).Insert (some (bytes "Play")) true).1 =
      some (bytes "Play") ∧
    (((SymbolTable.new.InsertAll [(some (bytes "Stop"), true)]).Insert
        (some (bytes "Play")) true).2.InsertAll
          [(some (bytes "Stop"), true), (some (bytes "Zed"), true)]).Retrive
        ((SymbolTable.new.InsertAll [(some (bytes "Stop"), true)]).Insert (some (bytes "Play")) true).1 =
      some (bytes "Play") :=
  ⟨by decide, C10_retrive_insert_round_trip [(some (bytes "Stop"), true)]
    [(some (bytes "Stop"), true), (some (bytes "Zed"), true)] (bytes "Play") (by decide)⟩

/-- C11: `Insert(s, modify = false)` leaves the tree and the pool of every table as they
are, for every argument (the null pointer included). On a table built from the empty one
by `Insert` calls on texts without an embedded NUL: when `s` was interned by an earlier
`Insert(s, true)`, the lookup returns the handle that call returned, and `Retrive` gives
`s` for it; and the lookup returns the sentinel exactly when no earlier call was
`Insert(s, true)`. -/
theorem C11_lookup_only (t : SymbolTable) (o : Option (List Nat))
    (ops1 ops2 ops : List (Option (List Nat) × Bool)) (s : List Nat) (hs : (0 : Nat) ∉ s)
    (hops : ∀ p ∈ ops, ∀ x, p.1 = some x → (0 : Nat) ∉ x) :
    (t.Insert o false).2 = t ∧
    (∃ h, ((SymbolTable.new.InsertAll ops1).Insert (some s) true).1 = some h ∧
      (((SymbolTable.new.InsertAll ops1).Insert (some s) true).2.InsertAll ops2).Insert
          (some s) false =
        (some h, ((SymbolTable.new.InsertAll ops1).Insert (some s) true).2.InsertAll ops2) ∧
      (((SymbolTable.new.InsertAll ops1).Insert (some s) true).2.InsertAll ops2).Retrive
          (some h) = some s) ∧
    (((SymbolTable.new.InsertAll ops).Insert (some s) false).1 = none ↔
      (some s, true) ∉ ops) := by
  refine ⟨table_lookup_frame t o, ?_, ?_⟩
  · have hc : (SymbolTable.new.InsertAll ops1).Consistent :=
      SymbolTable.InsertAll_Consistent ops1 _ ⟨⟩
    obtain ⟨h, h1, h2⟩ := Insert_resolves hs _ _ hc
    have e1 : ((SymbolTable.new.InsertAll ops1).Insert (some s) true).1 = some h := h1
    have e2 : ((((SymbolTable.new.InsertAll ops1).Insert (some s) true).2.m_StringPool.GetPointer
        h).map cstr) = some s := h2
    have f1 : ((SymbolTable.new.InsertAll ops1).Insert (some s) true).2.m_pRoot.Finds s h :=
      Insert_Finds hs true _ _ e1
    have f2 := InsertAll_Finds ops2 _ f1
    refine ⟨h, e1, ?_, GetPointer_mono (SymbolTable.InsertAll_le ops2 _) e2⟩
    rw [SymbolTable.Insert, Finds_Insert f2]
  · constructor
    · intro hn hm
      obtain ⟨h, hf⟩ := InsertAll_interned hs ops SymbolTable.new trivial hm
      rw [SymbolTable.Insert, Finds_Insert hf] at hn
      cases hn
    · intro hm
      cases hr : ((SymbolTable.new.InsertAll ops).Insert (some s) false).1 with
      | none => rfl
      | some h =>
        have f1 := Insert_Finds hs false _ _ hr
        rw [Insert_lookup_frame] at f1
        rcases Finds_of_InsertAll ops _ hops f1 with f2 | f2
        · exact f2.elim
        · exact absurd f2 hm

/-- C11, witness: after `a`, `b`, `c` a lookup of `b` gives the handle 1 that interning
`b` returned, and the text `d`, which was only looked up, is not found. -/
theorem C11_lookup_only_witness :
    ((0 : Nat) ∉ bytes "b" ∧
      ∀ p ∈ [(some (bytes "a"), true), (some (bytes "d"), false), (some (bytes "c"), true)],
        ∀ x, p.1 = some x → (0 : Nat) ∉ x) ∧
    ((SymbolTable.new.InsertAll [(some (bytes "a"), true)]).Insert (some (bytes "z")) false).2 =
      SymbolTable.new.InsertAll [(some (bytes "a"), true)] ∧
    (∃ h, ((SymbolTable.new.InsertAll [(some (bytes "a"), true)]).Insert
          (some (bytes "b")) true).1 = some h ∧
      (((SymbolTable.new.InsertAll [(some (bytes "a"), true)]).Insert
          (some (bytes "b")) true).2.InsertAll [(some (bytes "c"), true)]).Insert
          (some (bytes "b")) false =
        (some h, ((SymbolTable.new.InsertAll [(some (bytes "a"), true)]).Insert
          (some (bytes "b")) true).2.InsertAll [(some (bytes "c"), true)]) ∧
      (((SymbolTable.new.InsertAll [(some (bytes "a"), true)]).Insert
          (some (bytes "b")) true).2.InsertAll [(some (bytes "c"), true)]).Retrive
          (some h) = some (bytes "b")) ∧
    (((SymbolTable.new.InsertAll
        [(some (bytes "a"), true), (some (bytes "d"), false), (some (bytes "c"), true)]).Insert
          (some (bytes "b")) false).1 = none ↔
      (some (bytes "b"), true) ∉
        [(some (bytes "a"), true), (some (bytes "d"), false), (some (bytes "c"), true)]) :=
  ⟨⟨by decide, by decide⟩,
    C11_lookup_only (SymbolTable.new.InsertAll [(some (bytes "a"), true)]) (some (bytes "z"))
      [(some (bytes "a"), true)] [(some (bytes "c"), true)]
      [(some (bytes "a"), true), (some (bytes "d"), false), (some (bytes "c"), true)]
      (bytes "b") (by decide) (by decide)⟩

/-- C12, evaluation at the failing inputs: for `node @ { }` the parse returns true and
`GetString` of the node's `NameIndex` is the empty text, though `@` is written at the
declaration; for `node _n { in event !9_; }` the parse returns true, the node's name
resolves to `n` and the event's name to `9_`, not to the texts `_n` and `!9_` written in
the source. -/
theorem C12_stray_character_name :
    Parser.new.Parse strayNameSrc FlowDocument.new =
      some (true, ⟨⟨[[0]]⟩, ""⟩, ⟨[⟨some 0, [], []⟩], []⟩) ∧
    Parser.GetString ⟨⟨[[0]]⟩, ""⟩ 0 = some [] ∧
    Parser.new.Parse strayNamesSrc FlowDocument.new =
      some (true, ⟨⟨[bytes "n" ++ [0], bytes "9_" ++ [0]]⟩, ""⟩,
        ⟨[⟨some 0, [⟨some .EVENT_IN, some 1⟩], []⟩], []⟩) ∧
    Parser.GetString ⟨⟨[bytes "n" ++ [0], bytes "9_" ++ [0]]⟩, ""⟩ 0 = some (bytes "n") ∧
    Parser.GetString ⟨⟨[bytes "n" ++ [0], bytes "9_" ++ [0]]⟩, ""⟩ 1 = some (bytes "9_") := by
  decide

/-- C13: for every tokenizer state and every `k ≥ 1`, `k` consecutive calls of `Peek()`
all return the token of the first call and leave the tokenizer in the state the first
call left (stream, position, payload and symbol table included); the following
`GetSym()` returns that token, leaves stream, position, payload and symbol table as they
were, and clears the cache. -/
theorem C13_peek_idempotent (tk : Tokenizer) (k : Nat) :
    Tokenizer.PeekTimes (k + 1) tk = (List.replicate (k + 1) tk.Peek.1, tk.Peek.2) ∧
    tk.Peek.2.GetSym.1 = tk.Peek.1 ∧
    tk.Peek.2.GetSym.2.m_Stream = tk.Peek.2.m_Stream ∧
    tk.Peek.2.GetSym.2.m_Position = tk.Peek.2.m_Position ∧
    tk.Peek.2.GetSym.2.u = tk.Peek.2.u ∧
    tk.Peek.2.GetSym.2.m_SymbolTable = tk.Peek.2.m_SymbolTable ∧
    tk.Peek.2.GetSym.2.m_HasPeeked = false := by
  have hp := Peek_HasPeeked tk
  have hn := Peek_NextSym tk
  refine ⟨?_, ?_⟩
  · rw [Tokenizer.PeekTimes, PeekTimes_of_peeked k _ hp, hn]; rfl
  · unfold Tokenizer.GetSym
    dsimp only
    rw [if_pos hp]
    exact ⟨hn, rfl, rfl, rfl, rfl, rfl⟩

/-- C14, evaluation at the failing inputs: for `node N { float x = true; }` the
diagnostic of `Unexpected` is recorded and the parse goes on and returns true; for the
same text without the semicolon the parse returns false and the error string is the
diagnostic of the later `Expect`, which has replaced the one of `Unexpected`. -/
theorem C14_first_diagnostic_overwritten :
    Parser.new.Parse badFloatSrc FlowDocument.new =
      some (true,
        ⟨⟨[bytes "N" ++ [0], bytes "x" ++ [0]]⟩, "UNEXPECTED T_KEYWORD_TRUE at (Ln: 0, Col: 23)"⟩,
        ⟨[⟨some 0, [], [⟨some .TYPE_FLOAT, none, some true, none, none, some 1⟩]⟩], []⟩) ∧
    Parser.new.Parse badFloatNoSemiSrc FlowDocument.new =
      some (false,
        ⟨⟨[bytes "N" ++ [0], bytes "x" ++ [0]]⟩,
          "EXPECTED T_SEMICOLON at (Ln: 0, Col: 25), actual T_RIGHT_CURLY_BRACKET"⟩,
        FlowDocument.new) := by
  decide

/-- C15, evaluation at the failing inputs: on the source `bool` the parse fails and the
error string is `UNEXPECTED ` with nothing after it, because `GetTokenString` has no
name for `T_TYPE_BOOL`; on `node bool` it is cut after `actual `; on `<` the token
`T_LESS` is reported as `T_ASSIGN`; on `7` the token `T_INTEGER` is reported as
`T_TYPE_INTEGER`. -/
theorem C15_token_names_in_diagnostics :
    (Parser.new.Parse (bytes "bool") FlowDocument.new).map (fun r => (r.1, r.2.1.GetErrorString)) =
      some (false, "UNEXPECTED ") ∧
    (Parser.new.Parse (bytes "node bool") FlowDocument.new).map
        (fun r => (r.1, r.2.1.GetErrorString)) =
      some (false, "EXPECTED T_IDENT at (Ln: 0, Col: 9), actual ") ∧
    (Parser.new.Parse (bytes "<") FlowDocument.new).map (fun r => (r.1, r.2.1.GetErrorString)) =
      some (false, "UNEXPECTED T_ASSIGN at (Ln: 0, Col: 1)") ∧
    (Parser.new.Parse (bytes "7") FlowDocument.new).map (fun r => (r.1, r.2.1.GetErrorString)) =
      some (false, "UNEXPECTED T_TYPE_INTEGER at (Ln: 0, Col: 1)") := by
  decide

/-- C16: `Parse` returns a result for every source (the fuel of the embedding, one more
than the length of the source, always suffices). A `GetSym` that does not return a
cached token either returns `T_EOF` with the stream exhausted or consumes a non-empty
prefix of the stream, whatever the next characters are. Every round of the member loop
of `ParseNode`, of the member loop of `ParseQuery` and of the loop of `ParseDocument`,
entered with the peeked token, either ends the loop with a result or goes on after at
least one pending token has been consumed (for the document loop, when the member loops
have more fuel than there are pending tokens). -/
theorem C16_termination_and_progress (P : Parser) (src : List Nat) (doc : FlowDocument)
    (tk : Tokenizer) (node : FlowNode) (q : FlowQuery) (k : Nat) :
    (∃ r, P.Parse src doc = some r) ∧
    (((Tokenizer.GetSym { tk with m_HasPeeked := false }).1 = T_EOF ∧
        (Tokenizer.GetSym { tk with m_HasPeeked := false }).2.m_Stream = []) ∨
      ∃ consumed, consumed ≠ [] ∧
        tk.m_Stream = consumed ++ (Tokenizer.GetSym { tk with m_HasPeeked := false }).2.m_Stream) ∧
    ((∃ r, ∀ fuel, Parser.ParseNodeLoop (fuel + 1) P tk.Peek.2 tk.Peek.1 node = some r) ∨
      ∃ (P1 : Parser) (tk1 : Tokenizer) (node1 : FlowNode) (pre : List TokRec),
        pre ≠ [] ∧ tk.pending = pre ++ tk1.pending ∧
        ∀ fuel, Parser.ParseNodeLoop (fuel + 1) P tk.Peek.2 tk.Peek.1 node =
          Parser.ParseNodeLoop fuel P1 tk1.Peek.2 tk1.Peek.1 node1) ∧
    ((∃ r, ∀ fuel, Parser.ParseQueryLoop (fuel + 1) P tk.Peek.2 tk.Peek.1 q = some r) ∨
      ∃ (P1 : Parser) (tk1 : Tokenizer) (q1 : FlowQuery) (pre : List TokRec),
        pre ≠ [] ∧ tk.pending = pre ++ tk1.pending ∧
        ∀ fuel, Parser.ParseQueryLoop (fuel + 1) P tk.Peek.2 tk.Peek.1 q =
          Parser.ParseQueryLoop fuel P1 tk1.Peek.2 tk1.Peek.1 q1) ∧
    ((∃ r, ∀ fuel, Parser.ParseDocumentLoop (tk.pending.length + 1 + k) (fuel + 1) P
          tk.Peek.2 tk.Peek.1 doc = some r) ∨
      ∃ (P1 : Parser) (tk1 : Tokenizer) (doc1 : FlowDocument) (pre : List TokRec),
        pre ≠ [] ∧ tk.pending = pre ++ tk1.pending ∧
        ∀ fuel, Parser.ParseDocumentLoop (tk.pending.length + 1 + k) (fuel + 1) P
            tk.Peek.2 tk.Peek.1 doc =
          Parser.ParseDocumentLoop (tk.pending.length + 1 + k) fuel P1 tk1.Peek.2 tk1.Peek.1
            doc1) := by
  refine ⟨?_, ?_, ?_, ?_, ?_⟩
  · obtain ⟨r, hr, -⟩ := Parse_run P src doc
    exact ⟨r, hr⟩
  · exact GetSym_consumes { tk with m_HasPeeked := false } rfl
  · rcases ParseNodeLoop_step P tk.Peek.2 tk.Peek.1 node (Peek_HasPeeked tk) (Peek_NextSym tk)
      with ⟨r, -, he⟩ | ⟨-, he⟩ | ⟨P1, tk1, es, vs, m, pre, e1, e2, -, -, -, he⟩
    · exact Or.inl ⟨r, he⟩
    · exact Or.inl ⟨_, he⟩
    · exact Or.inr ⟨P1, tk1, _, pre, pre_ne_nil e2, by rw [← Peek_keeps tk]; exact e1, he⟩
  · rcases ParseQueryLoop_step P tk.Peek.2 tk.Peek.1 q (Peek_HasPeeked tk) (Peek_NextSym tk)
      with ⟨r, -, he⟩ | ⟨-, he⟩ | ⟨P1, tk1, es, vs, m, pre, e1, e2, -, -, -, -, he⟩
    · exact Or.inl ⟨r, he⟩
    · exact Or.inl ⟨_, he⟩
    · exact Or.inr ⟨P1, tk1, _, pre, pre_ne_nil e2, by rw [← Peek_keeps tk]; exact e1, he⟩
  · rcases ParseDocumentLoop_step (tk.pending.length + 1 + k) P tk.Peek.2 tk.Peek.1 doc
        (Peek_HasPeeked tk) (Peek_NextSym tk) (by rw [Peek_keeps]; omega)
      with ⟨r, -, he⟩ | ⟨-, -, he⟩ | ⟨P1, tk1, d, pre, ns, qs, e0, e1, -, -, -, -, -, he⟩
    · exact Or.inl ⟨r, he⟩
    · exact Or.inl ⟨_, he⟩
    · exact Or.inr ⟨P1, tk1, _, pre, e0, by rw [← Peek_keeps tk]; exact e1, he⟩

/-- C17, counterexample: on the source `99999999999` the first `GetSym` returns
`T_FAILURE`, and so it does on `2147483648`, the first value that does not fit in `int`;
on `2147483647` it returns `T_INTEGER`. -/
theorem C17_failure_token_counterexample :
    (Tokenizer.new (bytes "99999999999")).GetSym.1 = T_FAILURE ∧
    (Tokenizer.new (bytes "2147483648")).GetSym.1 = T_FAILURE ∧
    (Tokenizer.new (bytes "2147483647")).GetSym.1 = T_INTEGER := by
  decide

/-- C17, amended: a `GetSym` that reads the stream returns `T_FAILURE` exactly when the
first character after the white space is a digit and the text that numeric scanning
collects from it does not convert: either the scan ends in state `TOK_NUMERIC` (a run of
digits) and the value of the run exceeds 2147483647, or it ends in state `TOK_FLOAT`
(digits, `.`, digits) and the extraction `ss >> float` fails on the text. No other token
shape gives `T_FAILURE`. -/
theorem C17_failure_iff_numeric_overflow (tk : Tokenizer) (h : tk.m_HasPeeked = false) :
    tk.GetSym.1 = T_FAILURE ↔
      ∃ (c : Nat) (rest : List Nat) (c1 : Nat) (s1 : List Nat) (p1 : PositionInfo),
        tk.m_Stream = c :: rest ∧
        skipSpace c rest (tk.m_Position.advance c) = (some c1, s1, p1) ∧
        isdigit c1 = true ∧
        (((numericLoop s1 p1 [c1]).1 = .TOK_NUMERIC ∧
            2147483647 < digitsVal (numericLoop s1 p1 [c1]).2.2.2) ∨
          ((numericLoop s1 p1 [c1]).1 = .TOK_FLOAT ∧
            readFloat (floatLoop (numericLoop s1 p1 [c1]).2.1 (numericLoop s1 p1 [c1]).2.2.1
              (numericLoop s1 p1 [c1]).2.2.2).2.2 = none)) := by
  unfold Tokenizer.GetSym
  dsimp only
  rw [if_neg (by rw [h]; decide)]
  unfold Tokenizer.scan
  dsimp only
  cases hs : tk.m_Stream with
  | nil =>
    dsimp only
    constructor
    · intro hf; cases hf
    · rintro ⟨c, rest, c1, s1, p1, h1, -⟩; cases h1
  | cons c rest =>
    dsimp only
    generalize hk : skipSpace c rest (tk.m_Position.advance c) = r
    obtain ⟨o, s1, p1⟩ := r
    cases o with
    | none =>
      dsimp only
      constructor
      · intro hf; cases hf
      · rintro ⟨c', rest', c1, s1', p1', h1, h2, -⟩
        cases h1
        rw [hk] at h2
        cases h2
    | some c1 =>
      dsimp only
      rw [tokInitial_failure, tokNumeric_failure]
      constructor
      · rintro ⟨hd, hn⟩
        exact ⟨c, rest, c1, s1, p1, rfl, hk, hd, hn⟩
      · rintro ⟨c', rest', c1', s1', p1', h1, h2, hd, hn⟩
        cases h1
        rw [hk] at h2
        cases h2
        exact ⟨hd, hn⟩

/-- C17, witness of the amended claim: the source `99999999999`. -/
theorem C17_failure_iff_numeric_overflow_witness :
    (Tokenizer.new (bytes "99999999999")).m_HasPeeked = false ∧
    ((Tokenizer.new (bytes "99999999999")).GetSym.1 = T_FAILURE ↔
      ∃ (c : Nat) (rest : List Nat) (c1 : Nat) (s1 : List Nat) (p1 : PositionInfo),
        (Tokenizer.new (bytes "99999999999")).m_Stream = c :: rest ∧
        skipSpace c rest ((Tokenizer.new (bytes "99999999999")).m_Position.advance c) =
          (some c1, s1, p1) ∧
        isdigit c1 = true ∧
        (((numericLoop s1 p1 [c1]).1 = .TOK_NUMERIC ∧
            2147483647 < digitsVal (numericLoop s1 p1 [c1]).2.2.2) ∨
          ((numericLoop s1 p1 [c1]).1 = .TOK_FLOAT ∧
            readFloat (floatLoop (numericLoop s1 p1 [c1]).2.1 (numericLoop s1 p1 [c1]).2.2.1
              (numericLoop s1 p1 [c1]).2.2.2).2.2 = none))) :=
  ⟨rfl, C17_failure_iff_numeric_overflow (Tokenizer.new (bytes "99999999999")) rfl⟩

/-- C18: after any sequence of `GetSym()` and `Peek()` calls on a tokenizer created on
`src`, the source is the text consumed so far followed by the stream, `Row` is the
number of newlines consumed, and `Col` is the sum, over the characters consumed after
the last newline, of 4 for a tab and 1 for any other character. When the next `GetSym()`
returns `T_EOF`, `Row` is the number of newlines of the whole source. A character that
is only peeked is not counted: `followedByEq` on a next character other than `=` leaves
the tokenizer as it is, and each of the three scanning loops, on a next character it does
not take, leaves stream and position as they are. -/
theorem C18_position_tracking (src : List Nat) (cs : List TokCall) :
    (∃ consumed, src = consumed ++ ((Tokenizer.new src).calls cs).m_Stream ∧
      ((Tokenizer.new src).calls cs).Position = ⟨rowOf consumed, colOf consumed⟩) ∧
    (((Tokenizer.new src).calls cs).GetSym.1 = T_EOF →
      ((Tokenizer.new src).calls cs).GetSym.2.Position.Row = rowOf src) ∧
    (∀ (tk : Tokenizer) (yes no : Symbol_t), peekChar tk.m_Stream ≠ some 61 →
      (tk.followedByEq yes no).2 = tk) ∧
    (∀ (c : Nat) (rest : List Nat) (p : PositionInfo) (v : List Nat),
      (isalnum c || c == 95) = false → identLoop (c :: rest) p v = (c :: rest, p, v)) ∧
    (∀ (c : Nat) (rest : List Nat) (p : PositionInfo) (v : List Nat),
      isdigit c = false → c ≠ 46 →
        numericLoop (c :: rest) p v = (.TOK_NUMERIC, c :: rest, p, v)) ∧
    (∀ (c : Nat) (rest : List Nat) (p : PositionInfo) (v : List Nat),
      isdigit c = false → c ≠ 102 → floatLoop (c :: rest) p v = (c :: rest, p, v)) := by
  obtain ⟨h1, h2⟩ := calls_inv src cs (Tokenizer.new src) (Tracks.refl _ _)
    (fun h => by cases h)
  refine ⟨?_, ?_, ?_, ?_, ?_, ?_⟩
  · obtain ⟨consumed, e1, e2⟩ := h1
    exact ⟨consumed, e1, by rw [← after_spec]; exact e2⟩
  · intro he
    obtain ⟨consumed, e1, e2⟩ := h1.trans (GetSym_tracks _)
    rw [GetSym_eof_settled h2 he, List.append_nil] at e1
    unfold Tokenizer.Position
    rw [e2, after_spec, e1]
  · intro tk yes no hp
    unfold Tokenizer.followedByEq
    split
    · rename_i p hpk
      rw [if_neg (by intro h; rw [h] at hpk; exact hp hpk)]
    · rfl
  · intro c rest p v h
    rw [identLoop]
    unfold peekChar
    dsimp only
    split_ifs <;> simp_all
  · intro c rest p v h h46
    rw [numericLoop]
    unfold peekChar
    dsimp only
    split_ifs <;> simp_all
  · intro c rest p v h h102
    rw [floatLoop]
    unfold peekChar
    dsimp only
    split_ifs <;> simp_all

/-- C20, evaluation at the failing inputs: on the source `@` the first `GetSym` consumes
the character and returns `T_IDENT` with a handle that resolves to the empty text; on
`@node` it returns `T_KEYWORD_NODE`; on `!9_` it returns `T_IDENT` for the text `9_`,
which starts with a digit. -/
theorem C20_stray_character_identifier :
    (Tokenizer.new (bytes "@")).GetSym.1 = T_IDENT ∧
    (Tokenizer.new (bytes "@")).GetSym.2.Lookup (Tokenizer.new (bytes "@")).GetSym.2.SymIndex =
      some [] ∧
    (Tokenizer.new (bytes "@")).GetSym.2.m_Stream = [] ∧
    (Tokenizer.new (bytes "@node")).GetSym.1 = T_KEYWORD_NODE ∧
    (Tokenizer.new (bytes "!9_")).GetSym.1 = T_IDENT ∧
    (Tokenizer.new (bytes "!9_")).GetSym.2.Lookup (Tokenizer.new (bytes "!9_")).GetSym.2.SymIndex =
      some (bytes "9_") := by
  decide

/-- C21, counterexample: on a real literal beyond the range of `float` (1 followed by 39
zeros and a dot) `GetSym` consumes the literal and returns `T_FAILURE`, not `T_REAL`. -/
theorem C21_real_literal_counterexample :
    (Tokenizer.new hugeRealSrc).GetSym.1 = T_FAILURE ∧
    (Tokenizer.new hugeRealSrc).GetSym.2.m_Stream = [] := by
  decide

/-- C21, amended: let the stream of a tokenizer without a cached token hold white space,
a non-empty run of digits, then either nothing more of the literal (next comes no digit
and no dot) or a dot, a run of digits and at most one `f` (next comes no further digit
and, without the suffix, no `f`). `GetSym` consumes exactly the white space and the
literal. For the integer literal it returns `T_INTEGER` with the decimal value of the
run when that value is at most 2147483647, and `T_FAILURE` otherwise. For the real
literal the converted text is digits, dot, digits without the `f`: it returns `T_REAL`
with the value of that text when the extraction succeeds and `T_FAILURE` when it
fails. -/
theorem C21_numeric_literal (tk : Tokenizer) (blanks : List Nat) (d : Nat) (ds : List Nat)
    (frac : Option (List Nat × Bool)) (rest : List Nat) (hp : tk.m_HasPeeked = false)
    (hs : tk.m_Stream = blanks ++ (d :: ds) ++ fracText frac ++ rest)
    (hb : ∀ x ∈ blanks, x = 32 ∨ x = 9 ∨ x = 10 ∨ x = 13)
    (hd : ∀ x ∈ d :: ds, isdigit x = true)
    (hf : ∀ fs sfx, frac = some (fs, sfx) → ∀ x ∈ fs, isdigit x = true)
    (he : literalEnds frac rest) :
    tk.GetSym.2.m_Stream = rest ∧
    (frac = none →
      (digitsVal (d :: ds) ≤ 2147483647 →
        tk.GetSym.1 = T_INTEGER ∧ tk.GetSym.2.IntValue = (digitsVal (d :: ds) : Int)) ∧
      (2147483647 < digitsVal (d :: ds) → tk.GetSym.1 = T_FAILURE)) ∧
    (∀ fs sfx, frac = some (fs, sfx) →
      (∀ f, readFloat (d :: ds ++ 46 :: fs) = some f →
        tk.GetSym.1 = T_REAL ∧ tk.GetSym.2.RealValue = f) ∧
      (readFloat (d :: ds ++ 46 :: fs) = none → tk.GetSym.1 = T_FAILURE)) := by
  have hd0 := hd d (List.mem_cons_self _ _)
  have hdb := isdigit_bounds hd0
  obtain ⟨h0, h61, h60, h62⟩ := lookupTable_digit hd0
  obtain ⟨p1, hscan⟩ := scan_skip { tk with m_State := .TOK_INITIAL } blanks d
    (ds ++ fracText frac ++ rest) (by rw [hs]; simp) hb (by omega)
  have hG : tk.GetSym = Tokenizer.tokNumeric
      { tk with m_State := .TOK_NUMERIC, m_Stream := ds ++ fracText frac ++ rest,
                m_Position := p1 } [d] := by
    unfold Tokenizer.GetSym
    dsimp only
    rw [if_neg (by rw [hp]; decide), hscan]
    unfold Tokenizer.tokInitial
    rw [h0]
    dsimp only
    rw [if_neg h61, if_neg h60, if_neg h62, if_pos hd0]
  rw [hG]
  exact tokNumeric_run
    { tk with m_State := .TOK_NUMERIC, m_Stream := ds ++ fracText frac ++ rest,
              m_Position := p1 } [d] ds rest frac rfl
    (fun x hx => hd x (List.mem_cons_of_mem _ hx)) hf he

/-- C21, witness of the amended claim: on ` 1.5f;` the literal `1.5f` is consumed and
the value is that of `1.5`; `1.5` alone gives the same value, and `1f` is the integer 1
followed by the identifier `f`. -/
theorem C21_numeric_literal_witness :
    ((Tokenizer.new (bytes " 1.5f;")).m_HasPeeked = false ∧
      (Tokenizer.new (bytes " 1.5f;")).m_Stream =
        [32] ++ (49 :: []) ++ fracText (some ([53], true)) ++ bytes ";" ∧
      readFloat (49 :: [] ++ 46 :: [53]) = some ⟨false, 12582912, -23⟩) ∧
    ((Tokenizer.new (bytes " 1.5f;")).GetSym.1 = T_REAL ∧
      (Tokenizer.new (bytes " 1.5f;")).GetSym.2.RealValue = ⟨false, 12582912, -23⟩) ∧
    (Tokenizer.new (bytes "1.5")).GetSym.2.RealValue = ⟨false, 12582912, -23⟩ ∧
    (Tokenizer.new (bytes "1f")).GetSym.1 = T_INTEGER ∧
    (Tokenizer.new (bytes "1f")).GetSym.2.IntValue = 1 ∧
    (Tokenizer.new (bytes "1f")).GetSym.2.GetSym.1 = T_IDENT ∧
    (Tokenizer.new (bytes "1f")).GetSym.2.GetSym.2.Lookup
      (Tokenizer.new (bytes "1f")).GetSym.2.GetSym.2.SymIndex = some (bytes "f") :=
  ⟨⟨rfl, by decide, by decide⟩,
    ((C21_numeric_literal (Tokenizer.new (bytes " 1.5f;")) [32] 49 [] (some ([53], true))
      (bytes ";") rfl (by decide) (by decide) (by decide)
      (fun fs sfx h => by cases h; decide) trivial).2.2 [53] true rfl).1
        ⟨false, 12582912, -23⟩ (by decide),
    by decide, by decide, by decide, by decide, by decide⟩

/-- C22: when the body of a node declaration, after well-formed declarations and
well-formed members, goes on with a token that is none of `float`, `bool`, `in`, `out`
and is not the closing bracket, the member loop ends without taking it and `Parse`
returns false with the diagnostic of the `Expect` that wants the closing bracket and
reads that token; for a bare `event` the text is `EXPECTED T_RIGHT_CURLY_BRACKET at
(Ln: r, Col: c), actual T_KEYWORD_EVENT` with the position the tokenizer had reached when
it returned the `event` token. -/
theorem C22_node_loop_stops (P : Parser) (doc : FlowDocument) (src : List Nat)
    (ds : List GDecl) (name : List Nat) (ms : List GNodeMember)
    (pre post : List TokRec) (tin : TokRec)
    (h : tokensOf src = pre ++ tin :: post)
    (hp : pre.map TokRec.tok = docToks ds ++
      ([.kw T_KEYWORD_NODE, .ident name, .kw T_LEFT_CURLY_BRACKET] ++ nodeBody ms))
    (hs : ¬ startsNodeMember tin.sym) (hc : tin.sym ≠ T_RIGHT_CURLY_BRACKET) :
    ∃ (P1 : Parser) (doc1 : FlowDocument),
      P.Parse src doc = some (false, P1, doc1) ∧
      P1.GetErrorString = expectedMsg T_RIGHT_CURLY_BRACKET tin ∧
      (tin.sym = T_KEYWORD_EVENT →
        P1.GetErrorString =
          "EXPECTED T_RIGHT_CURLY_BRACKET at (Ln: " ++ toString tin.pos.Row ++ ", Col: " ++
            toString tin.pos.Col ++ "), actual T_KEYWORD_EVENT") := by
  obtain ⟨pd, ps, rfl, hpd, hps⟩ := List.map_eq_append_iff.mp hp
  clear hp
  rw [List.append_assoc] at h
  obtain ⟨P1, tk1, doc1, k, h2, hparse⟩ := Parse_after_decls P doc src ds pd _ h hpd
  have hlen : (pd ++ (ps ++ tin :: post)).length ≤ src.length := by
    rw [← h]; exact tokensOf_length src
  have hms : ms.length < src.length + 1 := by
    have h1 := nodeBody_length ms
    have h2 : ps.length = 3 + (nodeBody ms).length := by
      rw [← List.length_map ps TokRec.tok, hps]; simp; omega
    simp only [List.length_append, List.length_cons] at hlen
    omega
  obtain ⟨r1, l1, hps1, e1, -⟩ := map_eq_cons_split hps
  obtain ⟨q1, -, q3⟩ := Peek_pending
    (show tk1.pending = r1 :: (l1 ++ tin :: post) from by rw [h2, hps1]; rfl)
  rw [← List.cons_append, ← hps1] at q3
  obtain ⟨r, hr, hf, herr⟩ := ParseNode_stop_bad P1 name ms (src.length + 1) q3 hps hms hs hc
  refine ⟨r.2.1, doc1, ?_, herr, fun he => herr.trans (expectedMsg_event tin he)⟩
  rw [hparse, ParseDocumentLoop_node_fail _ _ _ _ _ r (by rw [q1]; exact tok_kw e1) hr hf]

/-- C22, witness: `node N { event X; }`, where the tokenizer is at line 0, column 14
after `event`. -/
theorem C22_node_loop_stops_witness :
    (tokensOf bareEventSrc = (tokensOf bareEventSrc).take 3 ++
      (⟨T_KEYWORD_EVENT, some (bytes "N"), 0, ⟨false, 0, -149⟩, ⟨0, 14⟩⟩ : TokRec) ::
        (tokensOf bareEventSrc).drop 4) ∧
    ∃ (P1 : Parser) (doc1 : FlowDocument),
      Parser.new.Parse bareEventSrc FlowDocument.new = some (false, P1, doc1) ∧
      P1.GetErrorString = expectedMsg T_RIGHT_CURLY_BRACKET
        ⟨T_KEYWORD_EVENT, some (bytes "N"), 0, ⟨false, 0, -149⟩, ⟨0, 14⟩⟩ ∧
      (T_KEYWORD_EVENT = T_KEYWORD_EVENT →
        P1.GetErrorString =
          "EXPECTED T_RIGHT_CURLY_BRACKET at (Ln: " ++ toString 0 ++ ", Col: " ++
            toString 14 ++ "), actual T_KEYWORD_EVENT") :=
  ⟨by decide, C22_node_loop_stops Parser.new FlowDocument.new bareEventSrc [] (bytes "N") []
    ((tokensOf bareEventSrc).take 3)
    ((tokensOf bareEventSrc).drop 4)
    ⟨T_KEYWORD_EVENT, some (bytes "N"), 0, ⟨false, 0, -149⟩, ⟨0, 14⟩⟩
    (by decide) (by decide) (by unfold startsNodeMember; decide) (by decide)⟩

/-- C23, evaluation at the failing input: for `node N { float x = true; }` the
parse returns true and `GetErrorString` is not empty, on a fresh parser and also on a parser
reused after a failed parse; a successful parse of the SoundNode scenario on the reused
parser leaves the empty string. -/
theorem C23_true_with_diagnostic :
    (Parser.new.Parse badFloatSrc FlowDocument.new).map (fun r => (r.1, r.2.1.GetErrorString)) =
      some (true, "UNEXPECTED T_KEYWORD_TRUE at (Ln: 0, Col: 23)") ∧
    ((Parser.new.Parse badBoolSrc FlowDocument.new).bind
        (fun r => r.2.1.Parse badFloatSrc FlowDocument.new)).map
        (fun r => (r.1, r.2.1.GetErrorString)) =
      some (true, "UNEXPECTED T_KEYWORD_TRUE at (Ln: 0, Col: 23)") ∧
    ((Parser.new.Parse badBoolSrc FlowDocument.new).bind
        (fun r => r.2.1.Parse soundNodeSrc FlowDocument.new)).map
        (fun r => (r.1, r.2.1.GetErrorString)) =
      some (true, "") := by
  decide

/-- C24, evaluation at the failing inputs: `GetTokenString` returns the null pointer for
`T_TYPE_BOOL`, the same name `T_ASSIGN` for the two kinds `T_LESS` and `T_ASSIGN`, and
for `T_INTEGER` the name `T_TYPE_INTEGER`. -/
theorem C24_token_names_not_injective :
    GetTokenString T_TYPE_BOOL = none ∧
    T_LESS ≠ T_ASSIGN ∧ GetTokenString T_LESS = GetTokenString T_ASSIGN ∧
    GetTokenString T_INTEGER = some "T_TYPE_INTEGER" := by
  decide

/-- C25: on the table built from the empty one by any sequence of `Insert` calls (either
mode; the texts are C strings, without an embedded NUL), the tree is a binary search tree
under `strcmp`, its texts are pairwise different and are exactly the texts that were
inserted with `modify = true`, and every node holds a text whose pool handle is the node's
offset. Every node stays where it is under any further `Insert` calls: the later tree
has every node of the earlier one at the same place with the same text and offset.
Interning texts in strictly increasing order gives the right-leaning chain. -/
theorem C25_search_tree (ops ops2 : List (Option (List Nat) × Bool)) (xs : List (List Nat))
    (hops : ∀ p ∈ ops, ∀ x, p.1 = some x → (0 : Nat) ∉ x) :
    (SymbolTable.new.InsertAll ops).m_pRoot.Ordered ∧
    (SymbolTable.new.InsertAll ops).m_pRoot.texts.Nodup ∧
    (∀ s, s ∈ (SymbolTable.new.InsertAll ops).m_pRoot.texts ↔ (some s, true) ∈ ops) ∧
    (SymbolTable.new.InsertAll ops).m_pRoot.Consistent
      (SymbolTable.new.InsertAll ops).m_StringPool ∧
    (SymbolTable.new.InsertAll ops).m_pRoot.Extends
      ((SymbolTable.new.InsertAll ops).InsertAll ops2).m_pRoot ∧
    (xs.Pairwise (fun a b => 0 < strcmp b a) → (∀ x ∈ xs, (0 : Nat) ∉ x) →
      (SymbolTable.new.InsertAll (xs.map (fun x => (some x, true)))).m_pRoot = chain 0 xs) := by
  have hc : (SymbolTable.new.InsertAll ops).Consistent :=
    SymbolTable.InsertAll_Consistent ops _ trivial
  obtain ⟨ho, hm⟩ := InsertAll_tree ops SymbolTable.new hops trivial trivial
  refine ⟨ho, Ordered_nodup _ _ hc ho, fun s => ?_, hc, Extends_InsertAll ops2 _, ?_⟩
  · rw [hm s]
    simp [SymbolTable.new, SymbolTable.Node.texts]
  · intro hp hn
    exact InsertAll_chain xs [] SymbolTable.new rfl rfl (by simpa using hp) hn

/-- C25, witness: after `b`, `a`, `c`, `b` again and a lookup of `z` the tree has `b` at
the root with `a` to the left and `c` to the right, and interning `a`, `b`, `c` in this
order gives a chain to the right. -/
theorem C25_search_tree_witness :
    (∀ p ∈ [(some (bytes "b"), true), (some (bytes "a"), true), (some (bytes "c"), true),
        (some (bytes "b"), true), (some (bytes "z"), false)],
      ∀ x, p.1 = some x → (0 : Nat) ∉ x) ∧
    (SymbolTable.new.InsertAll [(some (bytes "b"), true), (some (bytes "a"), true),
        (some (bytes "c"), true), (some (bytes "b"), true), (some (bytes "z"), false)]).m_pRoot =
      .node (some (bytes "b")) 0 (.node (some (bytes "a")) 1 .null .null)
        (.node (some (bytes "c")) 2 .null .null) ∧
    (SymbolTable.new.InsertAll
        ([bytes "a", bytes "b", bytes "c"].map (fun x => (some x, true)))).m_pRoot =
      .node (some (bytes "a")) 0 .null
        (.node (some (bytes "b")) 1 .null (.node (some (bytes "c")) 2 .null .null)) ∧
    (SymbolTable.new.InsertAll [(some (bytes "b"), true), (some (bytes "a"), true),
        (some (bytes "c"), true), (some (bytes "b"), true),
        (some (bytes "z"), false)]).m_pRoot.texts.Nodup :=
  ⟨by decide, by decide, by decide,
    (C25_search_tree [(some (bytes "b"), true), (some (bytes "a"), true),
        (some (bytes "c"), true), (some (bytes "b"), true), (some (bytes "z"), false)]
      [] [bytes "a", bytes "b", bytes "c"] (by decide)).2.1⟩

/-- C26: on the table built from the empty one by any sequence of `Insert` calls (on C
strings, without an embedded NUL), for two texts `s` and `t` that were interned,
`Insert(s)` and `Insert(t)` (in either mode) return handles, neither of them the
sentinel, and the two handles are equal iff `s` and `t` are equal; `Retrive` gives `s`
and `t` back for them. Interning any further text returns a handle and not the
sentinel. -/
theorem C26_interning_injective (ops : List (Option (List Nat) × Bool)) (s t u : List Nat)
    (m m2 : Bool) (hops : ∀ p ∈ ops, ∀ x, p.1 = some x → (0 : Nat) ∉ x)
    (hs : (some s, true) ∈ ops) (ht : (some t, true) ∈ ops) (hu : (0 : Nat) ∉ u) :
    (∃ a b, ((SymbolTable.new.InsertAll ops).Insert (some s) m).1 = some a ∧
      ((SymbolTable.new.InsertAll ops).Insert (some t) m2).1 = some b ∧
      (SymbolTable.new.InsertAll ops).Retrive (some a) = some s ∧
      (SymbolTable.new.InsertAll ops).Retrive (some b) = some t ∧ (a = b ↔ s = t)) ∧
    (((SymbolTable.new.InsertAll ops).Insert (some s) m).1 =
        ((SymbolTable.new.InsertAll ops).Insert (some t) m2).1 ↔ s = t) ∧
    ((SymbolTable.new.InsertAll ops).Insert (some u) true).1 ≠ none := by
  have hc : (SymbolTable.new.InsertAll ops).Consistent :=
    SymbolTable.InsertAll_Consistent ops _ trivial
  obtain ⟨a, fa⟩ := InsertAll_interned (hops _ hs s rfl) ops SymbolTable.new trivial hs
  obtain ⟨b, fb⟩ := InsertAll_interned (hops _ ht t rfl) ops SymbolTable.new trivial ht
  have ea : ((SymbolTable.new.InsertAll ops).Insert (some s) m).1 = some a := by
    rw [SymbolTable.Insert, Finds_Insert fa]
  have eb : ((SymbolTable.new.InsertAll ops).Insert (some t) m2).1 = some b := by
    rw [SymbolTable.Insert, Finds_Insert fb]
  have ra := Finds_resolves fa hc
  have rb := Finds_resolves fb hc
  have hab : a = b ↔ s = t := by
    constructor
    · intro h
      rw [h] at ra
      have := ra.symm.trans rb
      exact Option.some.inj this
    · intro h
      rw [h] at fa
      exact Finds_unique fa fb
  refine ⟨⟨a, b, ea, eb, ra, rb, hab⟩, ?_, ?_⟩
  · rw [ea, eb]
    constructor
    · intro h; exact hab.mp (Option.some.inj h)
    · intro h; rw [hab.mpr h]
  · obtain ⟨h, h1, -⟩ := Insert_resolves hu _ _ hc
    have e1 : ((SymbolTable.new.InsertAll ops).Insert (some u) true).1 = some h := h1
    rw [e1]
    exact fun h => by cases h

/-- C26, witness: after `Play`, `Stop` and `Play` again, `Play` has the handle 0 and
`Stop` the handle 1. -/
theorem C26_interning_injective_witness :
    ((∀ p ∈ [(some (bytes "Play"), true), (some (bytes "Stop"), true),
        (some (bytes "Play"), true)], ∀ x, p.1 = some x → (0 : Nat) ∉ x) ∧
      (0 : Nat) ∉ bytes "Zed") ∧
    ((SymbolTable.new.InsertAll [(some (bytes "Play"), true), (some (bytes "Stop"), true),
        (some (bytes "Play"), true)]).Insert (some (bytes "Play")) false).1 = some 0 ∧
    ((SymbolTable.new.InsertAll [(some (bytes "Play"), true), (some (bytes "Stop"), true),
        (some (bytes "Play"), true)]).Insert (some (bytes "Stop")) true).1 = some 1 ∧
    (((SymbolTable.new.InsertAll [(some (bytes "Play"), true), (some (bytes "Stop"), true),
        (some (bytes "Play"), true)]).Insert (some (bytes "Play")) false).1 =
      ((SymbolTable.new.InsertAll [(some (bytes "Play"), true), (some (bytes "Stop"), true),
        (some (bytes "Play"), true)]).Insert (some (bytes "Stop")) true).1 ↔
        bytes "Play" = bytes "Stop") :=
  ⟨⟨by decide, by decide⟩, by decide, by decide,
    (C26_interning_injective [(some (bytes "Play"), true), (some (bytes "Stop"), true),
        (some (bytes "Play"), true)] (bytes "Play") (bytes "Stop") (bytes "Zed") false true
      (by decide) (by decide) (by decide) (by decide)).2.1⟩

end flow
